import Mathlib

/-!
golife: the incremental Game of Life stepper of `main.go`.

A shallow embedding of the simulation core of `main.go` (neighbour table
precomputation, seeding loop, `runRules`, `runRulesForCell`,
`updateNeighborCount`, `cellFromGrid` and the buffer swap of the main loop),
followed by theorems about it.

Conventions of the embedding.

* A `byte` is a `Nat` below `256`; `c[i]++` is `(b + 1) % 256`, `c[i]--` is
  `(b + 255) % 256`.
* An `int` is an `Int` (no value in the program comes near `2^63`).
* The two arrays `cells` and `nextGen` declared in `run` live in a two-cell
  memory `Mem`; a `*[nrOfCells]byte` is a `Buf` (the name of one of the two
  arrays) and a `*byte` is a `BytePtr` (array name and offset).
* An index expression that is out of range panics in Go: the embedded
  function then returns `none`.
* `gridWidth` and `gridHeight` are compile-time constants of the source.  The
  embedded functions take them as parameters `W` and `H`, so that every
  theorem holds at `gridWidth`, `gridHeight` and can also be evaluated on a
  small grid.
-/

namespace Golife

/-! ## Constants -/

def windowWidth : Nat := 1920
def windowHeight : Nat := 1080
def cellSize : Nat := 3
def gridWidth : Nat := windowWidth / cellSize
def gridHeight : Nat := windowHeight / cellSize
def nrOfCells : Nat := gridWidth * gridHeight

/-- The seeding density `const seed = 0.1`.  A draw of `rand.Float64()` is a
dyadic rational `r`, and `r < seed` in float64 arithmetic holds exactly when
`r < 1/10` holds in the rationals (the float64 nearest to `0.1` lies above
`1/10` and no float64 lies between them). -/
def seed : ℚ := 1 / 10

/-! ## Memory -/

/-- The two arrays declared in `run`: `var cells`, `var nextGen`. -/
inductive Buf where
  | cells
  | nextGen
  deriving DecidableEq

/-- Contents of the two `[nrOfCells]byte` arrays. -/
structure Mem where
  cells : List Nat
  nextGen : List Nat
  deriving DecidableEq

/-- The array a `*[nrOfCells]byte` points to. -/
def Mem.buf (m : Mem) : Buf → List Nat
  | .cells => m.cells
  | .nextGen => m.nextGen

/-- Replace the content of one array. -/
def Mem.setBuf (m : Mem) (p : Buf) (g : List Nat) : Mem :=
  match p with
  | .cells => { m with cells := g }
  | .nextGen => { m with nextGen := g }

/-- A `*byte`: the array it points into and the offset. -/
structure BytePtr where
  buf : Buf
  off : Nat
  deriving DecidableEq

/-- Read through a `*byte`. -/
def load (m : Mem) (p : BytePtr) : Nat := (m.buf p.buf).getD p.off 0

/-- Write through a `*byte`. -/
def store (m : Mem) (p : BytePtr) (v : Nat) : Mem :=
  m.setBuf p.buf ((m.buf p.buf).set p.off v)

/-- The function `cellFromGrid`: `return &c[idx]`, which panics when `idx` is
out of range. -/
def cellFromGrid (m : Mem) (c : Buf) (idx : Int) : Option BytePtr :=
  if 0 ≤ idx ∧ idx < (m.buf c).length then some ⟨c, idx.toNat⟩ else none

/-! ## Neighbour table -/

/-- The two inner loops of the precomputation in `run`: the slice `n` built
for the cell `(row, col)`. -/
def neighborsOfCell (W H : Nat) (row col : Nat) : List Int :=
  let idx : Int := (row : Int) * W + col
  [(row : Int) - 1, row, row + 1].foldl (fun (n : List Int) (nRow : Int) =>
    [(col : Int) - 1, col, col + 1].foldl (fun (n : List Int) (nCol : Int) =>
      let nIdx : Int := nRow * W + nCol
      if (nRow ≥ 0 ∧ nRow < H ∧ nCol ≥ 0 ∧ nCol < W) ∧ idx ≠ nIdx then n ++ [nIdx] else n) n) []

/-- The table `neighborIdxs` after the precomputation loops of `run`.  It
starts as `nrOfCells` nil slices; `neighborIdxs[idx] = n` is a `List.set`
(`idx = row*W + col` is below `W*H` there, see `rowMajor_lt`). -/
def neighborIdxs (W H : Nat) : List (List Int) :=
  (List.range H).foldl (fun (tbl : List (List Int)) (row : Nat) =>
    (List.range W).foldl (fun (tbl : List (List Int)) (col : Nat) =>
      tbl.set (row * W + col) (neighborsOfCell W H row col)) tbl)
    (List.replicate (W * H) [])

/-! ## The stepper -/

/-- The function `updateNeighborCount`: for every `i` of `n[idx]`, `c[i]++`
when `amount > 0` and `c[i]--` otherwise. -/
def updateNeighborCount (m : Mem) (c : Buf) (n : List (List Int)) (idx amount : Int) :
    Option Mem :=
  if 0 ≤ idx then
    match n[idx.toNat]? with
    | none => none
    | some l =>
      l.foldlM (fun (m : Mem) (i : Int) =>
        if 0 ≤ i ∧ i < (m.buf c).length then
          let b := (m.buf c).getD i.toNat 0
          if amount > 0 then
            some (m.setBuf c ((m.buf c).set i.toNat ((b + 1) % 256)))
          else
            some (m.setBuf c ((m.buf c).set i.toNat ((b + 255) % 256)))
        else none) m
  else none

/-- The birth branch of `runRulesForCell`:
`*nextCell |= (1 << 7); updateNeighborCount(nextGenPtr, neighborIdxs, idx, 1)`. -/
def birthBranch (m : Mem) (nextGenPtr : Buf) (nextCell : BytePtr) (n : List (List Int))
    (idx : Int) : Option Mem :=
  updateNeighborCount (store m nextCell (load m nextCell ||| (1 <<< 7))) nextGenPtr n idx 1

/-- The death branch of `runRulesForCell`:
`*nextCell &^= (1 << 7); updateNeighborCount(nextGenPtr, neighborIdxs, idx, -1)`.
On a byte, `x &^ m` is `x & (0xFF ^ m)`. -/
def deathBranch (m : Mem) (nextGenPtr : Buf) (nextCell : BytePtr) (n : List (List Int))
    (idx : Int) : Option Mem :=
  updateNeighborCount (store m nextCell (load m nextCell &&& (0xFF ^^^ (1 <<< 7))))
    nextGenPtr n idx (-1)

/-- The function `runRulesForCell`. -/
def runRulesForCell (m : Mem) (cellsPtr nextGenPtr : Buf) (n : List (List Int)) (idx : Int) :
    Option Mem :=
  match cellFromGrid m cellsPtr idx, cellFromGrid m nextGenPtr idx with
  | some cell, some nextCell =>
    let active : Bool := (load m cell &&& 0x80 == 0x80)
    let neighbors : Nat := load m cell &&& 0x7F
    if !active && neighbors == 3 then
      birthBranch m nextGenPtr nextCell n idx
    else if active && (neighbors == 3 || neighbors == 2) then
      some m
    else if active then
      deathBranch m nextGenPtr nextCell n idx
    else
      some m
  | _, _ => none

/-- The first double loop of `runRules`: `*nextCell = *cell` for every cell. -/
def snapshotCopy (W H : Nat) (m : Mem) (cellsPtr nextGenPtr : Buf) : Option Mem :=
  (List.range H).foldlM (fun (m : Mem) (row : Nat) =>
    (List.range W).foldlM (fun (m : Mem) (col : Nat) =>
      let idx : Int := (row : Int) * W + col
      match cellFromGrid m cellsPtr idx, cellFromGrid m nextGenPtr idx with
      | some cell, some nextCell => some (store m nextCell (load m cell))
      | _, _ => none) m) m

/-- The second double loop of `runRules`: `runRulesForCell` on every cell, in
row-major order. -/
def rulePass (W H : Nat) (m : Mem) (cellsPtr nextGenPtr : Buf) (n : List (List Int)) :
    Option Mem :=
  (List.range H).foldlM (fun (m : Mem) (row : Nat) =>
    (List.range W).foldlM (fun (m : Mem) (col : Nat) =>
      runRulesForCell m cellsPtr nextGenPtr n ((row : Int) * W + col)) m) m

/-- The function `runRules`: the copy, the rule pass, and
`return cellsPtr, nextGenPtr`. -/
def runRules (W H : Nat) (m : Mem) (cellsPtr nextGenPtr : Buf) (n : List (List Int)) :
    Option (Mem × Buf × Buf) :=
  match snapshotCopy W H m cellsPtr nextGenPtr with
  | none => none
  | some m1 =>
    match rulePass W H m1 cellsPtr nextGenPtr n with
    | none => none
    | some m2 => some (m2, cellsPtr, nextGenPtr)

/-! ## Seeding and the main loop -/

/-- The seeding double loop of `run`.  The random source is the sequence
`draw`; the state carries the number of draws consumed so far.  Every cell
consumes one draw `r`; when `r < seed` the cell's high bit is toggled
(`^= 0x80`) and its neighbours' counts are incremented. -/
def seedLoop (W H : Nat) (draw : Nat → ℚ) (m : Mem) (cellsPtr : Buf) (n : List (List Int)) :
    Option (Mem × Nat) :=
  (List.range H).foldlM (fun (s : Mem × Nat) (row : Nat) =>
    (List.range W).foldlM (fun (s : Mem × Nat) (col : Nat) =>
      let r := draw s.2
      if r < seed then
        let idx : Int := (row : Int) * W + col
        match cellFromGrid s.1 cellsPtr idx with
        | some p =>
          match updateNeighborCount (store s.1 p (load s.1 p ^^^ 0x80)) cellsPtr n idx 1 with
          | some m2 => some (m2, s.2 + 1)
          | none => none
        | none => none
      else some (s.1, s.2 + 1)) s) (m, 0)

/-- The local variables of `run` that the main loop changes. -/
structure LoopState where
  mem : Mem
  cellsPtr : Buf
  nextGenPtr : Buf
  deriving DecidableEq

/-- One iteration of the main loop of `run` (`auto` is `true`, so the step is
always taken): `nextGenPtr, cellsPtr = runRules(cellsPtr, nextGenPtr, ...)`
and then `drawBuffer(cellsPtr, buffer)`.  The result is the new state and the
pointer handed to `drawBuffer`. -/
def mainLoopBody (W H : Nat) (n : List (List Int)) (s : LoopState) : Option (LoopState × Buf) :=
  match runRules W H s.mem s.cellsPtr s.nextGenPtr n with
  | none => none
  | some (m, r1, r2) =>
    let s1 : LoopState := { mem := m, cellsPtr := r2, nextGenPtr := r1 }
    some (s1, s1.cellsPtr)

/-! ## Reading a cell -/

/-- The alive flag of a byte, as `runRulesForCell` and `drawBuffer` read it:
`cell&0x80 == 0x80`. -/
def isAlive (b : Nat) : Bool := b &&& 0x80 == 0x80

/-- The neighbour count of a byte, as `runRulesForCell` and `drawBuffer` read
it: `cell & 0x7F`. -/
def count (b : Nat) : Nat := b &&& 0x7F

/-- The alive flag of the cell a table entry `i` refers to. -/
def aliveAt (g : List Nat) (i : Int) : Bool := decide (0 ≤ i) && isAlive (g.getD i.toNat 0)

/-- The number of entries of `n[i]` that refer to an alive cell of `g`. -/
def aliveNeighbors (n : List (List Int)) (g : List Nat) (i : Nat) : Nat :=
  (n.getD i []).countP (aliveAt g)

/-- Invariant I1 of a grid: every cell's count is the number of alive cells
in its neighbour list. -/
def I1 (n : List (List Int)) (g : List Nat) : Prop :=
  ∀ i, i < g.length → count (g.getD i 0) = aliveNeighbors n g i

instance (n : List (List Int)) (g : List Nat) : Decidable (I1 n g) := by
  unfold I1; infer_instance

/-- Every element is a byte. -/
def IsBytes (g : List Nat) : Prop := ∀ i, i < g.length → g.getD i 0 < 256

instance (g : List Nat) : Decidable (IsBytes g) := by
  unfold IsBytes; infer_instance

/-- The byte with alive flag `a` and count `c`. -/
def enc (a : Bool) (c : Nat) : Nat := (if a then 128 else 0) + c

/-- The byte written by `c[i]++` (when `amount > 0`) or `c[i]--`. -/
def tick (amount : Int) (b : Nat) : Nat :=
  if amount > 0 then (b + 1) % 256 else (b + 255) % 256

/-- The effect of `updateNeighborCount` on the array it is given, for the
neighbour list `l`. -/
def bump (amount : Int) (g : List Nat) (l : List Int) : List Nat :=
  l.foldl (fun g i => g.set i.toNat (tick amount (g.getD i.toNat 0))) g

/-! ## Specification-side definitions -/

/-- The Game of Life rule of the specification: a cell is alive in the next
generation when it is alive with 2 or 3 alive neighbours, or dead with
exactly 3. -/
def lifeRule (alive : Bool) (k : Nat) : Bool :=
  (alive && (k == 2 || k == 3)) || (!alive && k == 3)

/-- The eight Moore offsets `(dRow, dCol)`, in row-major order. -/
def mooreOffsets : List (Int × Int) :=
  [(-1, -1), (-1, 0), (-1, 1), (0, -1), (0, 1), (1, -1), (1, 0), (1, 1)]

/-- The offset `d` from `(row, col)` stays inside the `W` by `H` grid. -/
def inGrid (W H row col : Nat) (d : Int × Int) : Bool :=
  decide (0 ≤ (row : Int) + d.1 ∧ (row : Int) + d.1 < H ∧
    0 ≤ (col : Int) + d.2 ∧ (col : Int) + d.2 < W)

/-- The index of the cell at offset `d` from `(row, col)`. -/
def offsetIdx (W row col : Nat) (d : Int × Int) : Int :=
  ((row : Int) + d.1) * W + ((col : Int) + d.2)

/-- The number of alive Moore neighbours of the cell `(row, col)` of `g`,
recomputed from scratch: the eight offsets, those that leave the
`W` by `H` grid dropped (no wraparound). -/
def mooreCount (W H : Nat) (g : List Nat) (row col : Nat) : Nat :=
  mooreOffsets.countP fun d =>
    inGrid W H row col d && isAlive (g.getD (offsetIdx W row col d).toNat 0)

/-- The alive flag `runRulesForCell` leaves for a cell whose byte in the
current generation is `b`. -/
def nextAlive (b : Nat) : Bool := lifeRule (isAlive b) (count b)

/-! ## Auxiliary definitions for the proofs -/

/-- The array `g` holds the alive flags `f` together with the counts that
match them. -/
def Encodes (n : List (List Int)) (f : Nat → Bool) (g : List Nat) : Prop :=
  ∀ j, j < g.length → g.getD j 0 = enc (f j) ((n.getD j []).countP (fun x => f x.toNat))

/-- What the proofs use of a neighbour table for `N` cells. -/
structure TableOK (n : List (List Int)) (N : Nat) : Prop where
  length : n.length = N
  range : ∀ i, i < N → ∀ x ∈ n.getD i [], 0 ≤ x ∧ x < (N : Int)
  nodup : ∀ i, i < N → (n.getD i []).Nodup
  symm : ∀ i j, i < N → j < N → (j : Int) ∈ n.getD i [] → (i : Int) ∈ n.getD j []
  small : ∀ i, i < N → (n.getD i []).length ≤ 8

/-- The effect of `runRulesForCell` for cell `k` on the next-generation array
`g`, reading the current generation `cur`. -/
def cellStep (n : List (List Int)) (cur g : List Nat) (k : Nat) : List Nat :=
  let b := cur.getD k 0
  if !isAlive b && count b == 3 then
    bump 1 (g.set k (g.getD k 0 ||| (1 <<< 7))) (n.getD k [])
  else if isAlive b && (count b == 3 || count b == 2) then g
  else if isAlive b then
    bump (-1) (g.set k (g.getD k 0 &&& (0xFF ^^^ (1 <<< 7)))) (n.getD k [])
  else g

/-- The neighbour slice of the cell with index `k`: row `k / W`, column
`k % W`. -/
def cellNeighbors (W H k : Nat) : List Int := neighborsOfCell W H (k / W) (k % W)

/-- The cell indices in the order in which the double loops of `runRules`
visit them. -/
def rowMajorOrder (W H : Nat) : List Nat :=
  (List.range H).flatMap fun row => (List.range W).map fun col => row * W + col

/-- The next-generation array `runRules` computes from the current
generation `cur`: the snapshot of `cur`, then `cellStep` for every cell in
row-major order. -/
def nextGeneration (W H : Nat) (n : List (List Int)) (cur : List Nat) : List Nat :=
  (rowMajorOrder W H).foldl (cellStep n cur) cur

/-- The rule pass with the cells visited in a given order:
`runRulesForCell` once for every index of `order`. -/
def rulePassIn (order : List Nat) (m : Mem) (cellsPtr nextGenPtr : Buf) (n : List (List Int)) :
    Option Mem :=
  order.foldlM (fun (m : Mem) (k : Nat) => runRulesForCell m cellsPtr nextGenPtr n (k : Int)) m

/-! ## Concrete grids used to instantiate the theorems -/

/-- A 3 by 3 memory: in `cells` the four corners and the centre are alive and
the counts satisfy I1; `nextGen` holds stale bytes. -/
def demoMem : Mem :=
  { cells := [129, 3, 129, 3, 132, 3, 129, 3, 129],
    nextGen := [7, 0, 255, 1, 2, 3, 128, 9, 130] }

/-- A 3 by 3 memory with both arrays zero, as `run` declares them. -/
def zeroMem : Mem :=
  { cells := List.replicate 9 0, nextGen := List.replicate 9 0 }

/-- A sequence of draws: `0` at even positions, `1` at odd ones. -/
def demoDraw (k : Nat) : ℚ := if k % 2 = 0 then 0 else 1

/-- The flags the seeding loop has set after `k` draws: the cells below `k`
whose draw is below `seed`. -/
def seedFlags (draw : Nat → ℚ) (k : Nat) (j : Nat) : Bool := decide (j < k ∧ draw j < seed)

/-- The body of the seeding loop for the cell with index `k`. -/
def seedCell (draw : Nat → ℚ) (cellsPtr : Buf) (n : List (List Int)) (s : Mem × Nat) (k : Nat) :
    Option (Mem × Nat) :=
  let r := draw s.2
  if r < seed then
    let idx : Int := (k : Int)
    match cellFromGrid s.1 cellsPtr idx with
    | some p =>
      match updateNeighborCount (store s.1 p (load s.1 p ^^^ 0x80)) cellsPtr n idx 1 with
      | some m2 => some (m2, s.2 + 1)
      | none => none
    | none => none
  else some (s.1, s.2 + 1)

/-- The state of the main loop before its first step on `demoMem`. -/
def demoState : LoopState :=
  { mem := demoMem, cellsPtr := Buf.cells, nextGenPtr := Buf.nextGen }

/-! ## Iterating the main loop -/

/-- The main loop of `run` run for `k` iterations: `k` times `runRules`
followed by the swap of the two pointers. -/
def mainLoopSteps (W H : Nat) (n : List (List Int)) : Nat → LoopState → Option LoopState
  | 0, s => some s
  | k + 1, s =>
    match mainLoopBody W H n s with
    | none => none
    | some (s1, _) => mainLoopSteps W H n k s1

/-- The current generation of a loop state: the array `cellsPtr` points to. -/
def current (s : LoopState) : List Nat := s.mem.buf s.cellsPtr

/-- The two pointers of a loop state are distinct and both arrays have
`W * H` bytes. -/
def LoopOK (W H : Nat) (s : LoopState) : Prop :=
  s.cellsPtr ≠ s.nextGenPtr ∧ (s.mem.buf s.cellsPtr).length = W * H ∧
    (s.mem.buf s.nextGenPtr).length = W * H

instance (W H : Nat) (s : LoopState) : Decidable (LoopOK W H s) := by
  unfold LoopOK; infer_instance

/-- The alive cells of the `W` by `H` grid `g` are those on which `P` holds:
`P row col` is the alive flag of the cell `(row, col)`. -/
def AlivePattern (W H : Nat) (g : List Nat) (P : Int → Int → Bool) : Prop :=
  ∀ row : Nat, row < H → ∀ col : Nat, col < W →
    isAlive (g.getD (row * W + col) 0) = P row col

instance (W H : Nat) (g : List Nat) (P : Int → Int → Bool) : Decidable (AlivePattern W H g P) := by
  unfold AlivePattern; infer_instance

/-- The 2 by 2 block with top-left cell `(r, c)`. -/
def blockAt (r c : Nat) (row col : Int) : Bool :=
  decide ((row = r ∨ row = r + 1) ∧ (col = c ∨ col = c + 1))

/-- The horizontal blinker centred at `(r, c)`. -/
def blinkerH (r c : Nat) (row col : Int) : Bool :=
  decide (row = r ∧ (col = (c : Int) - 1 ∨ col = c ∨ col = c + 1))

/-- The vertical blinker centred at `(r, c)`. -/
def blinkerV (r c : Nat) (row col : Int) : Bool :=
  decide ((row = (r : Int) - 1 ∨ row = r ∨ row = r + 1) ∧ col = c)

/-- A 4 by 4 loop state whose current generation is the block at `(1, 1)`. -/
def blockState : LoopState :=
  { mem := { cells := [1, 2, 2, 1, 2, 131, 131, 2, 2, 131, 131, 2, 1, 2, 2, 1],
             nextGen := List.replicate 16 0 },
    cellsPtr := Buf.cells, nextGenPtr := Buf.nextGen }

/-- A 3 by 3 loop state whose current generation is the horizontal blinker
centred at `(1, 1)`. -/
def blinkerState : LoopState :=
  { mem := { cells := [2, 3, 2, 129, 130, 129, 2, 3, 2], nextGen := List.replicate 9 0 },
    cellsPtr := Buf.cells, nextGenPtr := Buf.nextGen }

/-- A 3 by 3 loop state whose only alive cell is the centre. -/
def loneState : LoopState :=
  { mem := { cells := [1, 1, 1, 1, 128, 1, 1, 1, 1], nextGen := List.replicate 9 0 },
    cellsPtr := Buf.cells, nextGenPtr := Buf.nextGen }

/-- A 3 by 3 loop state in which every cell is alive. -/
def fullState : LoopState :=
  { mem := { cells := [131, 133, 131, 133, 136, 133, 131, 133, 131],
             nextGen := List.replicate 9 0 },
    cellsPtr := Buf.cells, nextGenPtr := Buf.nextGen }

/-- A 3 by 3 loop state with both arrays zero. -/
def zeroState : LoopState :=
  { mem := zeroMem, cellsPtr := Buf.cells, nextGenPtr := Buf.nextGen }

/-! ## The step with a log of what it does

The same functions as above, with a log added: every execution of the birth
or the death branch and every single `c[i]++` or `c[i]--` is recorded
together with the memory at that moment. -/

/-- An entry of the log. -/
inductive Event where
  /-- The birth branch is entered for `idx`; `before` is the memory then. -/
  | birth (idx : Int) (before : Mem)
  /-- The death branch is entered for `idx`; `before` is the memory then. -/
  | death (idx : Int) (before : Mem)
  /-- One `c[i]++` or `c[i]--`: the memory before and after it. -/
  | tick (before after : Mem)

/-- The function `updateNeighborCount` with every single update logged. -/
def updateNeighborCountLog (m : Mem) (c : Buf) (n : List (List Int)) (idx amount : Int)
    (log : List Event) : Option (Mem × List Event) :=
  if 0 ≤ idx then
    match n[idx.toNat]? with
    | none => none
    | some l =>
      l.foldlM (fun (s : Mem × List Event) (i : Int) =>
        if 0 ≤ i ∧ i < (s.1.buf c).length then
          let b := (s.1.buf c).getD i.toNat 0
          if amount > 0 then
            some (s.1.setBuf c ((s.1.buf c).set i.toNat ((b + 1) % 256)),
              s.2 ++ [Event.tick s.1 (s.1.setBuf c ((s.1.buf c).set i.toNat ((b + 1) % 256)))])
          else
            some (s.1.setBuf c ((s.1.buf c).set i.toNat ((b + 255) % 256)),
              s.2 ++ [Event.tick s.1 (s.1.setBuf c ((s.1.buf c).set i.toNat ((b + 255) % 256)))])
        else none) (m, log)
  else none

/-- The function `runRulesForCell` with the branch taken and the updates
logged. -/
def runRulesForCellLog (m : Mem) (cellsPtr nextGenPtr : Buf) (n : List (List Int)) (idx : Int)
    (log : List Event) : Option (Mem × List Event) :=
  match cellFromGrid m cellsPtr idx, cellFromGrid m nextGenPtr idx with
  | some cell, some nextCell =>
    let active : Bool := (load m cell &&& 0x80 == 0x80)
    let neighbors : Nat := load m cell &&& 0x7F
    if !active && neighbors == 3 then
      updateNeighborCountLog (store m nextCell (load m nextCell ||| (1 <<< 7))) nextGenPtr n
        idx 1 (log ++ [Event.birth idx m])
    else if active && (neighbors == 3 || neighbors == 2) then
      some (m, log)
    else if active then
      updateNeighborCountLog (store m nextCell (load m nextCell &&& (0xFF ^^^ (1 <<< 7))))
        nextGenPtr n idx (-1) (log ++ [Event.death idx m])
    else
      some (m, log)
  | _, _ => none

/-- The function `runRules` with a log: the copy loop, then the rule pass
with `runRulesForCellLog`; the result is the memory and the log. -/
def runRulesLog (W H : Nat) (m : Mem) (cellsPtr nextGenPtr : Buf) (n : List (List Int)) :
    Option (Mem × List Event) :=
  match snapshotCopy W H m cellsPtr nextGenPtr with
  | none => none
  | some m1 =>
    (List.range H).foldlM (fun (s : Mem × List Event) (row : Nat) =>
      (List.range W).foldlM (fun (s : Mem × List Event) (col : Nat) =>
        runRulesForCellLog s.1 cellsPtr nextGenPtr n ((row : Int) * W + col) s.2) s) (m1, [])

/-- The cell a branch entry of the log is about. -/
def branchIdx : Event → Option Int
  | Event.birth idx _ => some idx
  | Event.death idx _ => some idx
  | Event.tick _ _ => none

/-- The decision a branch entry of the log records: `true` for a birth,
`false` for a death, together with the cell. -/
def branchKind : Event → Option (Bool × Int)
  | Event.birth idx _ => some (true, idx)
  | Event.death idx _ => some (false, idx)
  | Event.tick _ _ => none

/-- What the claims say of a log entry, for the next-generation array `np`
of `N` cells: a birth starts from a dead cell, a death from an alive cell,
and a single update leaves every count at most 8 and every flag as it was. -/
def GoodEvent (N : Nat) (np : Buf) : Event → Prop
  | Event.birth idx before => isAlive ((before.buf np).getD idx.toNat 0) = false
  | Event.death idx before => isAlive ((before.buf np).getD idx.toNat 0) = true
  | Event.tick before after =>
    (∀ j, j < N → count ((after.buf np).getD j 0) ≤ 8) ∧
    (∀ j, j < N → isAlive ((after.buf np).getD j 0) = isAlive ((before.buf np).getD j 0))

/-! ## Bytes -/

set_option maxRecDepth 100000 in
theorem isAlive_enc : ∀ c, c < 128 → ∀ a, isAlive (enc a c) = a := by
  unfold isAlive enc; decide

set_option maxRecDepth 100000 in
theorem count_enc : ∀ c, c < 128 → ∀ a, count (enc a c) = c := by
  unfold count enc; decide

set_option maxRecDepth 100000 in
theorem enc_or : ∀ c, c < 128 → (enc false c ||| (1 <<< 7)) = enc true c := by
  unfold enc; decide

set_option maxRecDepth 100000 in
theorem enc_andNot : ∀ c, c < 128 → (enc true c &&& (0xFF ^^^ (1 <<< 7))) = enc false c := by
  unfold enc; decide

set_option maxRecDepth 100000 in
theorem enc_xor : ∀ c, c < 128 → (enc false c ^^^ 0x80) = enc true c := by
  unfold enc; decide

theorem enc_inc (a : Bool) (c : Nat) (h : c < 127) : (enc a c + 1) % 256 = enc a (c + 1) := by
  unfold enc; cases a <;> simp <;> omega

theorem enc_dec (a : Bool) (c : Nat) (h0 : 0 < c) (h : c < 128) :
    (enc a c + 255) % 256 = enc a (c - 1) := by
  unfold enc; cases a <;> simp <;> omega

set_option maxRecDepth 100000 in
theorem enc_isAlive_count : ∀ b, b < 256 → enc (isAlive b) (count b) = b := by
  unfold enc isAlive count; decide

/-! ## Memory lemmas -/

@[simp] theorem buf_setBuf_same (m : Mem) (c : Buf) (g : List Nat) : (m.setBuf c g).buf c = g := by
  cases c <;> rfl

theorem buf_setBuf_of_ne (m : Mem) (c d : Buf) (g : List Nat) (h : d ≠ c) :
    (m.setBuf c g).buf d = m.buf d := by
  cases c <;> cases d <;> first | rfl | exact absurd rfl h

@[simp] theorem setBuf_setBuf (m : Mem) (c : Buf) (g g2 : List Nat) :
    (m.setBuf c g).setBuf c g2 = m.setBuf c g2 := by
  cases c <;> rfl

@[simp] theorem setBuf_buf (m : Mem) (c : Buf) : m.setBuf c (m.buf c) = m := by
  cases c <;> rfl

/-! ## The effect of `updateNeighborCount` -/

theorem bump_nil (amt : Int) (g : List Nat) : bump amt g [] = g := rfl

theorem bump_cons (amt : Int) (g : List Nat) (i : Int) (l : List Int) :
    bump amt g (i :: l) = bump amt (g.set i.toNat (tick amt (g.getD i.toNat 0))) l := rfl

theorem bump_length (amt : Int) (l : List Int) : ∀ g : List Nat, (bump amt g l).length = g.length := by
  induction l with
  | nil => intro g; rfl
  | cons i l ih =>
    intro g
    rw [bump_cons, ih]
    simp

/-- One cell of the array after `updateNeighborCount`: the cells listed in `l`
(listed once, in range) are incremented or decremented, the others are kept. -/
theorem bump_getD (amt : Int) (l : List Int) :
    ∀ g : List Nat, l.Nodup → (∀ x ∈ l, 0 ≤ x ∧ x < g.length) → ∀ j : Nat,
      (bump amt g l).getD j 0 = if (j : Int) ∈ l then tick amt (g.getD j 0) else g.getD j 0 := by
  induction l with
  | nil => intro g _ _ j; simp [bump_nil]
  | cons i l ih =>
    intro g hnd hr j
    have hi := hr i (List.mem_cons_self _ _)
    have hl : ∀ x ∈ l, 0 ≤ x ∧ x < g.length := fun x hx => hr x (List.mem_cons_of_mem _ hx)
    have hnl : l.Nodup := (List.nodup_cons.mp hnd).2
    have hil : i ∉ l := (List.nodup_cons.mp hnd).1
    rw [bump_cons, ih _ hnl (by intro x hx; simpa using hl x hx)]
    have hlen : i.toNat < g.length := by omega
    by_cases hji : (j : Int) = i
    · have hj : i.toNat = j := by omega
      have hnot : (j : Int) ∉ l := hji ▸ hil
      rw [if_neg hnot, if_pos (by simp [hji])]
      subst hj
      simp [List.getD_eq_getElem?_getD, List.getElem?_set, hlen]
    · have hj : i.toNat ≠ j := by omega
      have hsame : (g.set i.toNat (tick amt (g.getD i.toNat 0))).getD j 0 = g.getD j 0 := by
        simp [List.getD_eq_getElem?_getD, List.getElem?_set, hj]
      rw [hsame]
      by_cases hjl : (j : Int) ∈ l
      · rw [if_pos hjl, if_pos (List.mem_cons_of_mem _ hjl)]
      · rw [if_neg hjl, if_neg (by simp [hji, hjl])]

/-- Reduction of `updateNeighborCount` to `bump`: with every listed index in
range there is no panic. -/
theorem updateNeighborCount_eq (m : Mem) (c : Buf) (n : List (List Int)) (k : Nat) (amt : Int)
    (l : List Int) (hk : n[k]? = some l) (hr : ∀ x ∈ l, 0 ≤ x ∧ x < (m.buf c).length) :
    updateNeighborCount m c n (k : Int) amt = some (m.setBuf c (bump amt (m.buf c) l)) := by
  unfold updateNeighborCount
  simp only [Int.natCast_nonneg, if_true, Int.toNat_ofNat, hk]
  clear hk
  have hf : (fun (m : Mem) (i : Int) =>
      if 0 ≤ i ∧ i < (m.buf c).length then
        (if amt > 0 then
          some (m.setBuf c ((m.buf c).set i.toNat (((m.buf c).getD i.toNat 0 + 1) % 256)))
        else some (m.setBuf c ((m.buf c).set i.toNat (((m.buf c).getD i.toNat 0 + 255) % 256))))
      else none) =
      (fun (m : Mem) (i : Int) =>
      if 0 ≤ i ∧ i < (m.buf c).length then
        some (m.setBuf c ((m.buf c).set i.toNat (tick amt ((m.buf c).getD i.toNat 0))))
      else none) := by
    funext m i
    unfold tick
    by_cases ha : amt > 0 <;> simp [ha]
  rw [hf]
  clear hf
  induction l generalizing m with
  | nil => simp [bump_nil]
  | cons i l ih =>
    have hi := hr i (List.mem_cons_self _ _)
    simp only [List.foldlM_cons, hi, and_self, if_true, Option.bind_eq_bind, Option.some_bind]
    rw [ih]
    · simp [bump_cons]
    · intro x hx; simpa using hr x (List.mem_cons_of_mem _ hx)

/-! ## Counting alive neighbours -/

theorem countP_eq_of_not_mem (l : List Int) (a : Int) (p q : Int → Bool)
    (hpq : ∀ x ∈ l, x ≠ a → q x = p x) (ha : a ∉ l) : l.countP q = l.countP p := by
  apply List.countP_congr
  intro x hx
  have hne : x ≠ a := fun h => ha (h ▸ hx)
  rw [hpq x hx hne]

theorem countP_succ_of_mem (l : List Int) (a : Int) (p q : Int → Bool) (hp : p a = false)
    (hq : q a = true) :
    (∀ x ∈ l, x ≠ a → q x = p x) → l.Nodup → a ∈ l → l.countP q = l.countP p + 1 := by
  induction l with
  | nil => intro _ _ h; simp at h
  | cons x l ih =>
    intro hpq hnd hmem
    have hxl : x ∉ l := (List.nodup_cons.mp hnd).1
    have hnl : l.Nodup := (List.nodup_cons.mp hnd).2
    have hpq2 : ∀ y ∈ l, y ≠ a → q y = p y := fun y hy => hpq y (List.mem_cons_of_mem _ hy)
    by_cases hxa : x = a
    · subst hxa
      rw [List.countP_cons_of_pos _ _ hq, List.countP_cons_of_neg _ _ (by simp [hp]),
        countP_eq_of_not_mem l x p q hpq2 hxl]
    · have hal : a ∈ l := by
        rcases List.mem_cons.mp hmem with h | h
        · exact absurd h.symm hxa
        · exact h
      have := ih hpq2 hnl hal
      simp only [List.countP_cons, hpq x (List.mem_cons_self _ _) hxa, this]
      omega

theorem countP_lt_of_mem (l : List Int) (a : Int) (p : Int → Bool) (hp : p a = false)
    (ha : a ∈ l) : l.countP p < l.length := by
  have h1 : l.countP p = (l.filter p).length := List.countP_eq_length_filter p l
  have h2 : (l.filter p).length ≤ l.length := List.length_filter_le p l
  rcases Nat.lt_or_ge (l.countP p) l.length with h | h
  · exact h
  · have h3 : (l.filter p).length = l.length := by omega
    have h4 := (List.filter_length_eq_length.mp h3) a ha
    rw [hp] at h4
    exact absurd h4 (by simp)

theorem countP_pos_of_mem (l : List Int) (a : Int) (p : Int → Bool) (hp : p a = true)
    (ha : a ∈ l) : 0 < l.countP p :=
  List.countP_pos_iff.mpr ⟨a, ha, hp⟩

/-! ## Setting a cell alive or dead keeps flags and counts matched -/

theorem getD_set (g : List Nat) (k j v : Nat) (hk : k < g.length) :
    (g.set k v).getD j 0 = if j = k then v else g.getD j 0 := by
  by_cases h : j = k
  · subst h; simp [List.getD_eq_getElem?_getD, List.getElem?_set, hk]
  · have h2 : k ≠ j := fun e => h e.symm
    simp [List.getD_eq_getElem?_getD, List.getElem?_set, h, h2]

theorem toNat_flag_eq (f : Nat → Bool) (k : Nat) (v : Bool) (x : Int) (hx : 0 ≤ x)
    (hne : x ≠ (k : Int)) : Function.update f k v x.toNat = f x.toNat := by
  apply Function.update_noteq
  omega

/-- The birth step on an array whose counts match its flags: the flag of `k`
goes from dead to alive and the counts match again. -/
theorem encodes_birth (n : List (List Int)) (N : Nat) (f : Nat → Bool) (g : List Nat) (k : Nat)
    (ht : TableOK n N) (hN : g.length = N) (he : Encodes n f g) (hk : k < N)
    (hf : f k = false) (v : Nat) (hv : v = (g.getD k 0 ||| (1 <<< 7)) ∨ v = (g.getD k 0 ^^^ 0x80)) :
    Encodes n (Function.update f k true) (bump 1 (g.set k v) (n.getD k [])) := by
  intro j hj
  rw [bump_length, List.length_set] at hj
  have hjN : j < N := hN ▸ hj
  have hkg : k < g.length := hN ▸ hk
  have hcj : (n.getD j []).countP (fun x => f x.toNat) ≤ 8 :=
    le_trans (List.countP_le_length _) (ht.small j hjN)
  have hck : (n.getD k []).countP (fun x => f x.toNat) ≤ 8 :=
    le_trans (List.countP_le_length _) (ht.small k hk)
  have hg1 : (g.set k v).getD j 0 =
      enc (Function.update f k true j) ((n.getD j []).countP (fun x => f x.toNat)) := by
    rw [getD_set g k j _ hkg]
    by_cases hjk : j = k
    · subst hjk
      rw [if_pos rfl, Function.update_same]
      rcases hv with hv | hv
      · rw [hv, he j hj, hf, enc_or _ (by omega)]
      · rw [hv, he j hj, hf, enc_xor _ (by omega)]
    · rw [if_neg hjk, Function.update_noteq hjk, he j hj]
  rw [bump_getD 1 _ _ (ht.nodup k hk)
    (by intro x hx; rw [List.length_set, hN]; exact ht.range k hk x hx), hg1]
  have hagree : ∀ x ∈ n.getD j [], x ≠ (k : Int) →
      Function.update f k true x.toNat = f x.toNat := fun x hx hne =>
    toNat_flag_eq f k true x (ht.range j hjN x hx).1 hne
  by_cases hmem : (j : Int) ∈ n.getD k []
  · have hkin : (k : Int) ∈ n.getD j [] := ht.symm k j hk hjN hmem
    have h1 := countP_succ_of_mem (n.getD j []) (k : Int) (fun x => f x.toNat)
      (fun x => Function.update f k true x.toNat) (by simpa using hf) (by simp)
      hagree (ht.nodup j hjN) hkin
    have h2 := countP_lt_of_mem (n.getD j []) (k : Int) (fun x => f x.toNat) (by simpa using hf) hkin
    have h3 := ht.small j hjN
    rw [if_pos hmem, h1]
    unfold tick
    rw [if_pos (by decide), enc_inc _ _ (by omega)]
  · have hkin : (k : Int) ∉ n.getD j [] := fun h => hmem (ht.symm j k hjN hk h)
    rw [if_neg hmem, countP_eq_of_not_mem (n.getD j []) (k : Int) (fun x => f x.toNat)
      (fun x => Function.update f k true x.toNat) hagree hkin]

/-- The death step on an array whose counts match its flags: the flag of `k`
goes from alive to dead and the counts match again. -/
theorem encodes_death (n : List (List Int)) (N : Nat) (f : Nat → Bool) (g : List Nat) (k : Nat)
    (ht : TableOK n N) (hN : g.length = N) (he : Encodes n f g) (hk : k < N)
    (hf : f k = true) :
    Encodes n (Function.update f k false)
      (bump (-1) (g.set k (g.getD k 0 &&& (0xFF ^^^ (1 <<< 7)))) (n.getD k [])) := by
  intro j hj
  rw [bump_length, List.length_set] at hj
  have hjN : j < N := hN ▸ hj
  have hkg : k < g.length := hN ▸ hk
  have hcj : (n.getD j []).countP (fun x => f x.toNat) ≤ 8 :=
    le_trans (List.countP_le_length _) (ht.small j hjN)
  have hg1 : (g.set k (g.getD k 0 &&& (0xFF ^^^ (1 <<< 7)))).getD j 0 =
      enc (Function.update f k false j) ((n.getD j []).countP (fun x => f x.toNat)) := by
    rw [getD_set g k j _ hkg]
    by_cases hjk : j = k
    · subst hjk
      rw [if_pos rfl, Function.update_same, he j hj, hf, enc_andNot _ (by omega)]
    · rw [if_neg hjk, Function.update_noteq hjk, he j hj]
  rw [bump_getD (-1) _ _ (ht.nodup k hk)
    (by intro x hx; rw [List.length_set, hN]; exact ht.range k hk x hx), hg1]
  have hagree : ∀ x ∈ n.getD j [], x ≠ (k : Int) →
      f x.toNat = Function.update f k false x.toNat := fun x hx hne =>
    (toNat_flag_eq f k false x (ht.range j hjN x hx).1 hne).symm
  by_cases hmem : (j : Int) ∈ n.getD k []
  · have hkin : (k : Int) ∈ n.getD j [] := ht.symm k j hk hjN hmem
    have h1 := countP_succ_of_mem (n.getD j []) (k : Int)
      (fun x => Function.update f k false x.toNat) (fun x => f x.toNat) (by simp)
      (by simpa using hf) hagree (ht.nodup j hjN) hkin
    rw [if_pos hmem, h1]
    unfold tick
    rw [if_neg (by decide), enc_dec _ _ (by omega) (by omega)]
    simp
  · have hkin : (k : Int) ∉ n.getD j [] := fun h => hmem (ht.symm j k hjN hk h)
    rw [if_neg hmem, countP_eq_of_not_mem (n.getD j []) (k : Int)
      (fun x => Function.update f k false x.toNat) (fun x => f x.toNat) hagree hkin]

/-! ## Invariant I1 and matched flags and counts -/

theorem encodes_flag (n : List (List Int)) (N : Nat) (f : Nat → Bool) (g : List Nat)
    (ht : TableOK n N) (hN : g.length = N) (he : Encodes n f g) (j : Nat) (hj : j < N) :
    isAlive (g.getD j 0) = f j := by
  rw [he j (hN ▸ hj)]
  exact isAlive_enc _ (lt_of_le_of_lt (le_trans (List.countP_le_length _) (ht.small j hj))
    (by decide)) _

theorem encodes_count (n : List (List Int)) (N : Nat) (f : Nat → Bool) (g : List Nat)
    (ht : TableOK n N) (hN : g.length = N) (he : Encodes n f g) (j : Nat) (hj : j < N) :
    count (g.getD j 0) = (n.getD j []).countP (fun x => f x.toNat) := by
  rw [he j (hN ▸ hj)]
  exact count_enc _ (lt_of_le_of_lt (le_trans (List.countP_le_length _) (ht.small j hj))
    (by decide)) _

theorem countP_aliveAt (n : List (List Int)) (N : Nat) (f : Nat → Bool) (g : List Nat)
    (ht : TableOK n N) (hfl : ∀ j, j < N → isAlive (g.getD j 0) = f j) (j : Nat) (hj : j < N) :
    (n.getD j []).countP (aliveAt g) = (n.getD j []).countP (fun x => f x.toNat) := by
  apply List.countP_congr
  intro x hx
  have hr := ht.range j hj x hx
  have hlt : x.toNat < N := by omega
  unfold aliveAt
  simp [-List.getD_eq_getElem?_getD, hr.1, hfl x.toNat hlt]

/-- A byte array satisfying I1 holds its own flags with matching counts. -/
theorem encodes_of_I1 (n : List (List Int)) (N : Nat) (g : List Nat) (ht : TableOK n N)
    (hN : g.length = N) (hb : IsBytes g) (hI : I1 n g) :
    Encodes n (fun j => isAlive (g.getD j 0)) g := by
  intro j hj
  have hjN : j < N := hN ▸ hj
  have h1 := hI j hj
  unfold aliveNeighbors at h1
  rw [countP_aliveAt n N (fun j => isAlive (g.getD j 0)) g ht (fun _ _ => rfl) j hjN] at h1
  rw [← h1]
  exact (enc_isAlive_count _ (hb j hj)).symm

/-- An array holding flags with matching counts satisfies I1, is made of
bytes, and every count is at most 8. -/
theorem I1_of_encodes (n : List (List Int)) (N : Nat) (f : Nat → Bool) (g : List Nat)
    (ht : TableOK n N) (hN : g.length = N) (he : Encodes n f g) :
    I1 n g ∧ IsBytes g ∧ ∀ j, j < N → count (g.getD j 0) ≤ 8 := by
  have hfl := encodes_flag n N f g ht hN he
  have hc := encodes_count n N f g ht hN he
  refine ⟨?_, ?_, ?_⟩
  · intro j hj
    have hjN : j < N := hN ▸ hj
    unfold aliveNeighbors
    rw [countP_aliveAt n N f g ht hfl j hjN, hc j hjN]
  · intro j hj
    have hjN : j < N := hN ▸ hj
    have h8 := le_trans (List.countP_le_length (fun x => f x.toNat)) (ht.small j hjN)
    rw [he j hj]
    unfold enc
    split <;> omega
  · intro j hj
    rw [hc j hj]
    exact le_trans (List.countP_le_length _) (ht.small j hj)

/-! ## One cell of the rule pass -/

theorem cellStep_length (n : List (List Int)) (cur g : List Nat) (k : Nat) :
    (cellStep n cur g k).length = g.length := by
  unfold cellStep
  simp only
  split
  · rw [bump_length, List.length_set]
  · split
    · rfl
    · split
      · rw [bump_length, List.length_set]
      · rfl

theorem nextAlive_cases (b : Nat) :
    (isAlive b = false ∧ count b = 3 ∧ nextAlive b = true) ∨
    (isAlive b = true ∧ (count b = 3 ∨ count b = 2) ∧ nextAlive b = true) ∨
    (isAlive b = true ∧ ¬ (count b = 3 ∨ count b = 2) ∧ nextAlive b = false) ∨
    (isAlive b = false ∧ count b ≠ 3 ∧ nextAlive b = false) := by
  unfold nextAlive lifeRule
  cases h : isAlive b <;> by_cases h3 : count b = 3 <;> by_cases h2 : count b = 2 <;>
    simp [h3, h2]

/-- One call of `runRulesForCell` for a cell whose flag in the next array
is still the current one: the flag becomes the rule's and counts match. -/
theorem encodes_cellStep (n : List (List Int)) (N : Nat) (f : Nat → Bool) (cur g : List Nat)
    (k : Nat) (ht : TableOK n N) (hN : g.length = N) (he : Encodes n f g) (hk : k < N)
    (hf : f k = isAlive (cur.getD k 0)) :
    Encodes n (Function.update f k (nextAlive (cur.getD k 0))) (cellStep n cur g k) := by
  unfold cellStep
  simp only
  generalize cur.getD k 0 = b at hf ⊢
  rcases nextAlive_cases b with ⟨ha, hc, hn⟩ | ⟨ha, hc, hn⟩ | ⟨ha, hc, hn⟩ | ⟨ha, hc, hn⟩
  · rw [hn, if_pos (by simp [ha, hc])]
    exact encodes_birth n N f g k ht hN he hk (hf.trans ha) _ (Or.inl rfl)
  · have hfk : Function.update f k true = f := by
      rw [← ha, ← hf]; exact Function.update_eq_self k f
    rw [hn, if_neg (by simp [ha]), if_pos (by simpa [ha] using hc), hfk]
    exact he
  · have hc2 : ¬ (count b = 3) ∧ ¬ (count b = 2) := by
      constructor <;> intro h <;> exact hc (by simp [h])
    rw [hn, if_neg (by simp [ha]), if_neg (by simp [ha, hc2.1, hc2.2]), if_pos ha]
    exact encodes_death n N f g k ht hN he hk (hf.trans ha)
  · have hfk : Function.update f k false = f := by
      rw [← ha, ← hf]; exact Function.update_eq_self k f
    rw [hn, if_neg (by simp [ha, hc]), if_neg (by simp [ha]), if_neg (by simp [ha]), hfk]
    exact he

/-! ## From the memory model to single arrays -/

theorem cellFromGrid_eq (m : Mem) (c : Buf) (k : Nat) (hk : k < (m.buf c).length) :
    cellFromGrid m c (k : Int) = some ⟨c, k⟩ := by
  unfold cellFromGrid
  rw [if_pos ⟨Int.natCast_nonneg k, by exact_mod_cast hk⟩, Int.toNat_ofNat]

theorem table_lookup (n : List (List Int)) (N k : Nat) (ht : TableOK n N) (hk : k < N) :
    n[k]? = some (n.getD k []) := by
  have h : k < n.length := ht.length ▸ hk
  simp [List.getD_eq_getElem?_getD, List.getElem?_eq_getElem h]

theorem birthBranch_eq (m : Mem) (c : Buf) (n : List (List Int)) (N k : Nat) (ht : TableOK n N)
    (hc : (m.buf c).length = N) (hk : k < N) :
    birthBranch m c ⟨c, k⟩ n (k : Int) = some (m.setBuf c
      (bump 1 ((m.buf c).set k ((m.buf c).getD k 0 ||| (1 <<< 7))) (n.getD k []))) := by
  unfold birthBranch store load
  rw [updateNeighborCount_eq _ c n k 1 _ (table_lookup n N k ht hk)
    (by intro x hx; simpa [hc] using ht.range k hk x hx)]
  simp

theorem deathBranch_eq (m : Mem) (c : Buf) (n : List (List Int)) (N k : Nat) (ht : TableOK n N)
    (hc : (m.buf c).length = N) (hk : k < N) :
    deathBranch m c ⟨c, k⟩ n (k : Int) = some (m.setBuf c
      (bump (-1) ((m.buf c).set k ((m.buf c).getD k 0 &&& (0xFF ^^^ (1 <<< 7))))
        (n.getD k []))) := by
  unfold deathBranch store load
  rw [updateNeighborCount_eq _ c n k (-1) _ (table_lookup n N k ht hk)
    (by intro x hx; simpa [hc] using ht.range k hk x hx)]
  simp

/-- With two arrays of `N` cells and a well-formed table, `runRulesForCell`
does not panic and changes the next-generation array as `cellStep` says. -/
theorem runRulesForCell_eq (m : Mem) (cp np : Buf) (n : List (List Int)) (N k : Nat)
    (ht : TableOK n N) (hcp : (m.buf cp).length = N) (hnp : (m.buf np).length = N)
    (hk : k < N) :
    runRulesForCell m cp np n (k : Int) =
      some (m.setBuf np (cellStep n (m.buf cp) (m.buf np) k)) := by
  unfold runRulesForCell
  rw [cellFromGrid_eq m cp k (hcp ▸ hk), cellFromGrid_eq m np k (hnp ▸ hk)]
  simp only
  rw [birthBranch_eq m np n N k ht hnp hk, deathBranch_eq m np n N k ht hnp hk]
  unfold cellStep load isAlive count
  simp only
  split
  · rfl
  · split
    · simp
    · split
      · rfl
      · simp

/-! ## Loops -/

theorem foldlM_flatMap {σ α β : Type} (f : σ → β → Option σ) (g : α → List β) (l : List α) :
    ∀ s : σ, (l.flatMap g).foldlM f s = l.foldlM (fun s a => (g a).foldlM f s) s := by
  induction l with
  | nil => intro s; rfl
  | cons a l ih =>
    intro s
    rw [List.flatMap_cons, List.foldlM_append, List.foldlM_cons]
    cases h : List.foldlM f s (g a) with
    | none => rfl
    | some s1 => exact ih s1

/-- A double loop over rows and columns is a single loop over the cell indices
in row-major order. -/
theorem foldlM_rows_cols {σ : Type} (W H : Nat) (f : σ → Nat → Option σ) (s : σ) :
    (List.range H).foldlM (fun s row =>
      (List.range W).foldlM (fun s col => f s (row * W + col)) s) s =
    (rowMajorOrder W H).foldlM f s := by
  unfold rowMajorOrder
  rw [foldlM_flatMap]
  congr 1
  funext s row
  rw [List.foldlM_map]

theorem rowMajorOrder_eq_range (W H : Nat) : rowMajorOrder W H = List.range (W * H) := by
  unfold rowMajorOrder
  induction H with
  | zero => simp
  | succ H ih =>
    rw [List.range_succ, List.flatMap_append, ih, Nat.mul_succ, List.range_add]
    simp [Nat.mul_comm]

theorem rowMajor_lt (W H row col : Nat) (hr : row < H) (hc : col < W) : row * W + col < W * H := by
  calc row * W + col < row * W + W := by omega
    _ = (row + 1) * W := by ring
    _ ≤ H * W := Nat.mul_le_mul_right W hr
    _ = W * H := Nat.mul_comm H W

theorem rulePass_eq_rulePassIn (W H : Nat) (m : Mem) (cp np : Buf) (n : List (List Int)) :
    rulePass W H m cp np n = rulePassIn (rowMajorOrder W H) m cp np n := by
  unfold rulePass rulePassIn
  rw [← foldlM_rows_cols]
  simp only [Nat.cast_add, Nat.cast_mul]

/-- The rule pass in any order of in-range cells, reduced to a fold of
`cellStep` over the next-generation array. -/
theorem rulePassIn_eq (n : List (List Int)) (N : Nat) (cp np : Buf) (hne : cp ≠ np)
    (ht : TableOK n N) (order : List Nat) :
    ∀ m : Mem, (m.buf cp).length = N → (m.buf np).length = N → (∀ k ∈ order, k < N) →
      rulePassIn order m cp np n =
        some (m.setBuf np (order.foldl (cellStep n (m.buf cp)) (m.buf np))) := by
  induction order with
  | nil => intro m _ _ _; simp [rulePassIn]
  | cons k order ih =>
    intro m hcp hnp hall
    have hk : k < N := hall k (List.mem_cons_self _ _)
    have hstep := runRulesForCell_eq m cp np n N k ht hcp hnp hk
    have hrest := ih (m.setBuf np (cellStep n (m.buf cp) (m.buf np) k))
      (by rw [buf_setBuf_of_ne _ _ _ _ hne]; exact hcp)
      (by rw [buf_setBuf_same, cellStep_length]; exact hnp)
      (fun k hk => hall k (List.mem_cons_of_mem _ hk))
    unfold rulePassIn at hrest ⊢
    rw [List.foldlM_cons, hstep]
    simp only [Option.bind_eq_bind, Option.some_bind]
    rw [hrest, buf_setBuf_of_ne _ _ _ _ hne]
    simp

theorem foldl_cellStep_length (n : List (List Int)) (cur : List Nat) (order : List Nat) :
    ∀ g : List Nat, (order.foldl (cellStep n cur) g).length = g.length := by
  induction order with
  | nil => intro g; rfl
  | cons k order ih => intro g; rw [List.foldl_cons, ih, cellStep_length]

/-- After the rule pass over `order` (each cell once), the cells of `order`
carry the rule's flag, the others their old flag, and counts match. -/
theorem encodes_foldl_cellStep (n : List (List Int)) (N : Nat) (cur : List Nat)
    (ht : TableOK n N) (order : List Nat) :
    ∀ (f : Nat → Bool) (g : List Nat), g.length = N → Encodes n f g → order.Nodup →
      (∀ k ∈ order, k < N ∧ f k = isAlive (cur.getD k 0)) →
      Encodes n (fun j => if j ∈ order then nextAlive (cur.getD j 0) else f j)
        (order.foldl (cellStep n cur) g) := by
  induction order with
  | nil => intro f g _ he _ _; simpa using he
  | cons k order ih =>
    intro f g hN he hnd hall
    have hk := hall k (List.mem_cons_self _ _)
    have hkn : k ∉ order := (List.nodup_cons.mp hnd).1
    have h1 := encodes_cellStep n N f cur g k ht hN he hk.1 hk.2
    have h2 := ih (Function.update f k (nextAlive (cur.getD k 0))) (cellStep n cur g k)
      (by rw [cellStep_length]; exact hN) h1 (List.nodup_cons.mp hnd).2
      (by
        intro k2 hk2
        have hne : k2 ≠ k := fun e => hkn (e ▸ hk2)
        rw [Function.update_noteq hne]
        exact hall k2 (List.mem_cons_of_mem _ hk2))
    rw [List.foldl_cons]
    have hfun : (fun j => if j ∈ k :: order then nextAlive (cur.getD j 0) else f j) =
        (fun j => if j ∈ order then nextAlive (cur.getD j 0)
          else Function.update f k (nextAlive (cur.getD k 0)) j) := by
      funext j
      by_cases hj : j ∈ order
      · rw [if_pos (List.mem_cons_of_mem _ hj), if_pos hj]
      · rw [if_neg hj]
        by_cases hjk : j = k
        · subst hjk; rw [if_pos (List.mem_cons_self _ _), Function.update_same]
        · rw [if_neg (by simp [hjk, hj]), Function.update_noteq hjk]
    rw [hfun]
    exact h2

/-! ## The snapshot copy -/

theorem ext_getD (g1 g2 : List Nat) (hl : g1.length = g2.length)
    (h : ∀ j, j < g1.length → g1.getD j 0 = g2.getD j 0) : g1 = g2 := by
  apply List.ext_getElem hl
  intro j h1 h2
  have := h j h1
  rwa [List.getD_eq_getElem _ _ h1, List.getD_eq_getElem _ _ h2] at this

theorem copy_foldl_length (cur : List Nat) (order : List Nat) :
    ∀ g : List Nat, (order.foldl (fun g k => g.set k (cur.getD k 0)) g).length = g.length := by
  induction order with
  | nil => intro g; rfl
  | cons k order ih => intro g; rw [List.foldl_cons, ih, List.length_set]

theorem copy_foldl_getD (cur : List Nat) (order : List Nat) :
    ∀ (g : List Nat) (j : Nat), (∀ k ∈ order, k < g.length) →
      (order.foldl (fun g k => g.set k (cur.getD k 0)) g).getD j 0 =
        if j ∈ order then cur.getD j 0 else g.getD j 0 := by
  induction order with
  | nil => intro g j _; simp
  | cons k order ih =>
    intro g j hall
    have hk := hall k (List.mem_cons_self _ _)
    rw [List.foldl_cons, ih _ j (by
      intro k2 hk2; rw [List.length_set]; exact hall k2 (List.mem_cons_of_mem _ hk2)),
      getD_set g k j _ hk]
    by_cases hj : j ∈ order
    · rw [if_pos hj, if_pos (List.mem_cons_of_mem _ hj)]
    · rw [if_neg hj]
      by_cases hjk : j = k
      · subst hjk; rw [if_pos rfl, if_pos (List.mem_cons_self _ _)]
      · rw [if_neg hjk, if_neg (by simp [hjk, hj])]

theorem copy_foldl_eq (cp np : Buf) (hne : cp ≠ np) (N : Nat) (order : List Nat) :
    ∀ m : Mem, (m.buf cp).length = N → (m.buf np).length = N → (∀ k ∈ order, k < N) →
      order.foldlM (fun (m : Mem) (k : Nat) =>
        match cellFromGrid m cp (k : Int), cellFromGrid m np (k : Int) with
        | some cell, some nextCell => some (store m nextCell (load m cell))
        | _, _ => none) m =
      some (m.setBuf np (order.foldl (fun g k => g.set k ((m.buf cp).getD k 0)) (m.buf np))) := by
  induction order with
  | nil => intro m _ _ _; simp
  | cons k order ih =>
    intro m hcp hnp hall
    have hk : k < N := hall k (List.mem_cons_self _ _)
    rw [List.foldlM_cons, cellFromGrid_eq m cp k (hcp ▸ hk), cellFromGrid_eq m np k (hnp ▸ hk)]
    simp only [Option.bind_eq_bind, Option.some_bind]
    have hstep : store m ⟨np, k⟩ (load m ⟨cp, k⟩) =
        m.setBuf np ((m.buf np).set k ((m.buf cp).getD k 0)) := rfl
    rw [hstep, ih _ (by rw [buf_setBuf_of_ne _ _ _ _ hne]; exact hcp)
      (by rw [buf_setBuf_same, List.length_set]; exact hnp)
      (fun k hk => hall k (List.mem_cons_of_mem _ hk)), buf_setBuf_of_ne _ _ _ _ hne]
    simp

/-- The copy loop of `runRules` does not panic and leaves the next-generation
array equal to the current one. -/
theorem snapshotCopy_eq (W H : Nat) (m : Mem) (cp np : Buf) (hne : cp ≠ np)
    (hcp : (m.buf cp).length = W * H) (hnp : (m.buf np).length = W * H) :
    snapshotCopy W H m cp np = some (m.setBuf np (m.buf cp)) := by
  have h1 : snapshotCopy W H m cp np =
      (rowMajorOrder W H).foldlM (fun (m : Mem) (k : Nat) =>
        match cellFromGrid m cp (k : Int), cellFromGrid m np (k : Int) with
        | some cell, some nextCell => some (store m nextCell (load m cell))
        | _, _ => none) m := by
    unfold snapshotCopy
    rw [← foldlM_rows_cols]
    simp only [Nat.cast_add, Nat.cast_mul]
  rw [h1, rowMajorOrder_eq_range, copy_foldl_eq cp np hne (W * H) _ m hcp hnp
    (fun k hk => List.mem_range.mp hk)]
  congr 2
  apply ext_getD
  · rw [copy_foldl_length, hnp, hcp]
  · intro j hj
    rw [copy_foldl_length, hnp] at hj
    rw [copy_foldl_getD _ _ _ _ (fun k hk => hnp ▸ List.mem_range.mp hk),
      if_pos (List.mem_range.mpr hj)]

/-! ## The neighbour list of one cell -/

theorem foldl_append_if {α β : Type} (p : α → Prop) [DecidablePred p] (f : α → β) (l : List α) :
    ∀ init : List β, l.foldl (fun n x => if p x then n ++ [f x] else n) init =
      init ++ (l.filter (fun x => decide (p x))).map f := by
  induction l with
  | nil => intro init; simp
  | cons a l ih =>
    intro init
    rw [List.foldl_cons, ih]
    by_cases h : p a <;> simp [h]

theorem foldl_append_flatMap {α β : Type} (G : α → List β) (l : List α) :
    ∀ init : List β, l.foldl (fun n x => n ++ G x) init = init ++ l.flatMap G := by
  induction l with
  | nil => intro init; simp
  | cons a l ih => intro init; rw [List.foldl_cons, ih]; simp

theorem flatMap_filter_map {α β γ : Type} (p : α → β → Bool) (f : α → β → γ) (cols : List β)
    (rows : List α) :
    rows.flatMap (fun a => (cols.filter (p a)).map (f a)) =
      ((rows.flatMap (fun a => cols.map (fun b => (a, b)))).filter
        (fun ab => p ab.1 ab.2)).map (fun ab => f ab.1 ab.2) := by
  induction rows with
  | nil => rfl
  | cons a rows ih =>
    rw [List.flatMap_cons, List.flatMap_cons, List.filter_append, List.map_append, ih,
      List.filter_map, List.map_map]
    rfl

theorem idx_inj (W r c r2 c2 : Int) (hc : 0 ≤ c) (hcW : c < W) (hc2 : 0 ≤ c2) (hc2W : c2 < W)
    (h : r * W + c = r2 * W + c2) : r = r2 ∧ c = c2 := by
  have hr : r = r2 := by
    rcases lt_trichotomy r r2 with h1 | h1 | h1
    · exfalso
      have h2 : (r + 1) * W ≤ r2 * W := mul_le_mul_of_nonneg_right (by omega) (by omega)
      nlinarith
    · exact h1
    · exfalso
      have h2 : (r2 + 1) * W ≤ r * W := mul_le_mul_of_nonneg_right (by omega) (by omega)
      nlinarith
  subst hr
  exact ⟨rfl, by omega⟩

/-- The slice built by the inner loops, in closed form: the Moore offsets that
stay inside the grid, mapped to cell indices. -/
theorem neighborsOfCell_eq (W H row col : Nat) (hcol : col < W) :
    neighborsOfCell W H row col =
      (mooreOffsets.filter (inGrid W H row col)).map (offsetIdx W row col) := by
  unfold neighborsOfCell
  simp only
  have hinner : (fun (n : List Int) (nRow : Int) =>
      [(col : Int) - 1, col, col + 1].foldl (fun (n : List Int) (nCol : Int) =>
        if (nRow ≥ 0 ∧ nRow < H ∧ nCol ≥ 0 ∧ nCol < W) ∧
            (row : Int) * W + col ≠ nRow * W + nCol then n ++ [nRow * W + nCol] else n) n) =
      (fun (n : List Int) (nRow : Int) => n ++
        ([(col : Int) - 1, col, col + 1].filter (fun (nCol : Int) =>
          decide ((nRow ≥ 0 ∧ nRow < H ∧ nCol ≥ 0 ∧ nCol < W) ∧
            (row : Int) * W + col ≠ nRow * W + nCol))).map (fun (nCol : Int) => nRow * W + nCol)) := by
    funext n nRow
    exact foldl_append_if _ _ _ n
  rw [hinner, foldl_append_flatMap, List.nil_append,
    flatMap_filter_map (fun (nRow nCol : Int) =>
      decide ((nRow ≥ 0 ∧ nRow < H ∧ nCol ≥ 0 ∧ nCol < W) ∧
        (row : Int) * W + col ≠ nRow * W + nCol)) (fun (nRow nCol : Int) => nRow * W + nCol)]
  have hprod : ([(row : Int) - 1, row, row + 1].flatMap
      (fun a => [(col : Int) - 1, col, col + 1].map (fun b => (a, b)))) =
      ([(-1, -1), (-1, 0), (-1, 1), (0, -1), (0, 0), (0, 1), (1, -1), (1, 0), (1, 1)] :
        List (Int × Int)).map (fun d => ((row : Int) + d.1, (col : Int) + d.2)) := by
    simp [sub_eq_add_neg]
  rw [hprod, List.filter_map, List.map_map]
  have hfilter : (([(-1, -1), (-1, 0), (-1, 1), (0, -1), (0, 0), (0, 1), (1, -1), (1, 0), (1, 1)] :
      List (Int × Int)).filter ((fun (ab : Int × Int) =>
        decide ((ab.1 ≥ 0 ∧ ab.1 < H ∧ ab.2 ≥ 0 ∧ ab.2 < W) ∧
          (row : Int) * W + col ≠ ab.1 * W + ab.2)) ∘
        (fun d => ((row : Int) + d.1, (col : Int) + d.2)))) =
      mooreOffsets.filter (inGrid W H row col) := by
    have h8 : mooreOffsets =
        ([(-1, -1), (-1, 0), (-1, 1), (0, -1), (0, 0), (0, 1), (1, -1), (1, 0), (1, 1)] :
          List (Int × Int)).filter (fun d => decide (d ≠ (0, 0))) := by decide
    rw [h8, List.filter_filter]
    apply List.filter_congr
    intro d _
    unfold inGrid
    simp only [Function.comp, ge_iff_le]
    by_cases hin : (0 ≤ (row : Int) + d.1 ∧ (row : Int) + d.1 < H ∧
        0 ≤ (col : Int) + d.2 ∧ (col : Int) + d.2 < W)
    · have hne : ((row : Int) * W + col ≠ ((row : Int) + d.1) * W + ((col : Int) + d.2)) ↔
          d ≠ (0, 0) := by
        constructor
        · intro h hd
          apply h
          rw [hd]; simp
        · intro h heq
          have := idx_inj W row col (row + d.1) (col + d.2) (by omega) (by omega) hin.2.2.1
            hin.2.2.2 heq
          apply h
          ext
          · show d.1 = 0
            omega
          · show d.2 = 0
            omega
      simp only [hin, hne, and_self, true_and, decide_True, Bool.true_and, Bool.and_true]
    · simp [hin]
  rw [hfilter]
  rfl

/-! ## The neighbour table -/

theorem foldl_rows_cols {σ : Type} (W H : Nat) (f : σ → Nat → σ) (s : σ) :
    (List.range H).foldl (fun s row =>
      (List.range W).foldl (fun s col => f s (row * W + col)) s) s =
    (rowMajorOrder W H).foldl f s := by
  unfold rowMajorOrder
  induction H generalizing s with
  | zero => simp
  | succ H ih =>
    rw [List.range_succ, List.foldl_append, List.flatMap_append, List.foldl_append, ih]
    simp [List.foldl_map]

theorem setAll_length {α : Type} (v : Nat → α) (order : List Nat) :
    ∀ t : List α, (order.foldl (fun t k => t.set k (v k)) t).length = t.length := by
  induction order with
  | nil => intro t; rfl
  | cons k order ih => intro t; rw [List.foldl_cons, ih, List.length_set]

theorem setAll_getD {α : Type} (v : Nat → α) (d : α) (order : List Nat) :
    ∀ (t : List α) (j : Nat), (∀ k ∈ order, k < t.length) → order.Nodup →
      (order.foldl (fun t k => t.set k (v k)) t).getD j d =
        if j ∈ order then v j else t.getD j d := by
  induction order with
  | nil => intro t j _ _; simp
  | cons k order ih =>
    intro t j hall hnd
    have hk := hall k (List.mem_cons_self _ _)
    have hkn : k ∉ order := (List.nodup_cons.mp hnd).1
    rw [List.foldl_cons, ih _ j (by
      intro k2 hk2; rw [List.length_set]; exact hall k2 (List.mem_cons_of_mem _ hk2))
      (List.nodup_cons.mp hnd).2]
    by_cases hj : j ∈ order
    · rw [if_pos hj, if_pos (List.mem_cons_of_mem _ hj)]
    · rw [if_neg hj]
      by_cases hjk : j = k
      · subst hjk
        rw [if_pos (List.mem_cons_self _ _)]
        simp [List.getD_eq_getElem?_getD, List.getElem?_set, hk]
      · have hkj : k ≠ j := fun e => hjk e.symm
        rw [if_neg (by simp [hjk, hj])]
        simp [List.getD_eq_getElem?_getD, List.getElem?_set, hkj]

theorem neighborIdxs_eq (W H : Nat) :
    neighborIdxs W H = (List.range (W * H)).foldl (fun t k => t.set k (cellNeighbors W H k))
      (List.replicate (W * H) []) := by
  unfold neighborIdxs
  rw [← rowMajorOrder_eq_range, ← foldl_rows_cols]
  congr 1
  funext t row
  apply List.foldl_ext
  intro t col hcol
  have hc : col < W := List.mem_range.mp hcol
  have hW : 0 < W := by omega
  unfold cellNeighbors
  have h1 : (row * W + col) / W = row := by
    rw [Nat.add_comm, Nat.add_mul_div_right _ _ hW, Nat.div_eq_of_lt hc, Nat.zero_add]
  have h2 : (row * W + col) % W = col := by
    rw [Nat.add_comm, Nat.add_mul_mod_self_right, Nat.mod_eq_of_lt hc]
  rw [h1, h2]

theorem neighborIdxs_length (W H : Nat) : (neighborIdxs W H).length = W * H := by
  rw [neighborIdxs_eq, setAll_length, List.length_replicate]

/-- The table entry of cell `k` is the slice the inner loops build for
row `k / W`, column `k % W`. -/
theorem neighborIdxs_getD (W H k : Nat) (hk : k < W * H) :
    (neighborIdxs W H).getD k [] = cellNeighbors W H k := by
  rw [neighborIdxs_eq, setAll_getD _ _ _ _ _
    (by intro k hk; rw [List.length_replicate]; exact List.mem_range.mp hk)
    (List.nodup_range _), if_pos (List.mem_range.mpr hk)]

theorem row_col_of_lt (W H k : Nat) (hk : k < W * H) : k / W < H ∧ k % W < W := by
  have hW : 0 < W := by
    rcases Nat.eq_zero_or_pos W with h | h
    · subst h; simp at hk
    · exact h
  exact ⟨(Nat.div_lt_iff_lt_mul hW).mpr (by rwa [Nat.mul_comm] at hk), Nat.mod_lt _ hW⟩

theorem mem_cellNeighbors (W H k : Nat) (hk : k < W * H) (x : Int) :
    x ∈ cellNeighbors W H k ↔
      ∃ d ∈ mooreOffsets, inGrid W H (k / W) (k % W) d = true ∧
        x = offsetIdx W (k / W) (k % W) d := by
  unfold cellNeighbors
  rw [neighborsOfCell_eq W H _ _ (row_col_of_lt W H k hk).2]
  simp only [List.mem_map, List.mem_filter]
  constructor
  · rintro ⟨d, ⟨hd, hin⟩, rfl⟩
    exact ⟨d, hd, hin, rfl⟩
  · rintro ⟨d, hd, hin, rfl⟩
    exact ⟨d, ⟨hd, hin⟩, rfl⟩

theorem div_mod_rowMajor (W r c : Nat) (hc : c < W) :
    (r * W + c) / W = r ∧ (r * W + c) % W = c := by
  have hW : 0 < W := by omega
  constructor
  · rw [Nat.add_comm, Nat.add_mul_div_right _ _ hW, Nat.div_eq_of_lt hc, Nat.zero_add]
  · rw [Nat.add_comm, Nat.add_mul_mod_self_right, Nat.mod_eq_of_lt hc]

/-- An offset that stays in the grid leads to a cell `(r, c)` of the grid. -/
theorem inGrid_cell (W H row col : Nat) (d : Int × Int) (h : inGrid W H row col d = true) :
    ∃ r c : Nat, r < H ∧ c < W ∧ (r : Int) = row + d.1 ∧ (c : Int) = col + d.2 ∧
      offsetIdx W row col d = ((r * W + c : Nat) : Int) := by
  unfold inGrid at h
  have h2 := of_decide_eq_true h
  refine ⟨((row : Int) + d.1).toNat, ((col : Int) + d.2).toNat, by omega, by omega,
    by omega, by omega, ?_⟩
  unfold offsetIdx
  push_cast
  rw [Int.toNat_of_nonneg h2.1, Int.toNat_of_nonneg h2.2.2.1]

theorem mooreOffsets_neg : ∀ d ∈ mooreOffsets, (-d.1, -d.2) ∈ mooreOffsets := by decide

theorem mooreOffsets_small : ∀ d ∈ mooreOffsets,
    (-1 ≤ d.1 ∧ d.1 ≤ 1 ∧ -1 ≤ d.2 ∧ d.2 ≤ 1) ∧ (d.1 ≠ 0 ∨ d.2 ≠ 0) := by decide

theorem mem_mooreOffsets (d : Int × Int) (h1 : -1 ≤ d.1 ∧ d.1 ≤ 1 ∧ -1 ≤ d.2 ∧ d.2 ≤ 1)
    (h2 : d.1 ≠ 0 ∨ d.2 ≠ 0) : d ∈ mooreOffsets := by
  obtain ⟨a, b⟩ := d
  simp only at h1 h2
  have ha : a = -1 ∨ a = 0 ∨ a = 1 := by omega
  have hb : b = -1 ∨ b = 0 ∨ b = 1 := by omega
  rcases ha with rfl | rfl | rfl <;> rcases hb with rfl | rfl | rfl <;>
    first
    | exact absurd rfl (by omega : ¬ ((0 : Int) = 0))
    | (unfold mooreOffsets; simp)

theorem cellNeighbors_nodup (W H k : Nat) (hk : k < W * H) : (cellNeighbors W H k).Nodup := by
  unfold cellNeighbors
  rw [neighborsOfCell_eq W H _ _ (row_col_of_lt W H k hk).2]
  apply List.Nodup.map_on
  · intro d1 h1 d2 h2 heq
    have hin1 := of_decide_eq_true (List.mem_filter.mp h1).2
    have hin2 := of_decide_eq_true (List.mem_filter.mp h2).2
    unfold offsetIdx at heq
    have := idx_inj W _ _ _ _ hin1.2.2.1 hin1.2.2.2 hin2.2.2.1 hin2.2.2.2 heq
    ext
    · omega
    · omega
  · exact List.Nodup.filter _ (by decide)

theorem cellNeighbors_length_le (W H k : Nat) (hk : k < W * H) :
    (cellNeighbors W H k).length ≤ 8 := by
  unfold cellNeighbors
  rw [neighborsOfCell_eq W H _ _ (row_col_of_lt W H k hk).2, List.length_map]
  exact List.length_filter_le _ _

theorem cellNeighbors_range (W H k : Nat) (hk : k < W * H) (x : Int)
    (hx : x ∈ cellNeighbors W H k) : 0 ≤ x ∧ x < ((W * H : Nat) : Int) := by
  obtain ⟨d, _, hin, rfl⟩ := (mem_cellNeighbors W H k hk x).mp hx
  obtain ⟨r, c, hr, hc, _, _, he⟩ := inGrid_cell W H _ _ d hin
  rw [he]
  have := rowMajor_lt W H r c hr hc
  constructor
  · exact Int.natCast_nonneg _
  · exact_mod_cast this

theorem cellNeighbors_symm (W H i j : Nat) (hi : i < W * H) (hj : j < W * H)
    (h : (j : Int) ∈ cellNeighbors W H i) : (i : Int) ∈ cellNeighbors W H j := by
  obtain ⟨d, hd, hin, hjx⟩ := (mem_cellNeighbors W H i hi j).mp h
  obtain ⟨r, c, hr, hc, hrd, hcd, he⟩ := inGrid_cell W H _ _ d hin
  have hjeq : j = r * W + c := by
    have : (j : Int) = ((r * W + c : Nat) : Int) := hjx.trans he
    exact_mod_cast this
  have hdm := div_mod_rowMajor W r c hc
  have hic := row_col_of_lt W H i hi
  have h0r : (0 : Int) ≤ ((i / W : Nat) : Int) := Int.natCast_nonneg _
  have h0c : (0 : Int) ≤ ((i % W : Nat) : Int) := Int.natCast_nonneg _
  have h1r : ((i / W : Nat) : Int) < H := by exact_mod_cast hic.1
  have h1c : ((i % W : Nat) : Int) < W := by exact_mod_cast hic.2
  rw [mem_cellNeighbors W H j hj]
  refine ⟨(-d.1, -d.2), mooreOffsets_neg d hd, ?_, ?_⟩
  · rw [hjeq, hdm.1, hdm.2]
    unfold inGrid
    apply decide_eq_true
    simp only
    generalize ((i / W : Nat) : Int) = a at hrd h0r h1r
    generalize ((i % W : Nat) : Int) = b at hcd h0c h1c
    clear hdm hic hjx he hjeq
    omega
  · rw [hjeq, hdm.1, hdm.2]
    unfold offsetIdx
    simp only
    rw [hrd, hcd]
    have hi2 := Nat.div_add_mod i W
    have : (i : Int) = ((W * (i / W) + i % W : Nat) : Int) := by rw [hi2]
    rw [this]
    push_cast
    ring

/-- The table built by the precomputation loops is well formed. -/
theorem tableOK_neighborIdxs (W H : Nat) : TableOK (neighborIdxs W H) (W * H) where
  length := neighborIdxs_length W H
  range := by
    intro i hi x hx
    rw [neighborIdxs_getD W H i hi] at hx
    exact cellNeighbors_range W H i hi x hx
  nodup := by
    intro i hi
    rw [neighborIdxs_getD W H i hi]
    exact cellNeighbors_nodup W H i hi
  symm := by
    intro i j hi hj h
    rw [neighborIdxs_getD W H i hi] at h
    rw [neighborIdxs_getD W H j hj]
    exact cellNeighbors_symm W H i j hi hj h
  small := by
    intro i hi
    rw [neighborIdxs_getD W H i hi]
    exact cellNeighbors_length_le W H i hi

/-! ## The whole step -/

/-- With two distinct arrays of `W * H` cells and a well-formed table,
`runRules` does not panic, returns its two pointers in the order it got them,
and leaves `nextGeneration` in the next-generation array. -/
theorem runRules_eq (W H : Nat) (m : Mem) (cp np : Buf) (n : List (List Int))
    (ht : TableOK n (W * H)) (hne : cp ≠ np) (hcp : (m.buf cp).length = W * H)
    (hnp : (m.buf np).length = W * H) :
    runRules W H m cp np n = some (m.setBuf np (nextGeneration W H n (m.buf cp)), cp, np) := by
  unfold runRules
  rw [snapshotCopy_eq W H m cp np hne hcp hnp]
  simp only
  rw [rulePass_eq_rulePassIn, rulePassIn_eq n (W * H) cp np hne ht _ _
    (by rw [buf_setBuf_of_ne _ _ _ _ hne]; exact hcp) (by rw [buf_setBuf_same]; exact hcp)
    (by intro k hk; rw [rowMajorOrder_eq_range] at hk; exact List.mem_range.mp hk)]
  simp only [buf_setBuf_of_ne _ _ _ _ hne, buf_setBuf_same, setBuf_setBuf]
  rfl

theorem encodes_congr (n : List (List Int)) (N : Nat) (f f2 : Nat → Bool) (g : List Nat)
    (ht : TableOK n N) (hN : g.length = N) (hff : ∀ j, j < N → f j = f2 j)
    (he : Encodes n f g) : Encodes n f2 g := by
  intro j hj
  have hjN : j < N := hN ▸ hj
  rw [he j hj, hff j hjN]
  congr 1
  apply List.countP_congr
  intro x hx
  have hr := ht.range j hjN x hx
  rw [hff x.toNat (by omega)]

theorem encodes_unique (n : List (List Int)) (f : Nat → Bool) (g1 g2 : List Nat)
    (hl : g1.length = g2.length) (h1 : Encodes n f g1) (h2 : Encodes n f g2) : g1 = g2 := by
  apply ext_getD g1 g2 hl
  intro j hj
  rw [h1 j hj, h2 j (hl ▸ hj)]

/-- The rule pass over every cell once, in any order, started from the
snapshot of a current generation that satisfies I1: every cell carries the
flag the rule gives it and the counts match the new flags. -/
theorem encodes_pass (n : List (List Int)) (N : Nat) (cur : List Nat) (ht : TableOK n N)
    (hN : cur.length = N) (hb : IsBytes cur) (hI : I1 n cur) (order : List Nat)
    (hperm : order.Perm (List.range N)) :
    Encodes n (fun j => nextAlive (cur.getD j 0)) (order.foldl (cellStep n cur) cur) := by
  have h0 := encodes_of_I1 n N cur ht hN hb hI
  have hmem : ∀ k, k ∈ order ↔ k < N := fun k => by rw [hperm.mem_iff, List.mem_range]
  have h1 := encodes_foldl_cellStep n N cur ht order _ cur hN h0
    (hperm.nodup_iff.mpr (List.nodup_range N)) (fun k hk => ⟨(hmem k).mp hk, rfl⟩)
  refine encodes_congr n N _ _ _ ht (by rw [foldl_cellStep_length]; exact hN) ?_ h1
  intro j hj
  simp only [if_pos ((hmem j).mpr hj)]

theorem encodes_nextGeneration (W H : Nat) (n : List (List Int)) (cur : List Nat)
    (ht : TableOK n (W * H)) (hN : cur.length = W * H) (hb : IsBytes cur) (hI : I1 n cur) :
    Encodes n (fun j => nextAlive (cur.getD j 0)) (nextGeneration W H n cur) := by
  unfold nextGeneration
  exact encodes_pass n (W * H) cur ht hN hb hI _ (by rw [rowMajorOrder_eq_range])

theorem nextGeneration_length (W H : Nat) (n : List (List Int)) (cur : List Nat) :
    (nextGeneration W H n cur).length = cur.length := by
  unfold nextGeneration
  rw [foldl_cellStep_length]

/-- The count the table gives agrees with the from-scratch Moore count. -/
theorem mooreCount_eq (W H : Nat) (g : List Nat) (row col : Nat) (hr : row < H) (hc : col < W) :
    aliveNeighbors (neighborIdxs W H) g (row * W + col) = mooreCount W H g row col := by
  unfold aliveNeighbors mooreCount
  rw [neighborIdxs_getD W H _ (rowMajor_lt W H row col hr hc)]
  unfold cellNeighbors
  rw [(div_mod_rowMajor W row col hc).1, (div_mod_rowMajor W row col hc).2,
    neighborsOfCell_eq W H row col hc, List.countP_map, List.countP_filter]
  apply List.countP_congr
  intro d _
  cases hin : inGrid W H row col d with
  | false => simp
  | true =>
    obtain ⟨r, c, _, _, _, _, he⟩ := inGrid_cell W H row col d hin
    simp only [Function.comp, Bool.and_true, Bool.true_and]
    have hpos : (0 : Int) ≤ (r : Int) * W + c := by positivity
    unfold aliveAt
    rw [he]
    simp [hpos]

/-! ## Claims -/

/-- C1. Incremental stepping equals the naive Game of Life.  For every memory
whose current array (distinct from the next array, both of `W * H` bytes)
satisfies I1, `runRules` returns, and in the array it wrote the alive flag of
every cell `(row, col)` is set exactly when the cell was alive with 2 or 3
alive Moore neighbours, or dead with exactly 3, the neighbours being counted
from scratch in the current array without wraparound. -/
theorem C1_step_equals_naive_life (W H : Nat) (m : Mem) (cellsPtr nextGenPtr : Buf)
    (hdist : cellsPtr ≠ nextGenPtr)
    (hcur : (m.buf cellsPtr).length = W * H) (hnext : (m.buf nextGenPtr).length = W * H)
    (hbytes : IsBytes (m.buf cellsPtr)) (hI1 : I1 (neighborIdxs W H) (m.buf cellsPtr)) :
    ∃ m2, runRules W H m cellsPtr nextGenPtr (neighborIdxs W H) =
        some (m2, cellsPtr, nextGenPtr) ∧
      ∀ row col, row < H → col < W →
        (isAlive ((m2.buf nextGenPtr).getD (row * W + col) 0) = true ↔
          (isAlive ((m.buf cellsPtr).getD (row * W + col) 0) = true ∧
              (mooreCount W H (m.buf cellsPtr) row col = 2 ∨
                mooreCount W H (m.buf cellsPtr) row col = 3)) ∨
            (isAlive ((m.buf cellsPtr).getD (row * W + col) 0) = false ∧
              mooreCount W H (m.buf cellsPtr) row col = 3)) := by
  have ht := tableOK_neighborIdxs W H
  refine ⟨_, runRules_eq W H m cellsPtr nextGenPtr _ ht hdist hcur hnext, ?_⟩
  intro row col hr hc
  have hk := rowMajor_lt W H row col hr hc
  have henc := encodes_nextGeneration W H _ (m.buf cellsPtr) ht hcur hbytes hI1
  rw [buf_setBuf_same, encodes_flag _ (W * H) _ _ ht
    (by rw [nextGeneration_length]; exact hcur) henc _ hk]
  have hcount := hI1 _ (hcur ▸ hk)
  rw [mooreCount_eq W H _ row col hr hc] at hcount
  unfold nextAlive lifeRule
  rw [hcount]
  cases isAlive ((m.buf cellsPtr).getD (row * W + col) 0) <;> simp

/-- C1 at the 3 by 3 memory `demoMem`. -/
theorem C1_step_equals_naive_life_witness :
    ∃ m2, runRules 3 3 demoMem Buf.cells Buf.nextGen (neighborIdxs 3 3) =
        some (m2, Buf.cells, Buf.nextGen) ∧
      ∀ row col, row < 3 → col < 3 →
        (isAlive ((m2.buf Buf.nextGen).getD (row * 3 + col) 0) = true ↔
          (isAlive ((demoMem.buf Buf.cells).getD (row * 3 + col) 0) = true ∧
              (mooreCount 3 3 (demoMem.buf Buf.cells) row col = 2 ∨
                mooreCount 3 3 (demoMem.buf Buf.cells) row col = 3)) ∨
            (isAlive ((demoMem.buf Buf.cells).getD (row * 3 + col) 0) = false ∧
              mooreCount 3 3 (demoMem.buf Buf.cells) row col = 3)) :=
  C1_step_equals_naive_life 3 3 demoMem Buf.cells Buf.nextGen (by decide) (by decide)
    (by decide) (by decide) (by decide)

/-- C2. The step preserves I1.  For every memory whose current array
(distinct from the next array, both of `W * H` bytes) satisfies I1, whatever
the next array held before, `runRules` returns and the array it wrote
satisfies I1 again. -/
theorem C2_step_preserves_I1 (W H : Nat) (m : Mem) (cellsPtr nextGenPtr : Buf)
    (hdist : cellsPtr ≠ nextGenPtr)
    (hcur : (m.buf cellsPtr).length = W * H) (hnext : (m.buf nextGenPtr).length = W * H)
    (hbytes : IsBytes (m.buf cellsPtr)) (hI1 : I1 (neighborIdxs W H) (m.buf cellsPtr)) :
    ∃ m2, runRules W H m cellsPtr nextGenPtr (neighborIdxs W H) =
        some (m2, cellsPtr, nextGenPtr) ∧
      I1 (neighborIdxs W H) (m2.buf nextGenPtr) := by
  have ht := tableOK_neighborIdxs W H
  refine ⟨_, runRules_eq W H m cellsPtr nextGenPtr _ ht hdist hcur hnext, ?_⟩
  have henc := encodes_nextGeneration W H _ (m.buf cellsPtr) ht hcur hbytes hI1
  rw [buf_setBuf_same]
  exact (I1_of_encodes _ (W * H) _ _ ht (by rw [nextGeneration_length]; exact hcur) henc).1

/-- C2 at the 3 by 3 memory `demoMem`. -/
theorem C2_step_preserves_I1_witness :
    ∃ m2, runRules 3 3 demoMem Buf.cells Buf.nextGen (neighborIdxs 3 3) =
        some (m2, Buf.cells, Buf.nextGen) ∧
      I1 (neighborIdxs 3 3) (m2.buf Buf.nextGen) :=
  C2_step_preserves_I1 3 3 demoMem Buf.cells Buf.nextGen (by decide) (by decide)
    (by decide) (by decide) (by decide)

theorem neighborIdxs_lookup (W H row col : Nat) (hr : row < H) (hc : col < W) :
    (neighborIdxs W H)[row * W + col]? = some (neighborsOfCell W H row col) := by
  have hk := rowMajor_lt W H row col hr hc
  have h := neighborIdxs_getD W H _ hk
  unfold cellNeighbors at h
  rw [(div_mod_rowMajor W row col hc).1, (div_mod_rowMajor W row col hc).2] at h
  rw [table_lookup _ _ _ (tableOK_neighborIdxs W H) hk, h]

theorem mem_neighborsOfCell (W H row col : Nat) (hc : col < W) (x : Int) :
    x ∈ neighborsOfCell W H row col ↔
      ∃ r c : Nat, r < H ∧ c < W ∧ r ≤ row + 1 ∧ row ≤ r + 1 ∧ c ≤ col + 1 ∧ col ≤ c + 1 ∧
        (r ≠ row ∨ c ≠ col) ∧ x = (r : Int) * W + c := by
  rw [neighborsOfCell_eq W H row col hc]
  simp only [List.mem_map, List.mem_filter]
  constructor
  · rintro ⟨d, ⟨hd, hin⟩, rfl⟩
    obtain ⟨r, c, hr2, hc2, hrd, hcd, he⟩ := inGrid_cell W H row col d hin
    have hs := mooreOffsets_small d hd
    refine ⟨r, c, hr2, hc2, by omega, by omega, by omega, by omega, by omega, ?_⟩
    rw [he]
    push_cast
    rfl
  · rintro ⟨r, c, hr2, hc2, h1, h2, h3, h4, hne, rfl⟩
    refine ⟨((r : Int) - row, (c : Int) - col), ⟨?_, ?_⟩, ?_⟩
    · exact mem_mooreOffsets _ (by constructor <;> [skip; constructor <;> [skip; constructor]]
        <;> simp only <;> omega) (by simp only; omega)
    · unfold inGrid
      apply decide_eq_true
      simp only
      omega
    · unfold offsetIdx
      simp only
      ring

/-- C3. Adjacency content.  For every cell `(row, col)` of the `W` by `H`
grid, the table entry `neighborIdxs[row*W + col]` exists; it holds exactly
once the index `r*W + c` of every grid cell `(r, c)` other than `(row, col)`
whose row and column differ from `row` and `col` by at most one; it holds
nothing else; and every listed index lies in `[0, W*H)` (no wraparound). -/
theorem C3_adjacency_content (W H row col : Nat) (hr : row < H) (hc : col < W) :
    ∃ l, (neighborIdxs W H)[row * W + col]? = some l ∧
      (∀ r c : Nat, r < H → c < W → r ≤ row + 1 → row ≤ r + 1 → c ≤ col + 1 → col ≤ c + 1 →
        (r ≠ row ∨ c ≠ col) → l.count ((r : Int) * W + c) = 1) ∧
      (∀ x ∈ l, ∃ r c : Nat, r < H ∧ c < W ∧ r ≤ row + 1 ∧ row ≤ r + 1 ∧
        c ≤ col + 1 ∧ col ≤ c + 1 ∧ (r ≠ row ∨ c ≠ col) ∧ x = (r : Int) * W + c) ∧
      (∀ x ∈ l, 0 ≤ x ∧ x < (W : Int) * H) := by
  have hk := rowMajor_lt W H row col hr hc
  have hcell : cellNeighbors W H (row * W + col) = neighborsOfCell W H row col := by
    unfold cellNeighbors
    rw [(div_mod_rowMajor W row col hc).1, (div_mod_rowMajor W row col hc).2]
  refine ⟨_, neighborIdxs_lookup W H row col hr hc, ?_, ?_, ?_⟩
  · intro r c h1 h2 h3 h4 h5 h6 hne
    apply List.count_eq_one_of_mem
    · rw [← hcell]; exact cellNeighbors_nodup W H _ hk
    · exact (mem_neighborsOfCell W H row col hc _).mpr ⟨r, c, h1, h2, h3, h4, h5, h6, hne, rfl⟩
  · intro x hx
    exact (mem_neighborsOfCell W H row col hc x).mp hx
  · intro x hx
    rw [← hcell] at hx
    have := cellNeighbors_range W H _ hk x hx
    push_cast at this
    exact this

/-- C3 at the centre cell of a 3 by 3 grid. -/
theorem C3_adjacency_content_witness :
    ∃ l, (neighborIdxs 3 3)[1 * 3 + 1]? = some l ∧
      (∀ r c : Nat, r < 3 → c < 3 → r ≤ 1 + 1 → 1 ≤ r + 1 → c ≤ 1 + 1 → 1 ≤ c + 1 →
        (r ≠ 1 ∨ c ≠ 1) → l.count ((r : Int) * (3 : Nat) + c) = 1) ∧
      (∀ x ∈ l, ∃ r c : Nat, r < 3 ∧ c < 3 ∧ r ≤ 1 + 1 ∧ 1 ≤ r + 1 ∧
        c ≤ 1 + 1 ∧ 1 ≤ c + 1 ∧ (r ≠ 1 ∨ c ≠ 1) ∧ x = (r : Int) * (3 : Nat) + c) ∧
      (∀ x ∈ l, 0 ≤ x ∧ x < ((3 : Nat) : Int) * (3 : Nat)) :=
  C3_adjacency_content 3 3 1 1 (by decide) (by decide)

/-- The length of the slice of cell `(row, col)`: valid rows times valid
columns, minus the cell itself. -/
theorem neighborsOfCell_length (W H row col : Nat) (hr : row < H) (hc : col < W) :
    (neighborsOfCell W H row col).length =
      (1 + (if 0 < row then 1 else 0) + (if row + 1 < H then 1 else 0)) *
        (1 + (if 0 < col then 1 else 0) + (if col + 1 < W then 1 else 0)) - 1 := by
  rw [neighborsOfCell_eq W H row col hc, List.length_map, ← List.countP_eq_length_filter]
  unfold mooreOffsets inGrid
  simp only [List.countP_cons, List.countP_nil, decide_eq_true_eq]
  by_cases h1 : 0 < row <;> by_cases h2 : row + 1 < H <;> by_cases h3 : 0 < col <;>
    by_cases h4 : col + 1 < W <;> simp (disch := omega) only [if_pos, if_neg]

theorem gridWidth_eq : gridWidth = 640 := by decide

theorem gridHeight_eq : gridHeight = 360 := by decide

/-- C4. Adjacency sizes in the 640 by 360 grid: the table entry of a corner
cell has length 3, that of a cell on the first or last row or column that is
not a corner has length 5, and that of every other cell has length 8. -/
theorem C4_adjacency_sizes (row col : Nat) (hr : row < gridHeight) (hc : col < gridWidth) :
    ∃ l, (neighborIdxs gridWidth gridHeight)[row * gridWidth + col]? = some l ∧
      l.length =
        if (row = 0 ∨ row = gridHeight - 1) ∧ (col = 0 ∨ col = gridWidth - 1) then 3
        else if row = 0 ∨ row = gridHeight - 1 ∨ col = 0 ∨ col = gridWidth - 1 then 5
        else 8 := by
  refine ⟨_, neighborIdxs_lookup gridWidth gridHeight row col hr hc, ?_⟩
  rw [neighborsOfCell_length gridWidth gridHeight row col hr hc]
  rw [gridWidth_eq] at hc ⊢
  rw [gridHeight_eq] at hr ⊢
  by_cases h1 : 0 < row <;> by_cases h2 : row + 1 < 360 <;> by_cases h3 : 0 < col <;>
    by_cases h4 : col + 1 < 640 <;> simp only [h1, h2, h3, h4, if_true, if_false] <;>
    split_ifs <;> omega

/-- C4 at the top-left corner. -/
theorem C4_adjacency_sizes_witness :
    ∃ l, (neighborIdxs gridWidth gridHeight)[0 * gridWidth + 0]? = some l ∧
      l.length =
        if (0 = 0 ∨ 0 = gridHeight - 1) ∧ (0 = 0 ∨ 0 = gridWidth - 1) then 3
        else if 0 = 0 ∨ 0 = gridHeight - 1 ∨ 0 = 0 ∨ 0 = gridWidth - 1 then 5
        else 8 :=
  C4_adjacency_sizes 0 0 (by decide) (by decide)

theorem countP_set_true (n : List (List Int)) (N : Nat) (f : Nat → Bool) (k j : Nat)
    (ht : TableOK n N) (hk : k < N) (hj : j < N) (hf : f k = false) :
    (n.getD j []).countP (fun x => Function.update f k true x.toNat) =
      (n.getD j []).countP (fun x => f x.toNat) + (if (j : Int) ∈ n.getD k [] then 1 else 0) := by
  have hagree : ∀ x ∈ n.getD j [], x ≠ (k : Int) →
      Function.update f k true x.toNat = f x.toNat := fun x hx hne =>
    toNat_flag_eq f k true x (ht.range j hj x hx).1 hne
  by_cases hmem : (j : Int) ∈ n.getD k []
  · rw [if_pos hmem]
    exact countP_succ_of_mem (n.getD j []) (k : Int) (fun x => f x.toNat)
      (fun x => Function.update f k true x.toNat) (by simpa using hf) (by simp)
      hagree (ht.nodup j hj) (ht.symm k j hk hj hmem)
  · rw [if_neg hmem, Nat.add_zero]
    exact countP_eq_of_not_mem (n.getD j []) (k : Int) (fun x => f x.toNat)
      (fun x => Function.update f k true x.toNat) hagree
      (fun h => hmem (ht.symm j k hj hk h))

theorem countP_set_false (n : List (List Int)) (N : Nat) (f : Nat → Bool) (k j : Nat)
    (ht : TableOK n N) (hk : k < N) (hj : j < N) (hf : f k = true) :
    (n.getD j []).countP (fun x => Function.update f k false x.toNat) +
        (if (j : Int) ∈ n.getD k [] then 1 else 0) =
      (n.getD j []).countP (fun x => f x.toNat) := by
  have hagree : ∀ x ∈ n.getD j [], x ≠ (k : Int) →
      f x.toNat = Function.update f k false x.toNat := fun x hx hne =>
    (toNat_flag_eq f k false x (ht.range j hj x hx).1 hne).symm
  by_cases hmem : (j : Int) ∈ n.getD k []
  · rw [if_pos hmem]
    exact (countP_succ_of_mem (n.getD j []) (k : Int)
      (fun x => Function.update f k false x.toNat) (fun x => f x.toNat) (by simp)
      (by simpa using hf) hagree (ht.nodup j hj) (ht.symm k j hk hj hmem)).symm
  · rw [if_neg hmem, Nat.add_zero]
    exact (countP_eq_of_not_mem (n.getD j []) (k : Int)
      (fun x => Function.update f k false x.toNat) (fun x => f x.toNat) hagree
      (fun h => hmem (ht.symm j k hj hk h))).symm

/-- C5. `set_alive` maintains I1.  For every array of `W * H` bytes that
satisfies I1 and every cell `idx` dead in it, the birth branch (set the high
bit of `idx`, then `updateNeighborCount(.., idx, 1)`) returns; afterwards
`idx` is alive, every other flag is unchanged, the count of every cell listed
in `neighborIdxs[idx]` is one larger, every other count is unchanged, and I1
holds again. -/
theorem C5_set_alive_maintains_I1 (W H : Nat) (m : Mem) (c : Buf) (idx : Nat)
    (hlen : (m.buf c).length = W * H) (hbytes : IsBytes (m.buf c))
    (hI1 : I1 (neighborIdxs W H) (m.buf c)) (hidx : idx < W * H)
    (hdead : isAlive ((m.buf c).getD idx 0) = false) :
    ∃ p m2, cellFromGrid m c (idx : Int) = some p ∧
      birthBranch m c p (neighborIdxs W H) (idx : Int) = some m2 ∧
      isAlive ((m2.buf c).getD idx 0) = true ∧
      (∀ j : Nat, j < W * H → j ≠ idx →
        isAlive ((m2.buf c).getD j 0) = isAlive ((m.buf c).getD j 0)) ∧
      (∀ x ∈ (neighborIdxs W H).getD idx [],
        count ((m2.buf c).getD x.toNat 0) = count ((m.buf c).getD x.toNat 0) + 1) ∧
      (∀ j : Nat, j < W * H → (j : Int) ∉ (neighborIdxs W H).getD idx [] →
        count ((m2.buf c).getD j 0) = count ((m.buf c).getD j 0)) ∧
      I1 (neighborIdxs W H) (m2.buf c) := by
  have ht := tableOK_neighborIdxs W H
  have he := encodes_of_I1 _ (W * H) _ ht hlen hbytes hI1
  have he2 := encodes_birth _ (W * H) _ _ idx ht hlen he hidx hdead _ (Or.inl rfl)
  have hlen2 : (bump 1 ((m.buf c).set idx ((m.buf c).getD idx 0 ||| (1 <<< 7)))
      ((neighborIdxs W H).getD idx [])).length = W * H := by
    rw [bump_length, List.length_set]; exact hlen
  have hflag := encodes_flag _ (W * H) _ _ ht hlen2 he2
  have hcnt2 := encodes_count _ (W * H) _ _ ht hlen2 he2
  have hcnt := encodes_count _ (W * H) _ _ ht hlen he
  refine ⟨⟨c, idx⟩, _, cellFromGrid_eq m c idx (hlen ▸ hidx),
    birthBranch_eq m c _ (W * H) idx ht hlen hidx, ?_, ?_, ?_, ?_, ?_⟩
  · rw [buf_setBuf_same, hflag idx hidx, Function.update_same]
  · intro j hj hne
    rw [buf_setBuf_same, hflag j hj, Function.update_noteq hne]
  · intro x hx
    have hr := ht.range idx hidx x hx
    have hj : x.toNat < W * H := by omega
    have hxe : ((x.toNat : Nat) : Int) = x := Int.toNat_of_nonneg hr.1
    rw [buf_setBuf_same, hcnt2 _ hj, hcnt _ hj,
      countP_set_true _ (W * H) _ idx x.toNat ht hidx hj hdead, hxe, if_pos hx]
  · intro j hj hnot
    rw [buf_setBuf_same, hcnt2 _ hj, hcnt _ hj,
      countP_set_true _ (W * H) _ idx j ht hidx hj hdead, if_neg hnot, Nat.add_zero]
  · rw [buf_setBuf_same]
    exact (I1_of_encodes _ (W * H) _ _ ht hlen2 he2).1

/-- C6. `set_dead` maintains I1.  For every array of `W * H` bytes that
satisfies I1 and every cell `idx` alive in it, the death branch (clear the
high bit of `idx`, then `updateNeighborCount(.., idx, -1)`) returns;
afterwards `idx` is dead, every other flag is unchanged, the count of every
cell listed in `neighborIdxs[idx]` is one smaller, every other count is
unchanged, and I1 holds again. -/
theorem C6_set_dead_maintains_I1 (W H : Nat) (m : Mem) (c : Buf) (idx : Nat)
    (hlen : (m.buf c).length = W * H) (hbytes : IsBytes (m.buf c))
    (hI1 : I1 (neighborIdxs W H) (m.buf c)) (hidx : idx < W * H)
    (halive : isAlive ((m.buf c).getD idx 0) = true) :
    ∃ p m2, cellFromGrid m c (idx : Int) = some p ∧
      deathBranch m c p (neighborIdxs W H) (idx : Int) = some m2 ∧
      isAlive ((m2.buf c).getD idx 0) = false ∧
      (∀ j : Nat, j < W * H → j ≠ idx →
        isAlive ((m2.buf c).getD j 0) = isAlive ((m.buf c).getD j 0)) ∧
      (∀ x ∈ (neighborIdxs W H).getD idx [],
        count ((m2.buf c).getD x.toNat 0) + 1 = count ((m.buf c).getD x.toNat 0)) ∧
      (∀ j : Nat, j < W * H → (j : Int) ∉ (neighborIdxs W H).getD idx [] →
        count ((m2.buf c).getD j 0) = count ((m.buf c).getD j 0)) ∧
      I1 (neighborIdxs W H) (m2.buf c) := by
  have ht := tableOK_neighborIdxs W H
  have he := encodes_of_I1 _ (W * H) _ ht hlen hbytes hI1
  have he2 := encodes_death _ (W * H) _ _ idx ht hlen he hidx halive
  have hlen2 : (bump (-1) ((m.buf c).set idx ((m.buf c).getD idx 0 &&& (0xFF ^^^ (1 <<< 7))))
      ((neighborIdxs W H).getD idx [])).length = W * H := by
    rw [bump_length, List.length_set]; exact hlen
  have hflag := encodes_flag _ (W * H) _ _ ht hlen2 he2
  have hcnt2 := encodes_count _ (W * H) _ _ ht hlen2 he2
  have hcnt := encodes_count _ (W * H) _ _ ht hlen he
  refine ⟨⟨c, idx⟩, _, cellFromGrid_eq m c idx (hlen ▸ hidx),
    deathBranch_eq m c _ (W * H) idx ht hlen hidx, ?_, ?_, ?_, ?_, ?_⟩
  · rw [buf_setBuf_same, hflag idx hidx, Function.update_same]
  · intro j hj hne
    rw [buf_setBuf_same, hflag j hj, Function.update_noteq hne]
  · intro x hx
    have hr := ht.range idx hidx x hx
    have hj : x.toNat < W * H := by omega
    have hxe : ((x.toNat : Nat) : Int) = x := Int.toNat_of_nonneg hr.1
    have h := countP_set_false _ (W * H) (fun j => isAlive ((m.buf c).getD j 0)) idx x.toNat ht
      hidx hj halive
    rw [hxe, if_pos hx] at h
    rw [buf_setBuf_same, hcnt2 _ hj, hcnt _ hj, h]
  · intro j hj hnot
    have h := countP_set_false _ (W * H) (fun j => isAlive ((m.buf c).getD j 0)) idx j ht
      hidx hj halive
    rw [if_neg hnot, Nat.add_zero] at h
    rw [buf_setBuf_same, hcnt2 _ hj, hcnt _ hj, h]
  · rw [buf_setBuf_same]
    exact (I1_of_encodes _ (W * H) _ _ ht hlen2 he2).1

/-- C5 at the 3 by 3 memory `demoMem`, for the dead cell 1. -/
theorem C5_set_alive_maintains_I1_witness :
    ∃ p m2, cellFromGrid demoMem Buf.cells ((1 : Nat) : Int) = some p ∧
      birthBranch demoMem Buf.cells p (neighborIdxs 3 3) ((1 : Nat) : Int) = some m2 ∧
      isAlive ((m2.buf Buf.cells).getD 1 0) = true ∧
      (∀ j : Nat, j < 3 * 3 → j ≠ 1 →
        isAlive ((m2.buf Buf.cells).getD j 0) = isAlive ((demoMem.buf Buf.cells).getD j 0)) ∧
      (∀ x ∈ (neighborIdxs 3 3).getD 1 [],
        count ((m2.buf Buf.cells).getD x.toNat 0) =
          count ((demoMem.buf Buf.cells).getD x.toNat 0) + 1) ∧
      (∀ j : Nat, j < 3 * 3 → (j : Int) ∉ (neighborIdxs 3 3).getD 1 [] →
        count ((m2.buf Buf.cells).getD j 0) = count ((demoMem.buf Buf.cells).getD j 0)) ∧
      I1 (neighborIdxs 3 3) (m2.buf Buf.cells) :=
  C5_set_alive_maintains_I1 3 3 demoMem Buf.cells 1 (by decide) (by decide) (by decide)
    (by decide) (by decide)

/-- C6 at the 3 by 3 memory `demoMem`, for the alive cell 4. -/
theorem C6_set_dead_maintains_I1_witness :
    ∃ p m2, cellFromGrid demoMem Buf.cells ((4 : Nat) : Int) = some p ∧
      deathBranch demoMem Buf.cells p (neighborIdxs 3 3) ((4 : Nat) : Int) = some m2 ∧
      isAlive ((m2.buf Buf.cells).getD 4 0) = false ∧
      (∀ j : Nat, j < 3 * 3 → j ≠ 4 →
        isAlive ((m2.buf Buf.cells).getD j 0) = isAlive ((demoMem.buf Buf.cells).getD j 0)) ∧
      (∀ x ∈ (neighborIdxs 3 3).getD 4 [],
        count ((m2.buf Buf.cells).getD x.toNat 0) + 1 =
          count ((demoMem.buf Buf.cells).getD x.toNat 0)) ∧
      (∀ j : Nat, j < 3 * 3 → (j : Int) ∉ (neighborIdxs 3 3).getD 4 [] →
        count ((m2.buf Buf.cells).getD j 0) = count ((demoMem.buf Buf.cells).getD j 0)) ∧
      I1 (neighborIdxs 3 3) (m2.buf Buf.cells) :=
  C6_set_dead_maintains_I1 3 3 demoMem Buf.cells 4 (by decide) (by decide) (by decide)
    (by decide) (by decide)

/-! ## Seeding -/

theorem seedLoop_eq (W H : Nat) (draw : Nat → ℚ) (m : Mem) (c : Buf) (n : List (List Int)) :
    seedLoop W H draw m c n = (List.range (W * H)).foldlM (seedCell draw c n) (m, 0) := by
  unfold seedLoop
  rw [← rowMajorOrder_eq_range, ← foldlM_rows_cols]
  unfold seedCell
  simp only [Nat.cast_add, Nat.cast_mul]

theorem seedFlags_zero (draw : Nat → ℚ) : seedFlags draw 0 = fun _ => false := by
  funext j
  unfold seedFlags
  simp

theorem seedFlags_succ_hit (draw : Nat → ℚ) (k : Nat) (h : draw k < seed) :
    seedFlags draw (k + 1) = Function.update (seedFlags draw k) k true := by
  funext j
  unfold seedFlags
  by_cases hj : j = k
  · subst hj; simp [h]
  · rw [Function.update_noteq hj]
    have : (j < k + 1) = (j < k) := by
      apply propext; omega
    simp only [this]

theorem seedFlags_succ_miss (draw : Nat → ℚ) (k : Nat) (h : ¬ draw k < seed) :
    seedFlags draw (k + 1) = seedFlags draw k := by
  funext j
  unfold seedFlags
  by_cases hj : j = k
  · subst hj; simp [h]
  · have : (j < k + 1) = (j < k) := by
      apply propext; omega
    simp only [this]

/-- One iteration of the seeding loop keeps flags and counts matched. -/
theorem seedCell_step (n : List (List Int)) (N : Nat) (draw : Nat → ℚ) (m : Mem) (c : Buf)
    (g : List Nat) (k : Nat) (ht : TableOK n N) (hk : k < N) (hN : g.length = N)
    (he : Encodes n (seedFlags draw k) g) :
    ∃ g2, seedCell draw c n (m.setBuf c g, k) k = some (m.setBuf c g2, k + 1) ∧
      g2.length = N ∧ Encodes n (seedFlags draw (k + 1)) g2 := by
  unfold seedCell
  simp only
  by_cases h : draw k < seed
  · rw [if_pos h, cellFromGrid_eq _ c k (by rw [buf_setBuf_same, hN]; exact hk)]
    simp only
    have hstore : store (m.setBuf c g) ⟨c, k⟩ (load (m.setBuf c g) ⟨c, k⟩ ^^^ 0x80) =
        m.setBuf c (g.set k (g.getD k 0 ^^^ 0x80)) := by
      unfold store load
      simp
    rw [hstore, updateNeighborCount_eq _ c n k 1 _ (table_lookup n N k ht hk)
      (by intro x hx; simpa [hN] using ht.range k hk x hx)]
    simp only [buf_setBuf_same, setBuf_setBuf]
    refine ⟨_, rfl, by rw [bump_length, List.length_set]; exact hN, ?_⟩
    rw [seedFlags_succ_hit draw k h]
    exact encodes_birth n N _ g k ht hN he hk (by unfold seedFlags; simp) _ (Or.inr rfl)
  · rw [if_neg h]
    exact ⟨g, rfl, hN, by rw [seedFlags_succ_miss draw k h]; exact he⟩

theorem encodes_zero (n : List (List Int)) (N : Nat) (draw : Nat → ℚ) :
    Encodes n (seedFlags draw 0) (List.replicate N 0) := by
  intro j hj
  rw [List.length_replicate] at hj
  rw [seedFlags_zero]
  simp [enc, List.getD_eq_getElem?_getD, hj]

/-- The seeding loop started on a zero array: after the first `k` cells the
state is the array holding `seedFlags draw k` with matching counts, and `k`
draws have been consumed. -/
theorem seed_upto (n : List (List Int)) (N : Nat) (draw : Nat → ℚ) (m : Mem) (c : Buf)
    (ht : TableOK n N) (hzero : m.buf c = List.replicate N 0) (k : Nat) (hk : k ≤ N) :
    ∃ g, (List.range k).foldlM (seedCell draw c n) (m, 0) = some (m.setBuf c g, k) ∧
      g.length = N ∧ Encodes n (seedFlags draw k) g := by
  induction k with
  | zero =>
    refine ⟨List.replicate N 0, ?_, List.length_replicate _ _, encodes_zero n N draw⟩
    rw [← hzero, setBuf_buf]
    rfl
  | succ k ih =>
    obtain ⟨g, hrun, hN, he⟩ := ih (by omega)
    obtain ⟨g2, hstep, hN2, he2⟩ := seedCell_step n N draw m c g k ht (by omega) hN he
    refine ⟨g2, ?_, hN2, he2⟩
    rw [List.range_succ, List.foldlM_append, hrun]
    simp only [Option.bind_eq_bind, Option.some_bind, List.foldlM_cons, List.foldlM_nil]
    rw [hstep]
    rfl

theorem encodes_seedFlags_congr (n : List (List Int)) (N : Nat) (draw draw2 : Nat → ℚ)
    (g : List Nat) (ht : TableOK n N) (hN : g.length = N)
    (hd : ∀ k, k < N → draw2 k = draw k) (he : Encodes n (seedFlags draw2 N) g) :
    Encodes n (seedFlags draw N) g := by
  refine encodes_congr n N _ _ g ht hN ?_ he
  intro j hj
  unfold seedFlags
  rw [hd j hj]

/-- C7. Seeding sets exactly the drawn cells alive and is a function of the
draws.  Started on an all-zero array of `W * H` bytes, for every sequence of
draws the seeding loop returns having consumed one draw per cell; the cell
`(row, col)` is alive afterwards exactly when draw number `row*W + col` is
below `seed`; and a second sequence with the same first `W * H` draws gives
the same memory. -/
theorem C7_seeding_sets_drawn_cells (W H : Nat) (draw : Nat → ℚ) (m : Mem) (cellsPtr : Buf)
    (hzero : m.buf cellsPtr = List.replicate (W * H) 0) :
    ∃ m2, seedLoop W H draw m cellsPtr (neighborIdxs W H) = some (m2, W * H) ∧
      (∀ row col, row < H → col < W →
        (isAlive ((m2.buf cellsPtr).getD (row * W + col) 0) = true ↔
          draw (row * W + col) < seed)) ∧
      (∀ draw2 : Nat → ℚ, (∀ k, k < W * H → draw2 k = draw k) →
        seedLoop W H draw2 m cellsPtr (neighborIdxs W H) =
          seedLoop W H draw m cellsPtr (neighborIdxs W H)) := by
  have ht := tableOK_neighborIdxs W H
  obtain ⟨g, hrun, hN, he⟩ := seed_upto _ (W * H) draw m cellsPtr ht hzero (W * H) le_rfl
  refine ⟨m.setBuf cellsPtr g, by rw [seedLoop_eq]; exact hrun, ?_, ?_⟩
  · intro row col hr hc
    have hk := rowMajor_lt W H row col hr hc
    rw [buf_setBuf_same, encodes_flag _ (W * H) _ g ht hN he _ hk]
    unfold seedFlags
    simp [hk]
  · intro draw2 hd
    obtain ⟨g2, hrun2, hN2, he2⟩ :=
      seed_upto _ (W * H) draw2 m cellsPtr ht hzero (W * H) le_rfl
    have he3 := encodes_seedFlags_congr _ (W * H) draw draw2 g2 ht hN2 hd he2
    have hgg : g2 = g := encodes_unique _ _ g2 g (by rw [hN2, hN]) he3 he
    rw [seedLoop_eq, seedLoop_eq, hrun, hrun2, hgg]

/-- C7 at the 3 by 3 zero memory with the draws `demoDraw`. -/
theorem C7_seeding_sets_drawn_cells_witness :
    ∃ m2, seedLoop 3 3 demoDraw zeroMem Buf.cells (neighborIdxs 3 3) = some (m2, 3 * 3) ∧
      (∀ row col, row < 3 → col < 3 →
        (isAlive ((m2.buf Buf.cells).getD (row * 3 + col) 0) = true ↔
          demoDraw (row * 3 + col) < seed)) ∧
      (∀ draw2 : Nat → ℚ, (∀ k, k < 3 * 3 → draw2 k = demoDraw k) →
        seedLoop 3 3 draw2 zeroMem Buf.cells (neighborIdxs 3 3) =
          seedLoop 3 3 demoDraw zeroMem Buf.cells (neighborIdxs 3 3)) :=
  C7_seeding_sets_drawn_cells 3 3 demoDraw zeroMem Buf.cells (by decide)

/-- C8. Seeding establishes I1.  Started on an all-zero array of `W * H`
bytes, for every sequence of draws the seeding loop returns, the seeded array
satisfies I1, and every count in it is at most 8. -/
theorem C8_seeding_establishes_I1 (W H : Nat) (draw : Nat → ℚ) (m : Mem) (cellsPtr : Buf)
    (hzero : m.buf cellsPtr = List.replicate (W * H) 0) :
    ∃ m2, seedLoop W H draw m cellsPtr (neighborIdxs W H) = some (m2, W * H) ∧
      I1 (neighborIdxs W H) (m2.buf cellsPtr) ∧
      ∀ j, j < W * H → count ((m2.buf cellsPtr).getD j 0) ≤ 8 := by
  have ht := tableOK_neighborIdxs W H
  obtain ⟨g, hrun, hN, he⟩ := seed_upto _ (W * H) draw m cellsPtr ht hzero (W * H) le_rfl
  have h := I1_of_encodes _ (W * H) _ g ht hN he
  refine ⟨m.setBuf cellsPtr g, by rw [seedLoop_eq]; exact hrun, ?_, ?_⟩
  · rw [buf_setBuf_same]; exact h.1
  · rw [buf_setBuf_same]; exact h.2.2

/-- C8 at the 3 by 3 zero memory with the draws `demoDraw`. -/
theorem C8_seeding_establishes_I1_witness :
    ∃ m2, seedLoop 3 3 demoDraw zeroMem Buf.cells (neighborIdxs 3 3) = some (m2, 3 * 3) ∧
      I1 (neighborIdxs 3 3) (m2.buf Buf.cells) ∧
      ∀ j, j < 3 * 3 → count ((m2.buf Buf.cells).getD j 0) ≤ 8 :=
  C8_seeding_establishes_I1 3 3 demoDraw zeroMem Buf.cells (by decide)

/-- C9. Buffer roles swap after every step.  With two distinct arrays of
`W * H` bytes, `runRules` returns its two pointers in the order (current,
next) in which it got them; the assignment of the main loop then makes
`cellsPtr` the array that was just written, which holds the newly computed
generation, and `nextGenPtr` the array of the previous generation, which is
unchanged; the pointer handed to `drawBuffer` is the new `cellsPtr`. -/
theorem C9_buffer_roles_swap (W H : Nat) (s : LoopState) (hdist : s.cellsPtr ≠ s.nextGenPtr)
    (hcur : (s.mem.buf s.cellsPtr).length = W * H)
    (hnext : (s.mem.buf s.nextGenPtr).length = W * H) :
    ∃ m2 s2 drawn,
      runRules W H s.mem s.cellsPtr s.nextGenPtr (neighborIdxs W H) =
        some (m2, s.cellsPtr, s.nextGenPtr) ∧
      mainLoopBody W H (neighborIdxs W H) s = some (s2, drawn) ∧
      s2.mem = m2 ∧ s2.cellsPtr = s.nextGenPtr ∧ s2.nextGenPtr = s.cellsPtr ∧
      drawn = s2.cellsPtr ∧
      s2.mem.buf s2.cellsPtr =
        nextGeneration W H (neighborIdxs W H) (s.mem.buf s.cellsPtr) ∧
      s2.mem.buf s2.nextGenPtr = s.mem.buf s.cellsPtr := by
  have ht := tableOK_neighborIdxs W H
  have hrun := runRules_eq W H s.mem s.cellsPtr s.nextGenPtr _ ht hdist hcur hnext
  refine ⟨_, LoopState.mk (s.mem.setBuf s.nextGenPtr
      (nextGeneration W H (neighborIdxs W H) (s.mem.buf s.cellsPtr))) s.nextGenPtr s.cellsPtr,
    s.nextGenPtr, hrun, ?_, rfl, rfl, rfl, rfl, ?_, ?_⟩
  · unfold mainLoopBody
    rw [hrun]
  · simp only [buf_setBuf_same]
  · simp only [buf_setBuf_of_ne _ _ _ _ hdist]

/-- C9 at the first step of the main loop on `demoMem`. -/
theorem C9_buffer_roles_swap_witness :
    ∃ m2 s2 drawn,
      runRules 3 3 demoState.mem demoState.cellsPtr demoState.nextGenPtr (neighborIdxs 3 3) =
        some (m2, demoState.cellsPtr, demoState.nextGenPtr) ∧
      mainLoopBody 3 3 (neighborIdxs 3 3) demoState = some (s2, drawn) ∧
      s2.mem = m2 ∧ s2.cellsPtr = demoState.nextGenPtr ∧ s2.nextGenPtr = demoState.cellsPtr ∧
      drawn = s2.cellsPtr ∧
      s2.mem.buf s2.cellsPtr =
        nextGeneration 3 3 (neighborIdxs 3 3) (demoState.mem.buf demoState.cellsPtr) ∧
      s2.mem.buf s2.nextGenPtr = demoState.mem.buf demoState.cellsPtr :=
  C9_buffer_roles_swap 3 3 demoState (by decide) (by decide) (by decide)

/-- C10. The rule-evaluation pass is order-independent.  For every memory
whose current array (distinct from the next array, both of `W * H` bytes)
satisfies I1, the snapshot copy returns, and after it `runRulesForCell`
applied once to every cell index in any permutation of the indices returns
the same memory as the row-major pass of `runRules`. -/
theorem C10_rule_pass_order_independent (W H : Nat) (m : Mem) (cellsPtr nextGenPtr : Buf)
    (order : List Nat) (hdist : cellsPtr ≠ nextGenPtr)
    (hcur : (m.buf cellsPtr).length = W * H) (hnext : (m.buf nextGenPtr).length = W * H)
    (hbytes : IsBytes (m.buf cellsPtr)) (hI1 : I1 (neighborIdxs W H) (m.buf cellsPtr))
    (hperm : order.Perm (rowMajorOrder W H)) :
    ∃ m1 m2, snapshotCopy W H m cellsPtr nextGenPtr = some m1 ∧
      rulePass W H m1 cellsPtr nextGenPtr (neighborIdxs W H) = some m2 ∧
      rulePassIn order m1 cellsPtr nextGenPtr (neighborIdxs W H) = some m2 := by
  have ht := tableOK_neighborIdxs W H
  have hc1 : ((m.setBuf nextGenPtr (m.buf cellsPtr)).buf cellsPtr).length = W * H := by
    rw [buf_setBuf_of_ne _ _ _ _ hdist]; exact hcur
  have hn1 : ((m.setBuf nextGenPtr (m.buf cellsPtr)).buf nextGenPtr).length = W * H := by
    rw [buf_setBuf_same]; exact hcur
  have hperm2 : order.Perm (List.range (W * H)) := by rw [← rowMajorOrder_eq_range]; exact hperm
  have hmem : ∀ k ∈ order, k < W * H := fun k hk => List.mem_range.mp (hperm2.mem_iff.mp hk)
  refine ⟨_, (m.setBuf nextGenPtr (m.buf cellsPtr)).setBuf nextGenPtr
      ((rowMajorOrder W H).foldl
        (cellStep (neighborIdxs W H) ((m.setBuf nextGenPtr (m.buf cellsPtr)).buf cellsPtr))
        ((m.setBuf nextGenPtr (m.buf cellsPtr)).buf nextGenPtr)),
    snapshotCopy_eq W H m cellsPtr nextGenPtr hdist hcur hnext, ?_, ?_⟩
  · rw [rulePass_eq_rulePassIn]
    exact rulePassIn_eq _ (W * H) cellsPtr nextGenPtr hdist ht _ _ hc1 hn1
      (by intro k hk; rw [rowMajorOrder_eq_range] at hk; exact List.mem_range.mp hk)
  · rw [rulePassIn_eq _ (W * H) cellsPtr nextGenPtr hdist ht order _ hc1 hn1 hmem]
    congr 2
    simp only [buf_setBuf_of_ne _ _ _ _ hdist, buf_setBuf_same]
    have e1 := encodes_pass _ (W * H) (m.buf cellsPtr) ht hcur hbytes hI1 order hperm2
    have e2 := encodes_pass _ (W * H) (m.buf cellsPtr) ht hcur hbytes hI1 (rowMajorOrder W H)
      (by rw [rowMajorOrder_eq_range])
    exact encodes_unique _ _ _ _ (by rw [foldl_cellStep_length, foldl_cellStep_length]) e1 e2

/-- C10 at the 3 by 3 memory `demoMem`, the cells visited in reverse order. -/
theorem C10_rule_pass_order_independent_witness :
    ∃ m1 m2, snapshotCopy 3 3 demoMem Buf.cells Buf.nextGen = some m1 ∧
      rulePass 3 3 m1 Buf.cells Buf.nextGen (neighborIdxs 3 3) = some m2 ∧
      rulePassIn (rowMajorOrder 3 3).reverse m1 Buf.cells Buf.nextGen (neighborIdxs 3 3) =
        some m2 :=
  C10_rule_pass_order_independent 3 3 demoMem Buf.cells Buf.nextGen (rowMajorOrder 3 3).reverse
    (by decide) (by decide) (by decide) (by decide) (by decide) (List.reverse_perm _)

/-- C18. The step result does not depend on the stale next buffer.  For every
current array of `W * H` bytes and any two contents `A` and `B` of the next
array, `runRules` returns in both cases and leaves the same next array; and
right after the copy loop the next array equals the current one, which is
unchanged. -/
theorem C18_step_ignores_stale_next (W H : Nat) (m : Mem) (cellsPtr nextGenPtr : Buf)
    (A B : List Nat) (hdist : cellsPtr ≠ nextGenPtr)
    (hcur : (m.buf cellsPtr).length = W * H) (hA : A.length = W * H) (hB : B.length = W * H) :
    (∃ rA rB,
      runRules W H (m.setBuf nextGenPtr A) cellsPtr nextGenPtr (neighborIdxs W H) =
        some (rA, cellsPtr, nextGenPtr) ∧
      runRules W H (m.setBuf nextGenPtr B) cellsPtr nextGenPtr (neighborIdxs W H) =
        some (rB, cellsPtr, nextGenPtr) ∧
      rA.buf nextGenPtr = rB.buf nextGenPtr) ∧
    (∃ m1, snapshotCopy W H (m.setBuf nextGenPtr A) cellsPtr nextGenPtr = some m1 ∧
      m1.buf nextGenPtr = m.buf cellsPtr ∧ m1.buf cellsPtr = m.buf cellsPtr) := by
  have ht := tableOK_neighborIdxs W H
  have hcA : ((m.setBuf nextGenPtr A).buf cellsPtr).length = W * H := by
    rw [buf_setBuf_of_ne _ _ _ _ hdist]; exact hcur
  have hcB : ((m.setBuf nextGenPtr B).buf cellsPtr).length = W * H := by
    rw [buf_setBuf_of_ne _ _ _ _ hdist]; exact hcur
  have hnA : ((m.setBuf nextGenPtr A).buf nextGenPtr).length = W * H := by
    rw [buf_setBuf_same]; exact hA
  have hnB : ((m.setBuf nextGenPtr B).buf nextGenPtr).length = W * H := by
    rw [buf_setBuf_same]; exact hB
  refine ⟨⟨_, _, runRules_eq W H _ cellsPtr nextGenPtr _ ht hdist hcA hnA,
    runRules_eq W H _ cellsPtr nextGenPtr _ ht hdist hcB hnB, ?_⟩,
    ⟨_, snapshotCopy_eq W H _ cellsPtr nextGenPtr hdist hcA hnA, ?_, ?_⟩⟩
  · simp only [buf_setBuf_same, buf_setBuf_of_ne _ _ _ _ hdist]
  · simp only [buf_setBuf_same, buf_setBuf_of_ne _ _ _ _ hdist]
  · simp only [setBuf_setBuf, buf_setBuf_of_ne _ _ _ _ hdist]

/-- C18 at the current array of `demoMem`, with a zero and a stale next array. -/
theorem C18_step_ignores_stale_next_witness :
    (∃ rA rB,
      runRules 3 3 (demoMem.setBuf Buf.nextGen zeroMem.nextGen) Buf.cells Buf.nextGen
        (neighborIdxs 3 3) = some (rA, Buf.cells, Buf.nextGen) ∧
      runRules 3 3 (demoMem.setBuf Buf.nextGen demoMem.nextGen) Buf.cells Buf.nextGen
        (neighborIdxs 3 3) = some (rB, Buf.cells, Buf.nextGen) ∧
      rA.buf Buf.nextGen = rB.buf Buf.nextGen) ∧
    (∃ m1, snapshotCopy 3 3 (demoMem.setBuf Buf.nextGen zeroMem.nextGen) Buf.cells Buf.nextGen =
        some m1 ∧
      m1.buf Buf.nextGen = demoMem.buf Buf.cells ∧ m1.buf Buf.cells = demoMem.buf Buf.cells) :=
  C18_step_ignores_stale_next 3 3 demoMem Buf.cells Buf.nextGen zeroMem.nextGen demoMem.nextGen
    (by decide) (by decide) (by decide) (by decide)

theorem cellStep_congr_cur (n : List (List Int)) (cur1 cur2 g : List Nat) (k : Nat)
    (h : cur1.getD k 0 = cur2.getD k 0) : cellStep n cur1 g k = cellStep n cur2 g k := by
  unfold cellStep
  rw [h]

/-- C20. Count updates are unchecked and wrap.  On an array of `W * H`
bytes `updateNeighborCount` returns for every content of the array and every
`amount`; with `amount` not positive, a listed neighbour whose byte is
`0x00` is left at `0xFF`, which reads as alive with count 127; so on a grid
at least two cells wide, from the all-zero array, the call for cell 0 with
amount `-1` leaves cell 1 with a count above 8. -/
theorem C20_count_updates_wrap (W H : Nat) (m : Mem) (c : Buf) (idx : Nat) (amount : Int)
    (hlen : (m.buf c).length = W * H) (hidx : idx < W * H) :
    (∃ m2, updateNeighborCount m c (neighborIdxs W H) (idx : Int) amount = some m2 ∧
      (amount ≤ 0 → ∀ x ∈ (neighborIdxs W H).getD idx [], (m.buf c).getD x.toNat 0 = 0x00 →
        (m2.buf c).getD x.toNat 0 = 0xFF)) ∧
    isAlive 0xFF = true ∧ count 0xFF = 127 ∧
    (2 ≤ W → m.buf c = List.replicate (W * H) 0 →
      ∃ m3, updateNeighborCount m c (neighborIdxs W H) ((0 : Nat) : Int) (-1) = some m3 ∧
        8 < count ((m3.buf c).getD 1 0)) := by
  have ht := tableOK_neighborIdxs W H
  have hrun : ∀ (k : Nat) (amt : Int), k < W * H →
      updateNeighborCount m c (neighborIdxs W H) (k : Int) amt =
        some (m.setBuf c (bump amt (m.buf c) ((neighborIdxs W H).getD k []))) := by
    intro k amt hk
    exact updateNeighborCount_eq m c _ k amt _ (table_lookup _ (W * H) k ht hk)
      (by intro x hx; rw [hlen]; exact ht.range k hk x hx)
  have hbyte : ∀ (k : Nat) (amt : Int), k < W * H → amt ≤ 0 →
      ∀ x ∈ (neighborIdxs W H).getD k [], (m.buf c).getD x.toNat 0 = 0 →
        (bump amt (m.buf c) ((neighborIdxs W H).getD k [])).getD x.toNat 0 = 255 := by
    intro k amt hk hamt x hx hzero
    have hr := ht.range k hk x hx
    have hxe : ((x.toNat : Nat) : Int) = x := Int.toNat_of_nonneg hr.1
    rw [bump_getD amt _ _ (ht.nodup k hk)
      (by intro y hy; rw [hlen]; exact ht.range k hk y hy), hxe, if_pos hx, hzero]
    unfold tick
    rw [if_neg (by omega)]
  refine ⟨⟨_, hrun idx amount hidx, ?_⟩, by decide, by decide, ?_⟩
  · intro hamt x hx hzero
    rw [buf_setBuf_same]
    exact hbyte idx amount hidx hamt x hx hzero
  · intro hW hz
    have hH : 0 < H := by
      rcases Nat.eq_zero_or_pos H with h | h
      · subst h; simp at hidx
      · exact h
    have h0 : 0 < W * H := Nat.mul_pos (by omega) hH
    have hmem : ((1 : Nat) : Int) ∈ (neighborIdxs W H).getD 0 [] := by
      rw [neighborIdxs_getD W H 0 h0]
      unfold cellNeighbors
      rw [Nat.zero_div, Nat.zero_mod]
      exact (mem_neighborsOfCell W H 0 0 (by omega) _).mpr
        ⟨0, 1, hH, by omega, by omega, by omega, by omega, by omega, Or.inr (by omega),
          by push_cast; ring⟩
    refine ⟨_, hrun 0 (-1) h0, ?_⟩
    have h1 := hbyte 0 (-1) h0 (by omega) _ hmem (by
      rw [hz]
      simp [List.getD_eq_getElem?_getD])
    rw [buf_setBuf_same]
    simp only [Int.toNat_ofNat] at h1
    rw [h1]
    decide

/-- C20 at the 3 by 3 zero memory, for the centre cell and amount `-1`. -/
theorem C20_count_updates_wrap_witness :
    (∃ m2, updateNeighborCount zeroMem Buf.cells (neighborIdxs 3 3) ((4 : Nat) : Int) (-1) =
        some m2 ∧
      ((-1 : Int) ≤ 0 → ∀ x ∈ (neighborIdxs 3 3).getD 4 [],
        (zeroMem.buf Buf.cells).getD x.toNat 0 = 0x00 →
        (m2.buf Buf.cells).getD x.toNat 0 = 0xFF)) ∧
    isAlive 0xFF = true ∧ count 0xFF = 127 ∧
    (2 ≤ 3 → zeroMem.buf Buf.cells = List.replicate (3 * 3) 0 →
      ∃ m3, updateNeighborCount zeroMem Buf.cells (neighborIdxs 3 3) ((0 : Nat) : Int) (-1) =
          some m3 ∧
        8 < count ((m3.buf Buf.cells).getD 1 0)) :=
  C20_count_updates_wrap 3 3 zeroMem Buf.cells 4 (-1) (by decide) (by decide)

/-! ## Iterated steps -/

theorem mainLoopBody_eq (W H : Nat) (n : List (List Int)) (s : LoopState)
    (ht : TableOK n (W * H)) (hok : LoopOK W H s) :
    mainLoopBody W H n s =
      some (LoopState.mk (s.mem.setBuf s.nextGenPtr (nextGeneration W H n (current s)))
        s.nextGenPtr s.cellsPtr, s.nextGenPtr) := by
  unfold mainLoopBody
  rw [runRules_eq W H s.mem s.cellsPtr s.nextGenPtr n ht hok.1 hok.2.1 hok.2.2]
  rfl

theorem loopOK_step (W H : Nat) (n : List (List Int)) (s : LoopState) (hok : LoopOK W H s) :
    LoopOK W H (LoopState.mk (s.mem.setBuf s.nextGenPtr (nextGeneration W H n (current s)))
      s.nextGenPtr s.cellsPtr) := by
  refine ⟨fun h => hok.1 h.symm, ?_, ?_⟩
  · simp only [buf_setBuf_same, nextGeneration_length]
    exact hok.2.1
  · simp only [buf_setBuf_of_ne _ _ _ _ hok.1]
    exact hok.2.1

/-- The main loop run for `k` iterations does not panic, and the current
generation afterwards is `nextGeneration` applied `k` times. -/
theorem mainLoopSteps_eq (W H : Nat) (n : List (List Int)) (ht : TableOK n (W * H)) (k : Nat) :
    ∀ s : LoopState, LoopOK W H s →
      ∃ s2, mainLoopSteps W H n k s = some s2 ∧ LoopOK W H s2 ∧
        current s2 = (nextGeneration W H n)^[k] (current s) := by
  induction k with
  | zero => intro s hok; exact ⟨s, rfl, hok, rfl⟩
  | succ k ih =>
    intro s hok
    obtain ⟨s2, hrun, hok2, hcur⟩ := ih _ (loopOK_step W H n s hok)
    refine ⟨s2, ?_, hok2, ?_⟩
    · unfold mainLoopSteps
      rw [mainLoopBody_eq W H n s ht hok]
      exact hrun
    · rw [hcur, Function.iterate_succ_apply]
      unfold current
      simp only [buf_setBuf_same]

theorem iterate_fixed {α : Type} (f : α → α) (x : α) (h : f x = x) (k : Nat) : f^[k] x = x :=
  Function.iterate_fixed h k

/-- The next generation is the array that holds the flags the rule gives,
with matching counts. -/
theorem nextGeneration_eq_of_flags (W H : Nat) (n : List (List Int)) (cur g2 : List Nat)
    (f2 : Nat → Bool) (ht : TableOK n (W * H)) (hN : cur.length = W * H) (hb : IsBytes cur)
    (hI : I1 n cur) (hN2 : g2.length = W * H) (he2 : Encodes n f2 g2)
    (hf : ∀ j, j < W * H → nextAlive (cur.getD j 0) = f2 j) :
    nextGeneration W H n cur = g2 := by
  have he := encodes_nextGeneration W H n cur ht hN hb hI
  have hl : (nextGeneration W H n cur).length = W * H := by
    rw [nextGeneration_length]; exact hN
  exact encodes_unique n f2 _ _ (by rw [hl, hN2])
    (encodes_congr n (W * H) _ _ _ ht hl hf he) he2

theorem encodes_false_zero (n : List (List Int)) (N : Nat) :
    Encodes n (fun _ => false) (List.replicate N 0) := by
  intro j hj
  rw [List.length_replicate] at hj
  simp [enc, List.getD_eq_getElem?_getD, hj]

theorem forall_idx_of_forall_cell (W H : Nat) (Q : Nat → Prop)
    (h : ∀ row col, row < H → col < W → Q (row * W + col)) : ∀ j, j < W * H → Q j := by
  intro j hj
  have hrc := row_col_of_lt W H j hj
  have := h (j / W) (j % W) hrc.1 hrc.2
  rwa [Nat.mul_comm, Nat.div_add_mod] at this

theorem eq_replicate_zero (g : List Nat) (N : Nat) (hN : g.length = N)
    (h : ∀ j, j < N → g.getD j 0 = 0) : g = List.replicate N 0 := by
  apply ext_getD
  · rw [hN, List.length_replicate]
  · intro j hj
    rw [h j (hN ▸ hj)]
    simp [List.getD_eq_getElem?_getD, hN ▸ hj]

theorem getD_replicate_zero (N j : Nat) : (List.replicate N 0).getD j 0 = 0 := by
  by_cases hj : j < N <;> simp [List.getD_eq_getElem?_getD, hj]

theorem zero_grid_facts (n : List (List Int)) (N : Nat) (ht : TableOK n N) :
    I1 n (List.replicate N 0) ∧ IsBytes (List.replicate N 0) := by
  have h := I1_of_encodes n N _ _ ht (List.length_replicate _ _) (encodes_false_zero n N)
  exact ⟨h.1, h.2.1⟩

/-- The all-zero array is its own next generation. -/
theorem nextGeneration_zero (W H : Nat) (n : List (List Int)) (ht : TableOK n (W * H)) :
    nextGeneration W H n (List.replicate (W * H) 0) = List.replicate (W * H) 0 := by
  have hz := zero_grid_facts n (W * H) ht
  refine nextGeneration_eq_of_flags W H n _ _ (fun _ => false) ht (List.length_replicate _ _)
    hz.2 hz.1 (List.length_replicate _ _) (encodes_false_zero n _) ?_
  intro j _
  rw [getD_replicate_zero]
  exact (by decide : nextAlive 0 = false)

/-- C11. The empty grid is a fixed point.  From a loop state with two
distinct arrays of `W * H` bytes whose current array is all zero, the main
loop run for any number `k` of steps (each `runRules` followed by the swap)
returns, and every byte of the current array is still zero. -/
theorem C11_empty_grid_fixed_point (W H : Nat) (s : LoopState) (k : Nat) (hok : LoopOK W H s)
    (hzero : ∀ j, j < W * H → (current s).getD j 0 = 0) :
    ∃ s2, mainLoopSteps W H (neighborIdxs W H) k s = some s2 ∧
      ∀ j, j < W * H → (current s2).getD j 0 = 0 := by
  have ht := tableOK_neighborIdxs W H
  obtain ⟨s2, hrun, _, hcur⟩ := mainLoopSteps_eq W H _ ht k s hok
  refine ⟨s2, hrun, ?_⟩
  intro j _
  rw [hcur, eq_replicate_zero (current s) (W * H) hok.2.1 hzero,
    iterate_fixed _ _ (nextGeneration_zero W H _ ht) k, getD_replicate_zero]

/-- C11 at the 3 by 3 zero state, for 5 steps. -/
theorem C11_empty_grid_fixed_point_witness :
    ∃ s2, mainLoopSteps 3 3 (neighborIdxs 3 3) 5 zeroState = some s2 ∧
      ∀ j, j < 3 * 3 → (current s2).getD j 0 = 0 :=
  C11_empty_grid_fixed_point 3 3 zeroState 5 (by decide) (by decide)

theorem count_le_one_of_single (n : List (List Int)) (N : Nat) (g : List Nat) (idx j : Nat)
    (ht : TableOK n N) (hj : j < N)
    (honly : ∀ i, i < N → i ≠ idx → isAlive (g.getD i 0) = false) :
    aliveNeighbors n g j ≤ 1 := by
  unfold aliveNeighbors
  have h1 : (n.getD j []).countP (aliveAt g) ≤ (n.getD j []).countP (fun x => x == (idx : Int)) := by
    apply List.countP_mono_left
    intro x hx hal
    have hr := ht.range j hj x hx
    unfold aliveAt at hal
    simp only [Bool.and_eq_true, decide_eq_true_eq] at hal
    have hxi : x.toNat = idx := by
      by_contra hne
      have := honly x.toNat (by omega) hne
      rw [this] at hal
      exact absurd hal.2 (by decide)
    simp only [beq_iff_eq]
    omega
  rw [← List.count_eq_countP] at h1
  exact le_trans h1 (List.nodup_iff_count_le_one.mp (ht.nodup j hj) _)

/-- C14. An isolated cell dies.  From a loop state whose current array
satisfies I1, for every cell `idx` that is alive with count 0, one step of
the main loop returns and `idx` is dead in the new current array; and when
`idx` was the only alive cell, the new current array is all zero. -/
theorem C14_isolated_cell_dies (W H : Nat) (s : LoopState) (idx : Nat) (hok : LoopOK W H s)
    (hbytes : IsBytes (current s)) (hI1 : I1 (neighborIdxs W H) (current s))
    (hidx : idx < W * H) (halive : isAlive ((current s).getD idx 0) = true)
    (hcount : count ((current s).getD idx 0) = 0) :
    ∃ s2, mainLoopSteps W H (neighborIdxs W H) 1 s = some s2 ∧
      isAlive ((current s2).getD idx 0) = false ∧
      ((∀ j, j < W * H → j ≠ idx → isAlive ((current s).getD j 0) = false) →
        ∀ j, j < W * H → (current s2).getD j 0 = 0) := by
  have ht := tableOK_neighborIdxs W H
  obtain ⟨s2, hrun, _, hcur⟩ := mainLoopSteps_eq W H _ ht 1 s hok
  have hcur1 : current s2 = nextGeneration W H (neighborIdxs W H) (current s) := by
    rw [hcur]; rfl
  have hdie : nextAlive ((current s).getD idx 0) = false := by
    unfold nextAlive lifeRule
    rw [halive, hcount]
    decide
  refine ⟨s2, hrun, ?_, ?_⟩
  · have he := encodes_nextGeneration W H _ (current s) ht hok.2.1 hbytes hI1
    rw [hcur1, encodes_flag _ (W * H) _ _ ht (by rw [nextGeneration_length]; exact hok.2.1)
      he idx hidx]
    exact hdie
  · intro honly j _
    have hz : nextGeneration W H (neighborIdxs W H) (current s) = List.replicate (W * H) 0 := by
      refine nextGeneration_eq_of_flags W H _ _ _ (fun _ => false) ht hok.2.1 hbytes hI1
        (List.length_replicate _ _) (encodes_false_zero _ _) ?_
      intro i hi
      by_cases hie : i = idx
      · rw [hie]; exact hdie
      · have h1 := count_le_one_of_single _ (W * H) (current s) idx i ht hi honly
        rw [← hI1 i (hok.2.1 ▸ hi)] at h1
        unfold nextAlive lifeRule
        rw [honly i hi hie]
        have h3 : (count ((current s).getD i 0) == 3) = false := by
          rw [beq_eq_false_iff_ne]; omega
        simp [-List.getD_eq_getElem?_getD, h3]
    rw [hcur1, hz, getD_replicate_zero]

/-- C14 at the 3 by 3 state whose only alive cell is the centre. -/
theorem C14_isolated_cell_dies_witness :
    ∃ s2, mainLoopSteps 3 3 (neighborIdxs 3 3) 1 loneState = some s2 ∧
      isAlive ((current s2).getD 4 0) = false ∧
      ((∀ j, j < 3 * 3 → j ≠ 4 → isAlive ((current loneState).getD j 0) = false) →
        ∀ j, j < 3 * 3 → (current s2).getD j 0 = 0) :=
  C14_isolated_cell_dies 3 3 loneState 4 (by decide) (by decide) (by decide) (by decide)
    (by decide) (by decide)

/-! ## Patterns -/

/-- Under I1 the count of a cell is the number of Moore offsets that stay in
the grid and lead to a cell of the pattern. -/
theorem count_of_pattern (W H : Nat) (g : List Nat) (P : Int → Int → Bool)
    (hI : I1 (neighborIdxs W H) g) (hN : g.length = W * H) (hP : AlivePattern W H g P)
    (row col : Nat) (hr : row < H) (hc : col < W) :
    count (g.getD (row * W + col) 0) =
      mooreOffsets.countP (fun d => inGrid W H row col d &&
        P ((row : Int) + d.1) ((col : Int) + d.2)) := by
  rw [hI _ (hN ▸ rowMajor_lt W H row col hr hc), mooreCount_eq W H g row col hr hc]
  unfold mooreCount
  apply List.countP_congr
  intro d _
  cases hin : inGrid W H row col d with
  | false => simp
  | true =>
    obtain ⟨r, c, hr2, hc2, hrd, hcd, he⟩ := inGrid_cell W H row col d hin
    rw [he, Int.toNat_ofNat, hP r hr2 c hc2, hrd, hcd]

/-- The pattern of the next generation, from the pattern of the current one:
the rule applied to the flag and the number of in-grid neighbours in the
pattern. -/
theorem next_pattern (W H : Nat) (cur : List Nat) (P Q : Int → Int → Bool)
    (hN : cur.length = W * H) (hb : IsBytes cur) (hI : I1 (neighborIdxs W H) cur)
    (hP : AlivePattern W H cur P)
    (hrule : ∀ row col : Nat, row < H → col < W →
      lifeRule (P row col) (mooreOffsets.countP (fun d => inGrid W H row col d &&
        P ((row : Int) + d.1) ((col : Int) + d.2))) = Q row col) :
    AlivePattern W H (nextGeneration W H (neighborIdxs W H) cur) Q := by
  have ht := tableOK_neighborIdxs W H
  have he := encodes_nextGeneration W H _ cur ht hN hb hI
  intro row hr col hc
  rw [encodes_flag _ (W * H) _ _ ht (by rw [nextGeneration_length]; exact hN) he _
    (rowMajor_lt W H row col hr hc)]
  unfold nextAlive
  rw [hP row hr col hc, count_of_pattern W H cur P hI hN hP row col hr hc]
  exact hrule row col hr hc

theorem nextGeneration_facts (W H : Nat) (cur : List Nat) (hN : cur.length = W * H)
    (hb : IsBytes cur) (hI : I1 (neighborIdxs W H) cur) :
    (nextGeneration W H (neighborIdxs W H) cur).length = W * H ∧
      IsBytes (nextGeneration W H (neighborIdxs W H) cur) ∧
      I1 (neighborIdxs W H) (nextGeneration W H (neighborIdxs W H) cur) := by
  have ht := tableOK_neighborIdxs W H
  have he := encodes_nextGeneration W H _ cur ht hN hb hI
  have hl : (nextGeneration W H (neighborIdxs W H) cur).length = W * H := by
    rw [nextGeneration_length]; exact hN
  have h := I1_of_encodes _ (W * H) _ _ ht hl he
  exact ⟨hl, h.2.1, h.1⟩

/-- A generation whose pattern the rule maps to the pattern of `g2` (an
array satisfying I1) has `g2` as its next generation. -/
theorem nextGeneration_eq_of_pattern (W H : Nat) (cur g2 : List Nat) (P Q : Int → Int → Bool)
    (hN : cur.length = W * H) (hb : IsBytes cur) (hI : I1 (neighborIdxs W H) cur)
    (hP : AlivePattern W H cur P)
    (hN2 : g2.length = W * H) (hb2 : IsBytes g2) (hI2 : I1 (neighborIdxs W H) g2)
    (hQ : AlivePattern W H g2 Q)
    (hrule : ∀ row col : Nat, row < H → col < W →
      lifeRule (P row col) (mooreOffsets.countP (fun d => inGrid W H row col d &&
        P ((row : Int) + d.1) ((col : Int) + d.2))) = Q row col) :
    nextGeneration W H (neighborIdxs W H) cur = g2 := by
  have ht := tableOK_neighborIdxs W H
  have he2 := encodes_of_I1 _ (W * H) g2 ht hN2 hb2 hI2
  refine nextGeneration_eq_of_flags W H _ cur g2 _ ht hN hb hI hN2 he2 ?_
  apply forall_idx_of_forall_cell W H
  intro row col hr hc
  unfold nextAlive
  rw [hP row hr col hc, count_of_pattern W H cur P hI hN hP row col hr hc,
    hQ row hr col hc]
  exact hrule row col hr hc

/-- The rule applied to the horizontal blinker gives the vertical one. -/
theorem blinkerH_rule (W H r c : Nat) (hr1 : 1 ≤ r) (hr2 : r + 2 ≤ H) (hc1 : 1 ≤ c)
    (hc2 : c + 2 ≤ W) (row col : Nat) :
    lifeRule (blinkerH r c row col) (mooreOffsets.countP (fun d => inGrid W H row col d &&
      blinkerH r c ((row : Int) + d.1) ((col : Int) + d.2))) = blinkerV r c row col := by
  unfold mooreOffsets inGrid blinkerH blinkerV lifeRule
  simp only [List.countP_cons, List.countP_nil, Bool.and_eq_true, decide_eq_true_eq]
  have hrc : (row : Int) ≤ r - 2 ∨ (row : Int) = r - 1 ∨ (row : Int) = r ∨ (row : Int) = r + 1 ∨
      (r : Int) + 2 ≤ row := by omega
  have hcc : (col : Int) ≤ c - 3 ∨ (col : Int) = c - 2 ∨ (col : Int) = c - 1 ∨ (col : Int) = c ∨
      (col : Int) = c + 1 ∨ (col : Int) = c + 2 ∨ (c : Int) + 3 ≤ col := by omega
  rcases hrc with h | h | h | h | h <;> rcases hcc with h2 | h2 | h2 | h2 | h2 | h2 | h2 <;>
    simp (disch := omega) only [if_pos, if_neg, decide_eq_true, decide_eq_false] <;> rfl

/-- The rule applied to the vertical blinker gives the horizontal one. -/
theorem blinkerV_rule (W H r c : Nat) (hr1 : 1 ≤ r) (hr2 : r + 2 ≤ H) (hc1 : 1 ≤ c)
    (hc2 : c + 2 ≤ W) (row col : Nat) :
    lifeRule (blinkerV r c row col) (mooreOffsets.countP (fun d => inGrid W H row col d &&
      blinkerV r c ((row : Int) + d.1) ((col : Int) + d.2))) = blinkerH r c row col := by
  unfold mooreOffsets inGrid blinkerH blinkerV lifeRule
  simp only [List.countP_cons, List.countP_nil, Bool.and_eq_true, decide_eq_true_eq]
  have hrc : (row : Int) ≤ r - 3 ∨ (row : Int) = r - 2 ∨ (row : Int) = r - 1 ∨ (row : Int) = r ∨
      (row : Int) = r + 1 ∨ (row : Int) = r + 2 ∨ (r : Int) + 3 ≤ row := by omega
  have hcc : (col : Int) ≤ c - 2 ∨ (col : Int) = c - 1 ∨ (col : Int) = c ∨ (col : Int) = c + 1 ∨
      (c : Int) + 2 ≤ col := by omega
  rcases hrc with h | h | h | h | h | h | h <;> rcases hcc with h2 | h2 | h2 | h2 | h2 <;>
    simp (disch := omega) only [if_pos, if_neg, decide_eq_true, decide_eq_false] <;> rfl

/-- The rule applied to a block away from the edges gives the block. -/
theorem blockAt_rule (W H r c : Nat) (hr1 : 1 ≤ r) (hr2 : r + 3 ≤ H) (hc1 : 1 ≤ c)
    (hc2 : c + 3 ≤ W) (row col : Nat) :
    lifeRule (blockAt r c row col) (mooreOffsets.countP (fun d => inGrid W H row col d &&
      blockAt r c ((row : Int) + d.1) ((col : Int) + d.2))) = blockAt r c row col := by
  unfold mooreOffsets inGrid blockAt lifeRule
  simp only [List.countP_cons, List.countP_nil, Bool.and_eq_true, decide_eq_true_eq]
  have hrc : (row : Int) ≤ r - 2 ∨ (row : Int) = r - 1 ∨ (row : Int) = r ∨ (row : Int) = r + 1 ∨
      (row : Int) = r + 2 ∨ (r : Int) + 3 ≤ row := by omega
  have hcc : (col : Int) ≤ c - 2 ∨ (col : Int) = c - 1 ∨ (col : Int) = c ∨ (col : Int) = c + 1 ∨
      (col : Int) = c + 2 ∨ (c : Int) + 3 ≤ col := by omega
  rcases hrc with h | h | h | h | h | h <;> rcases hcc with h2 | h2 | h2 | h2 | h2 | h2 <;>
    simp (disch := omega) only [if_pos, if_neg, decide_eq_true, decide_eq_false] <;> rfl

/-- C12. A still-life block is unchanged.  From a loop state whose current
array satisfies I1 and has as alive cells exactly a 2 by 2 block with
top-left cell `(r, c)` that touches no edge of the grid, the main loop run
for any number `k` of steps returns and the current array is byte for byte
the initial one. -/
theorem C12_block_still_life (W H : Nat) (s : LoopState) (r c k : Nat) (hok : LoopOK W H s)
    (hbytes : IsBytes (current s)) (hI1 : I1 (neighborIdxs W H) (current s))
    (hr1 : 1 ≤ r) (hr2 : r + 3 ≤ H) (hc1 : 1 ≤ c) (hc2 : c + 3 ≤ W)
    (hblock : AlivePattern W H (current s) (blockAt r c)) :
    ∃ s2, mainLoopSteps W H (neighborIdxs W H) k s = some s2 ∧ current s2 = current s := by
  have ht := tableOK_neighborIdxs W H
  obtain ⟨s2, hrun, _, hcur⟩ := mainLoopSteps_eq W H _ ht k s hok
  refine ⟨s2, hrun, ?_⟩
  rw [hcur]
  apply iterate_fixed
  exact nextGeneration_eq_of_pattern W H _ _ _ _ hok.2.1 hbytes hI1 hblock hok.2.1 hbytes hI1
    hblock (fun row col _ _ => blockAt_rule W H r c hr1 hr2 hc1 hc2 row col)

/-- C12 at the 4 by 4 state with the block at `(1, 1)`, for 3 steps. -/
theorem C12_block_still_life_witness :
    ∃ s2, mainLoopSteps 4 4 (neighborIdxs 4 4) 3 blockState = some s2 ∧
      current s2 = current blockState :=
  C12_block_still_life 4 4 blockState 1 1 3 (by decide) (by decide) (by decide) (by decide)
    (by decide) (by decide) (by decide) (by decide)

/-- C13. The blinker oscillates with period 2.  From a loop state whose
current array satisfies I1 and has as alive cells exactly `(r, c-1)`,
`(r, c)`, `(r, c+1)`, with `1 ≤ r ≤ H-2` and `1 ≤ c ≤ W-2`, one step of the
main loop returns with alive cells exactly `(r-1, c)`, `(r, c)`, `(r+1, c)`,
and two steps return with the current array byte for byte the initial one. -/
theorem C13_blinker_period_two (W H : Nat) (s : LoopState) (r c : Nat) (hok : LoopOK W H s)
    (hbytes : IsBytes (current s)) (hI1 : I1 (neighborIdxs W H) (current s))
    (hr1 : 1 ≤ r) (hr2 : r + 2 ≤ H) (hc1 : 1 ≤ c) (hc2 : c + 2 ≤ W)
    (hblinker : AlivePattern W H (current s) (blinkerH r c)) :
    (∃ s1, mainLoopSteps W H (neighborIdxs W H) 1 s = some s1 ∧
      AlivePattern W H (current s1) (blinkerV r c)) ∧
    (∃ s2, mainLoopSteps W H (neighborIdxs W H) 2 s = some s2 ∧ current s2 = current s) := by
  have ht := tableOK_neighborIdxs W H
  have hpat1 := next_pattern W H (current s) _ (blinkerV r c) hok.2.1 hbytes hI1 hblinker
    (fun row col _ _ => blinkerH_rule W H r c hr1 hr2 hc1 hc2 row col)
  have hf1 := nextGeneration_facts W H (current s) hok.2.1 hbytes hI1
  constructor
  · obtain ⟨s1, hrun, _, hcur⟩ := mainLoopSteps_eq W H _ ht 1 s hok
    refine ⟨s1, hrun, ?_⟩
    rw [hcur]
    exact hpat1
  · obtain ⟨s2, hrun, _, hcur⟩ := mainLoopSteps_eq W H _ ht 2 s hok
    refine ⟨s2, hrun, ?_⟩
    rw [hcur]
    exact nextGeneration_eq_of_pattern W H _ _ _ _ hf1.1 hf1.2.1 hf1.2.2 hpat1 hok.2.1 hbytes
      hI1 hblinker (fun row col _ _ => blinkerV_rule W H r c hr1 hr2 hc1 hc2 row col)

/-- C13 at the 3 by 3 state with the blinker centred at `(1, 1)`. -/
theorem C13_blinker_period_two_witness :
    (∃ s1, mainLoopSteps 3 3 (neighborIdxs 3 3) 1 blinkerState = some s1 ∧
      AlivePattern 3 3 (current s1) (blinkerV 1 1)) ∧
    (∃ s2, mainLoopSteps 3 3 (neighborIdxs 3 3) 2 blinkerState = some s2 ∧
      current s2 = current blinkerState) :=
  C13_blinker_period_two 3 3 blinkerState 1 1 (by decide) (by decide) (by decide) (by decide)
    (by decide) (by decide) (by decide) (by decide)

/-- In a grid whose cells are all alive and which satisfies I1, the count of
a cell is the length of its neighbour slice. -/
theorem count_full (W H : Nat) (g : List Nat) (hN : g.length = W * H)
    (hI : I1 (neighborIdxs W H) g) (hfull : ∀ j, j < W * H → isAlive (g.getD j 0) = true)
    (row col : Nat) (hr : row < H) (hc : col < W) :
    count (g.getD (row * W + col) 0) = (neighborsOfCell W H row col).length := by
  have ht := tableOK_neighborIdxs W H
  have hk := rowMajor_lt W H row col hr hc
  have hcell : (neighborIdxs W H).getD (row * W + col) [] = neighborsOfCell W H row col := by
    rw [neighborIdxs_getD W H _ hk]
    unfold cellNeighbors
    rw [(div_mod_rowMajor W row col hc).1, (div_mod_rowMajor W row col hc).2]
  rw [hI _ (hN ▸ hk)]
  unfold aliveNeighbors
  rw [← hcell]
  apply List.countP_eq_length.mpr
  intro x hx
  have hrange := ht.range _ hk x hx
  unfold aliveAt
  rw [hfull x.toNat (by omega)]
  simp [hrange.1]

/-- C15. Non-toroidal asymmetry of the full grid.  In a grid at least two
cells wide and high (the 640 by 360 grid of the program is one) whose cells
are all alive and whose current array satisfies I1, the counts are 3 at the
corners, 5 at the other edge cells and 8 in the interior; one step of the
main loop returns, and afterwards the alive cells are exactly the four
corners. -/
theorem C15_full_grid_leaves_corners (W H : Nat) (s : LoopState) (hok : LoopOK W H s)
    (hbytes : IsBytes (current s)) (hI1 : I1 (neighborIdxs W H) (current s))
    (hW : 2 ≤ W) (hH : 2 ≤ H)
    (hfull : ∀ j, j < W * H → isAlive ((current s).getD j 0) = true) :
    (∀ row col, row < H → col < W →
      count ((current s).getD (row * W + col) 0) =
        if (row = 0 ∨ row = H - 1) ∧ (col = 0 ∨ col = W - 1) then 3
        else if row = 0 ∨ row = H - 1 ∨ col = 0 ∨ col = W - 1 then 5
        else 8) ∧
    ∃ s2, mainLoopSteps W H (neighborIdxs W H) 1 s = some s2 ∧
      ∀ row col, row < H → col < W →
        (isAlive ((current s2).getD (row * W + col) 0) = true ↔
          (row = 0 ∨ row = H - 1) ∧ (col = 0 ∨ col = W - 1)) := by
  have ht := tableOK_neighborIdxs W H
  have hcount : ∀ row col, row < H → col < W →
      count ((current s).getD (row * W + col) 0) =
        if (row = 0 ∨ row = H - 1) ∧ (col = 0 ∨ col = W - 1) then 3
        else if row = 0 ∨ row = H - 1 ∨ col = 0 ∨ col = W - 1 then 5
        else 8 := by
    intro row col hr hc
    rw [count_full W H (current s) hok.2.1 hI1 hfull row col hr hc,
      neighborsOfCell_length W H row col hr hc]
    by_cases h1 : 0 < row <;> by_cases h2 : row + 1 < H <;> by_cases h3 : 0 < col <;>
      by_cases h4 : col + 1 < W <;> simp only [h1, h2, h3, h4, if_true, if_false] <;>
      split_ifs <;> omega
  refine ⟨hcount, ?_⟩
  obtain ⟨s2, hrun, _, hcur⟩ := mainLoopSteps_eq W H _ ht 1 s hok
  refine ⟨s2, hrun, ?_⟩
  intro row col hr hc
  have hk := rowMajor_lt W H row col hr hc
  have he := encodes_nextGeneration W H _ (current s) ht hok.2.1 hbytes hI1
  have hcur1 : current s2 = nextGeneration W H (neighborIdxs W H) (current s) := by
    rw [hcur]; rfl
  rw [hcur1, encodes_flag _ (W * H) _ _ ht (by rw [nextGeneration_length]; exact hok.2.1)
    he _ hk]
  unfold nextAlive lifeRule
  rw [hfull _ hk, hcount row col hr hc]
  split_ifs with hcorner hedge
  · simp [hcorner]
  · simp [hcorner]
  · simp [hcorner]

/-- C15 at the 3 by 3 state in which every cell is alive. -/
theorem C15_full_grid_leaves_corners_witness :
    (∀ row col, row < 3 → col < 3 →
      count ((current fullState).getD (row * 3 + col) 0) =
        if (row = 0 ∨ row = 3 - 1) ∧ (col = 0 ∨ col = 3 - 1) then 3
        else if row = 0 ∨ row = 3 - 1 ∨ col = 0 ∨ col = 3 - 1 then 5
        else 8) ∧
    ∃ s2, mainLoopSteps 3 3 (neighborIdxs 3 3) 1 fullState = some s2 ∧
      ∀ row col, row < 3 → col < 3 →
        (isAlive ((current s2).getD (row * 3 + col) 0) = true ↔
          (row = 0 ∨ row = 3 - 1) ∧ (col = 0 ∨ col = 3 - 1)) :=
  C15_full_grid_leaves_corners 3 3 fullState (by decide) (by decide) (by decide) (by decide)
    (by decide) (by decide)

/-! ## The logged step -/

theorem updLog_body_eq (c : Buf) (amt : Int) :
    (fun (s : Mem × List Event) (i : Int) =>
      if 0 ≤ i ∧ i < (s.1.buf c).length then
        (if amt > 0 then
          some (s.1.setBuf c ((s.1.buf c).set i.toNat (((s.1.buf c).getD i.toNat 0 + 1) % 256)),
            s.2 ++ [Event.tick s.1
              (s.1.setBuf c ((s.1.buf c).set i.toNat (((s.1.buf c).getD i.toNat 0 + 1) % 256)))])
        else
          some (s.1.setBuf c ((s.1.buf c).set i.toNat (((s.1.buf c).getD i.toNat 0 + 255) % 256)),
            s.2 ++ [Event.tick s.1
              (s.1.setBuf c
                ((s.1.buf c).set i.toNat (((s.1.buf c).getD i.toNat 0 + 255) % 256)))]))
      else none) =
    (fun (s : Mem × List Event) (i : Int) =>
      if 0 ≤ i ∧ i < (s.1.buf c).length then
        some (s.1.setBuf c ((s.1.buf c).set i.toNat (tick amt ((s.1.buf c).getD i.toNat 0))),
          s.2 ++ [Event.tick s.1
            (s.1.setBuf c ((s.1.buf c).set i.toNat (tick amt ((s.1.buf c).getD i.toNat 0))))])
      else none) := by
  funext s i
  unfold tick
  by_cases ha : amt > 0 <;> simp [ha]

/-- The logged update loop on an array whose bytes are `enc (fl j) (cs l j)`
for the list `l` still to process: with counts at most 8 throughout and
each single update moving `cs` as `tick` moves the byte, the loop returns,
the array it leaves is that of `bump`, and every logged update keeps every
count at most 8 and every flag as it was. -/
theorem updLog_fold (c : Buf) (amt : Int) (N : Nat) (fl : Nat → Bool)
    (cs : List Int → Nat → Nat) (l : List Int) :
    ∀ (m : Mem) (g : List Nat) (log : List Event),
      g.length = N → l.Nodup → (∀ x ∈ l, 0 ≤ x ∧ x < (N : Int)) →
      (∀ j, j < N → g.getD j 0 = enc (fl j) (cs l j)) →
      (∀ l2, l2 <:+ l → ∀ j, j < N → cs l2 j ≤ 8) →
      (∀ i l2, (i :: l2) <:+ l →
        tick amt (enc (fl i.toNat) (cs (i :: l2) i.toNat)) = enc (fl i.toNat) (cs l2 i.toNat) ∧
        ∀ j, j ≠ i.toNat → cs (i :: l2) j = cs l2 j) →
      ∃ evs, l.foldlM (fun (s : Mem × List Event) (i : Int) =>
          if 0 ≤ i ∧ i < (s.1.buf c).length then
            some (s.1.setBuf c ((s.1.buf c).set i.toNat (tick amt ((s.1.buf c).getD i.toNat 0))),
              s.2 ++ [Event.tick s.1
                (s.1.setBuf c ((s.1.buf c).set i.toNat (tick amt ((s.1.buf c).getD i.toNat 0))))])
          else none) (m.setBuf c g, log) =
          some (m.setBuf c (bump amt g l), log ++ evs) ∧
        (∀ e ∈ evs, GoodEvent N c e) ∧ evs.filterMap branchIdx = [] := by
  induction l with
  | nil =>
    intro m g log _ _ _ _ _ _
    exact ⟨[], by simp [bump_nil], by simp, rfl⟩
  | cons i l ih =>
    intro m g log hN hnd hr hst hb hstep
    have hi := hr i (List.mem_cons_self _ _)
    have hil : i ∉ l := (List.nodup_cons.mp hnd).1
    have hiN : i.toNat < N := by omega
    have hs := hstep i l (List.suffix_refl _)
    have hst2 : ∀ j, j < N →
        (g.set i.toNat (tick amt (g.getD i.toNat 0))).getD j 0 = enc (fl j) (cs l j) := by
      intro j hj
      rw [getD_set g i.toNat j _ (hN ▸ hiN)]
      by_cases hji : j = i.toNat
      · rw [if_pos hji, hst _ hiN, hs.1, hji]
      · rw [if_neg hji, hst j hj, hs.2 j hji]
    obtain ⟨evs, hrun, hgood, hbr⟩ := ih m (g.set i.toNat (tick amt (g.getD i.toNat 0)))
      (log ++ [Event.tick (m.setBuf c g)
        (m.setBuf c (g.set i.toNat (tick amt (g.getD i.toNat 0))))])
      (by rw [List.length_set]; exact hN) (List.nodup_cons.mp hnd).2
      (fun x hx => hr x (List.mem_cons_of_mem _ hx)) hst2
      (fun l2 h2 => hb l2 (h2.trans (List.suffix_cons i l)))
      (fun i2 l2 h2 => hstep i2 l2 (h2.trans (List.suffix_cons i l)))
    refine ⟨Event.tick (m.setBuf c g)
      (m.setBuf c (g.set i.toNat (tick amt (g.getD i.toNat 0)))) :: evs, ?_, ?_, ?_⟩
    · rw [List.foldlM_cons]
      simp only [buf_setBuf_same, hN, hi, and_self, if_true, Option.bind_eq_bind,
        Option.some_bind, setBuf_setBuf]
      rw [hrun, bump_cons]
      simp
    · intro e he
      rcases List.mem_cons.mp he with rfl | he
      · unfold GoodEvent
        simp only [buf_setBuf_same]
        have h8a := hb (i :: l) (List.suffix_refl _)
        have h8b := hb l (List.suffix_cons i l)
        constructor
        · intro j hj
          rw [hst2 j hj, count_enc _ (by have := h8b j hj; omega)]
          exact h8b j hj
        · intro j hj
          rw [hst2 j hj, hst j hj, isAlive_enc _ (by have := h8b j hj; omega),
            isAlive_enc _ (by have := h8a j hj; omega)]
      · exact hgood e he
    · rw [List.filterMap_cons]
      simpa [branchIdx] using hbr

theorem flag_set_getD (n : List (List Int)) (N : Nat) (f : Nat → Bool) (g : List Nat) (k : Nat)
    (v : Nat) (fv : Bool) (hN : g.length = N) (he : Encodes n f g) (hk : k < N)
    (hv : v = enc fv ((n.getD k []).countP (fun x => f x.toNat))) :
    ∀ j, j < N → (g.set k v).getD j 0 =
      enc (Function.update f k fv j) ((n.getD j []).countP (fun x => f x.toNat)) := by
  intro j hj
  rw [getD_set g k j _ (hN ▸ hk)]
  by_cases hjk : j = k
  · subst hjk
    rw [if_pos rfl, Function.update_same, hv]
  · rw [if_neg hjk, Function.update_noteq hjk, he j (hN ▸ hj)]

theorem suffix_facts (l : List Int) (i : Int) (l2 : List Int) (hnd : l.Nodup)
    (hs : (i :: l2) <:+ l) : i ∈ l ∧ i ∉ l2 ∧ ∀ x ∈ l2, x ∈ l := by
  have hsub := hs.sublist
  have hnd2 : (i :: l2).Nodup := hnd.sublist hsub
  exact ⟨hsub.subset (List.mem_cons_self _ _), (List.nodup_cons.mp hnd2).1,
    fun x hx => hsub.subset (List.mem_cons_of_mem _ hx)⟩

theorem updateNeighborCountLog_unfold (m : Mem) (c : Buf) (n : List (List Int)) (N k : Nat)
    (amt : Int) (log : List Event) (ht : TableOK n N) (hk : k < N) :
    updateNeighborCountLog m c n (k : Int) amt log =
      (n.getD k []).foldlM (fun (s : Mem × List Event) (i : Int) =>
        if 0 ≤ i ∧ i < (s.1.buf c).length then
          some (s.1.setBuf c ((s.1.buf c).set i.toNat (tick amt ((s.1.buf c).getD i.toNat 0))),
            s.2 ++ [Event.tick s.1
              (s.1.setBuf c ((s.1.buf c).set i.toNat (tick amt ((s.1.buf c).getD i.toNat 0))))])
        else none) (m, log) := by
  unfold updateNeighborCountLog
  simp only [Int.natCast_nonneg, if_true, Int.toNat_ofNat, table_lookup n N k ht hk]
  rw [updLog_body_eq c amt]

/-- The logged birth branch on an array whose counts match its flags. -/
theorem birthLog_eq (m : Mem) (c : Buf) (n : List (List Int)) (N k : Nat) (f : Nat → Bool)
    (g : List Nat) (log : List Event) (ht : TableOK n N) (hk : k < N) (hN : g.length = N)
    (he : Encodes n f g) (hf : f k = false) :
    ∃ evs, updateNeighborCountLog (m.setBuf c (g.set k (g.getD k 0 ||| (1 <<< 7)))) c n (k : Int)
        1 log =
        some (m.setBuf c (bump 1 (g.set k (g.getD k 0 ||| (1 <<< 7))) (n.getD k [])),
          log ++ evs) ∧
      (∀ e ∈ evs, GoodEvent N c e) ∧ evs.filterMap branchIdx = [] := by
  rw [updateNeighborCountLog_unfold _ c n N k 1 log ht hk]
  have hc8 : ∀ j, j < N → (n.getD j []).countP (fun x => f x.toNat) ≤ 8 := fun j hj =>
    le_trans (List.countP_le_length _) (ht.small j hj)
  have hc8b : ∀ j, j < N →
      (n.getD j []).countP (fun x => Function.update f k true x.toNat) ≤ 8 := fun j hj =>
    le_trans (List.countP_le_length _) (ht.small j hj)
  have hv : (g.getD k 0 ||| (1 <<< 7)) = enc true ((n.getD k []).countP (fun x => f x.toNat)) := by
    rw [he k (hN ▸ hk), hf, enc_or _ (by have := hc8 k hk; omega)]
  have hset := flag_set_getD n N f g k _ true hN he hk hv
  apply updLog_fold c 1 N (Function.update f k true)
    (fun l j => (n.getD j []).countP (fun x => Function.update f k true x.toNat) -
      (if (j : Int) ∈ l then 1 else 0)) (n.getD k []) m _ log
    (by rw [List.length_set]; exact hN) (ht.nodup k hk) (ht.range k hk)
  · intro j hj
    rw [hset j hj, countP_set_true n N f k j ht hk hj hf]
    congr 1
    split <;> omega
  · intro l2 _ j hj
    have := hc8b j hj
    omega
  · intro i l2 hs
    obtain ⟨hil, hil2, _⟩ := suffix_facts _ i l2 (ht.nodup k hk) hs
    have hr := ht.range k hk i hil
    have hiN : i.toNat < N := by omega
    have hie : ((i.toNat : Nat) : Int) = i := Int.toNat_of_nonneg hr.1
    have hki : (k : Int) ∈ n.getD i.toNat [] := ht.symm k i.toNat hk hiN (hie ▸ hil)
    have hpos := countP_pos_of_mem (n.getD i.toNat []) (k : Int)
      (fun x => Function.update f k true x.toNat) (by simp) hki
    have h8 := hc8b i.toNat hiN
    constructor
    · simp only [hie, List.mem_cons, true_or, if_true, if_neg hil2, Nat.sub_zero]
      unfold tick
      rw [if_pos (by decide), enc_inc _ _ (by omega)]
      congr 1
      omega
    · intro j hj
      have hji : (j : Int) ≠ i := by omega
      simp only [List.mem_cons, hji, false_or]

/-- The logged death branch on an array whose counts match its flags. -/
theorem deathLog_eq (m : Mem) (c : Buf) (n : List (List Int)) (N k : Nat) (f : Nat → Bool)
    (g : List Nat) (log : List Event) (ht : TableOK n N) (hk : k < N) (hN : g.length = N)
    (he : Encodes n f g) (hf : f k = true) :
    ∃ evs, updateNeighborCountLog
        (m.setBuf c (g.set k (g.getD k 0 &&& (0xFF ^^^ (1 <<< 7))))) c n (k : Int) (-1) log =
        some (m.setBuf c (bump (-1) (g.set k (g.getD k 0 &&& (0xFF ^^^ (1 <<< 7))))
          (n.getD k [])), log ++ evs) ∧
      (∀ e ∈ evs, GoodEvent N c e) ∧ evs.filterMap branchIdx = [] := by
  rw [updateNeighborCountLog_unfold _ c n N k (-1) log ht hk]
  have hc8 : ∀ j, j < N → (n.getD j []).countP (fun x => f x.toNat) ≤ 8 := fun j hj =>
    le_trans (List.countP_le_length _) (ht.small j hj)
  have hv : (g.getD k 0 &&& (0xFF ^^^ (1 <<< 7))) =
      enc false ((n.getD k []).countP (fun x => f x.toNat)) := by
    rw [he k (hN ▸ hk), hf, enc_andNot _ (by have := hc8 k hk; omega)]
  have hset := flag_set_getD n N f g k _ false hN he hk hv
  apply updLog_fold c (-1) N (Function.update f k false)
    (fun l j => (n.getD j []).countP (fun x => Function.update f k false x.toNat) +
      (if (j : Int) ∈ l then 1 else 0)) (n.getD k []) m _ log
    (by rw [List.length_set]; exact hN) (ht.nodup k hk) (ht.range k hk)
  · intro j hj
    rw [hset j hj, ← countP_set_false n N f k j ht hk hj hf]
  · intro l2 hs j hj
    have h1 := countP_set_false n N f k j ht hk hj hf
    have h2 := hc8 j hj
    by_cases hjl : (j : Int) ∈ l2
    · rw [if_pos hjl]
      rw [if_pos (hs.subset hjl)] at h1
      omega
    · rw [if_neg hjl]
      split at h1 <;> omega
  · intro i l2 hs
    obtain ⟨hil, hil2, _⟩ := suffix_facts _ i l2 (ht.nodup k hk) hs
    have hr := ht.range k hk i hil
    have hiN : i.toNat < N := by omega
    have hie : ((i.toNat : Nat) : Int) = i := Int.toNat_of_nonneg hr.1
    have h1 := countP_set_false n N f k i.toNat ht hk hiN hf
    rw [hie, if_pos hil] at h1
    have h2 := hc8 i.toNat hiN
    constructor
    · simp only [hie, List.mem_cons, true_or, if_true, if_neg hil2, Nat.add_zero]
      unfold tick
      rw [if_neg (by decide), enc_dec _ _ (by omega) (by omega)]
      congr 1
    · intro j hj
      have hji : (j : Int) ≠ i := by omega
      simp only [List.mem_cons, hji, false_or]


theorem runRulesForCellLog_unfold (m : Mem) (cp np : Buf) (n : List (List Int)) (N k : Nat)
    (log : List Event) (hcp : (m.buf cp).length = N) (hnp : (m.buf np).length = N)
    (hk : k < N) :
    runRulesForCellLog m cp np n (k : Int) log =
      if !isAlive ((m.buf cp).getD k 0) && count ((m.buf cp).getD k 0) == 3 then
        updateNeighborCountLog
          (m.setBuf np ((m.buf np).set k ((m.buf np).getD k 0 ||| (1 <<< 7)))) np n (k : Int) 1
          (log ++ [Event.birth (k : Int) m])
      else if isAlive ((m.buf cp).getD k 0) &&
          (count ((m.buf cp).getD k 0) == 3 || count ((m.buf cp).getD k 0) == 2) then
        some (m, log)
      else if isAlive ((m.buf cp).getD k 0) then
        updateNeighborCountLog
          (m.setBuf np ((m.buf np).set k ((m.buf np).getD k 0 &&& (0xFF ^^^ (1 <<< 7))))) np n
          (k : Int) (-1) (log ++ [Event.death (k : Int) m])
      else some (m, log) := by
  unfold runRulesForCellLog
  rw [cellFromGrid_eq m cp k (hcp ▸ hk), cellFromGrid_eq m np k (hnp ▸ hk)]
  rfl

/-- One logged call of `runRulesForCell` for a cell whose flag in the next
array is still the current one: the memory is that of the unlogged call, at
most one branch entry is logged, it is for this cell, and every logged entry
is as the claims say. -/
theorem runRulesForCellLog_eq (m : Mem) (cp np : Buf) (n : List (List Int)) (N k : Nat)
    (f : Nat → Bool) (log : List Event) (ht : TableOK n N)
    (hcp : (m.buf cp).length = N) (hnp : (m.buf np).length = N) (hk : k < N)
    (he : Encodes n f (m.buf np)) (hf : f k = isAlive ((m.buf cp).getD k 0)) :
    ∃ evs, runRulesForCellLog m cp np n (k : Int) log =
        some (m.setBuf np (cellStep n (m.buf cp) (m.buf np) k), log ++ evs) ∧
      (∀ e ∈ evs, GoodEvent N np e) ∧ (evs.filterMap branchIdx).Sublist [(k : Int)] := by
  rw [runRulesForCellLog_unfold m cp np n N k log hcp hnp hk]
  unfold cellStep
  simp only
  have hflag := encodes_flag n N f _ ht hnp he k hk
  generalize (m.buf cp).getD k 0 = b at hf ⊢
  rcases nextAlive_cases b with ⟨ha, hc, _⟩ | ⟨ha, hc, _⟩ | ⟨ha, hc, _⟩ | ⟨ha, hc, _⟩
  · rw [if_pos (by simp [ha, hc]), if_pos (by simp [ha, hc])]
    obtain ⟨evs, hrun, hgood, hbr⟩ := birthLog_eq m np n N k f (m.buf np)
      (log ++ [Event.birth (k : Int) m]) ht hk hnp he (hf.trans ha)
    refine ⟨Event.birth (k : Int) m :: evs, ?_, ?_, ?_⟩
    · rw [hrun]; simp
    · intro e hmem
      rcases List.mem_cons.mp hmem with rfl | hmem
      · show isAlive ((m.buf np).getD ((k : Nat) : Int).toNat 0) = false
        rw [Int.toNat_ofNat, hflag, hf, ha]
      · exact hgood e hmem
    · rw [List.filterMap_cons]
      simp [branchIdx, hbr]
  · rw [if_neg (by simp [ha]), if_pos (by simpa [ha] using hc), if_neg (by simp [ha]),
      if_pos (by simpa [ha] using hc)]
    exact ⟨[], by simp, by simp, by simp⟩
  · have hc2 : ¬ (count b = 3) ∧ ¬ (count b = 2) := by
      constructor <;> intro h <;> exact hc (by simp [h])
    rw [if_neg (by simp [ha]), if_neg (by simp [ha, hc2.1, hc2.2]), if_pos ha,
      if_neg (by simp [ha]), if_neg (by simp [ha, hc2.1, hc2.2]), if_pos ha]
    obtain ⟨evs, hrun, hgood, hbr⟩ := deathLog_eq m np n N k f (m.buf np)
      (log ++ [Event.death (k : Int) m]) ht hk hnp he (hf.trans ha)
    refine ⟨Event.death (k : Int) m :: evs, ?_, ?_, ?_⟩
    · rw [hrun]; simp
    · intro e hmem
      rcases List.mem_cons.mp hmem with rfl | hmem
      · show isAlive ((m.buf np).getD ((k : Nat) : Int).toNat 0) = true
        rw [Int.toNat_ofNat, hflag, hf, ha]
      · exact hgood e hmem
    · rw [List.filterMap_cons]
      simp [branchIdx, hbr]
  · rw [if_neg (by simp [ha, hc]), if_neg (by simp [ha]), if_neg (by simp [ha]),
      if_neg (by simp [ha, hc]), if_neg (by simp [ha]), if_neg (by simp [ha])]
    exact ⟨[], by simp, by simp, by simp⟩


/-- The logged rule pass over `order` (each cell once, its flag in the next
array still the current one): the memory is that of the unlogged pass, every
logged entry is as the claims say, and the cells of the logged branch
entries form a sublist of `order`. -/
theorem rulePassLog_fold (n : List (List Int)) (N : Nat) (cp np : Buf) (hne : cp ≠ np)
    (ht : TableOK n N) (order : List Nat) :
    ∀ (m : Mem) (f : Nat → Bool) (log : List Event),
      (m.buf cp).length = N → (m.buf np).length = N → Encodes n f (m.buf np) → order.Nodup →
      (∀ k ∈ order, k < N ∧ f k = isAlive ((m.buf cp).getD k 0)) →
      ∃ evs, order.foldlM (fun (s : Mem × List Event) (k : Nat) =>
          runRulesForCellLog s.1 cp np n (k : Int) s.2) (m, log) =
          some (m.setBuf np (order.foldl (cellStep n (m.buf cp)) (m.buf np)), log ++ evs) ∧
        (∀ e ∈ evs, GoodEvent N np e) ∧
        (evs.filterMap branchIdx).Sublist (order.map (fun (k : Nat) => (k : Int))) := by
  induction order with
  | nil =>
    intro m f log _ _ _ _ _
    exact ⟨[], by simp, by simp, by simp⟩
  | cons k order ih =>
    intro m f log hcp hnp he hnd hall
    have hk := hall k (List.mem_cons_self _ _)
    have hkn : k ∉ order := (List.nodup_cons.mp hnd).1
    obtain ⟨evs1, hrun1, hgood1, hbr1⟩ :=
      runRulesForCellLog_eq m cp np n N k f log ht hcp hnp hk.1 he hk.2
    have he1 := encodes_cellStep n N f (m.buf cp) (m.buf np) k ht hnp he hk.1 hk.2
    obtain ⟨evs2, hrun2, hgood2, hbr2⟩ :=
      ih (m.setBuf np (cellStep n (m.buf cp) (m.buf np) k))
        (Function.update f k (nextAlive ((m.buf cp).getD k 0))) (log ++ evs1)
        (by rw [buf_setBuf_of_ne _ _ _ _ hne]; exact hcp)
        (by rw [buf_setBuf_same, cellStep_length]; exact hnp)
        (by rw [buf_setBuf_same]; exact he1) (List.nodup_cons.mp hnd).2
        (by
          intro k2 hk2
          have hne2 : k2 ≠ k := fun e => hkn (e ▸ hk2)
          rw [Function.update_noteq hne2, buf_setBuf_of_ne _ _ _ _ hne]
          exact hall k2 (List.mem_cons_of_mem _ hk2))
    refine ⟨evs1 ++ evs2, ?_, ?_, ?_⟩
    · rw [List.foldlM_cons, hrun1]
      simp only [Option.bind_eq_bind, Option.some_bind]
      rw [hrun2]
      simp only [buf_setBuf_of_ne _ _ _ _ hne, buf_setBuf_same, setBuf_setBuf,
        List.foldl_cons, List.append_assoc]
    · intro e hmem
      rcases List.mem_append.mp hmem with h | h
      · exact hgood1 e h
      · exact hgood2 e h
    · rw [List.filterMap_append, List.map_cons]
      exact List.Sublist.append hbr1 hbr2

/-- The logged `runRules` from a current array satisfying I1: it returns the
memory of `runRules`, every logged entry is as the claims say, and no cell
has two logged branch entries. -/
theorem runRulesLog_eq (W H : Nat) (m : Mem) (cp np : Buf) (hne : cp ≠ np)
    (hcp : (m.buf cp).length = W * H) (hnp : (m.buf np).length = W * H)
    (hb : IsBytes (m.buf cp)) (hI : I1 (neighborIdxs W H) (m.buf cp)) :
    ∃ log, runRulesLog W H m cp np (neighborIdxs W H) =
        some (m.setBuf np (nextGeneration W H (neighborIdxs W H) (m.buf cp)), log) ∧
      (∀ e ∈ log, GoodEvent (W * H) np e) ∧ (log.filterMap branchIdx).Nodup := by
  have ht := tableOK_neighborIdxs W H
  have he := encodes_of_I1 _ (W * H) _ ht hcp hb hI
  obtain ⟨evs, hrun, hgood, hbr⟩ := rulePassLog_fold (neighborIdxs W H) (W * H) cp np hne ht
    (rowMajorOrder W H) (m.setBuf np (m.buf cp)) (fun j => isAlive ((m.buf cp).getD j 0)) []
    (by rw [buf_setBuf_of_ne _ _ _ _ hne]; exact hcp) (by rw [buf_setBuf_same]; exact hcp)
    (by rw [buf_setBuf_same]; exact he)
    (by rw [rowMajorOrder_eq_range]; exact List.nodup_range _)
    (by
      intro k hk
      rw [rowMajorOrder_eq_range] at hk
      rw [buf_setBuf_of_ne _ _ _ _ hne]
      exact ⟨List.mem_range.mp hk, rfl⟩)
  refine ⟨evs, ?_, hgood, ?_⟩
  · unfold runRulesLog
    rw [snapshotCopy_eq W H m cp np hne hcp hnp]
    simp only
    have hloops := foldlM_rows_cols W H (fun (s : Mem × List Event) (k : Nat) =>
      runRulesForCellLog s.1 cp np (neighborIdxs W H) (k : Int) s.2)
      (m.setBuf np (m.buf cp), ([] : List Event))
    simp only [Nat.cast_add, Nat.cast_mul] at hloops
    rw [hloops, hrun]
    simp only [buf_setBuf_of_ne _ _ _ _ hne, buf_setBuf_same, setBuf_setBuf, List.nil_append]
    rfl
  · apply List.Nodup.sublist hbr
    apply List.Nodup.map_on
    · intro x _ y _ hxy
      exact_mod_cast hxy
    · rw [rowMajorOrder_eq_range]; exact List.nodup_range _


/-- C16. Neighbour counts never leave [0,8] during a step.  For every memory
whose current array (distinct from the next array, both of `W * H` bytes)
satisfies I1, the logged `runRules` returns with the memory of `runRules`,
and for every single `c[i]++` or `c[i]--` it logged, every count of the next
array is at most 8 right after it and every alive flag of the next array is
as it was right before it (no carry into, no borrow from, the alive bit). -/
theorem C16_counts_stay_in_range (W H : Nat) (m : Mem) (cellsPtr nextGenPtr : Buf)
    (hdist : cellsPtr ≠ nextGenPtr)
    (hcur : (m.buf cellsPtr).length = W * H) (hnext : (m.buf nextGenPtr).length = W * H)
    (hbytes : IsBytes (m.buf cellsPtr)) (hI1 : I1 (neighborIdxs W H) (m.buf cellsPtr)) :
    ∃ m2 log, runRulesLog W H m cellsPtr nextGenPtr (neighborIdxs W H) = some (m2, log) ∧
      runRules W H m cellsPtr nextGenPtr (neighborIdxs W H) =
        some (m2, cellsPtr, nextGenPtr) ∧
      ∀ before after, Event.tick before after ∈ log →
        (∀ j, j < W * H → count ((after.buf nextGenPtr).getD j 0) ≤ 8) ∧
        (∀ j, j < W * H → isAlive ((after.buf nextGenPtr).getD j 0) =
          isAlive ((before.buf nextGenPtr).getD j 0)) := by
  obtain ⟨log, hrun, hgood, _⟩ :=
    runRulesLog_eq W H m cellsPtr nextGenPtr hdist hcur hnext hbytes hI1
  refine ⟨_, log, hrun,
    runRules_eq W H m cellsPtr nextGenPtr _ (tableOK_neighborIdxs W H) hdist hcur hnext, ?_⟩
  intro before after hmem
  exact hgood _ hmem

/-- C16 at the 3 by 3 memory `demoMem`. -/
theorem C16_counts_stay_in_range_witness :
    ∃ m2 log, runRulesLog 3 3 demoMem Buf.cells Buf.nextGen (neighborIdxs 3 3) =
        some (m2, log) ∧
      runRules 3 3 demoMem Buf.cells Buf.nextGen (neighborIdxs 3 3) =
        some (m2, Buf.cells, Buf.nextGen) ∧
      ∀ before after, Event.tick before after ∈ log →
        (∀ j, j < 3 * 3 → count ((after.buf Buf.nextGen).getD j 0) ≤ 8) ∧
        (∀ j, j < 3 * 3 → isAlive ((after.buf Buf.nextGen).getD j 0) =
          isAlive ((before.buf Buf.nextGen).getD j 0)) :=
  C16_counts_stay_in_range 3 3 demoMem Buf.cells Buf.nextGen (by decide) (by decide)
    (by decide) (by decide) (by decide)

/-- C17. Every transition starts from the correct prior state and happens at
most once.  For every memory whose current array (distinct from the next
array, both of `W * H` bytes) satisfies I1, the logged `runRules` returns
with the memory of `runRules`; every birth branch it logged was entered with
the cell dead in the next array at that moment, every death branch with the
cell alive in the next array at that moment, and no cell has two logged
branch entries. -/
theorem C17_transitions_once_from_right_state (W H : Nat) (m : Mem)
    (cellsPtr nextGenPtr : Buf) (hdist : cellsPtr ≠ nextGenPtr)
    (hcur : (m.buf cellsPtr).length = W * H) (hnext : (m.buf nextGenPtr).length = W * H)
    (hbytes : IsBytes (m.buf cellsPtr)) (hI1 : I1 (neighborIdxs W H) (m.buf cellsPtr)) :
    ∃ m2 log, runRulesLog W H m cellsPtr nextGenPtr (neighborIdxs W H) = some (m2, log) ∧
      runRules W H m cellsPtr nextGenPtr (neighborIdxs W H) =
        some (m2, cellsPtr, nextGenPtr) ∧
      (∀ idx before, Event.birth idx before ∈ log →
        isAlive ((before.buf nextGenPtr).getD idx.toNat 0) = false) ∧
      (∀ idx before, Event.death idx before ∈ log →
        isAlive ((before.buf nextGenPtr).getD idx.toNat 0) = true) ∧
      (log.filterMap branchIdx).Nodup := by
  obtain ⟨log, hrun, hgood, hnd⟩ :=
    runRulesLog_eq W H m cellsPtr nextGenPtr hdist hcur hnext hbytes hI1
  refine ⟨_, log, hrun,
    runRules_eq W H m cellsPtr nextGenPtr _ (tableOK_neighborIdxs W H) hdist hcur hnext,
    ?_, ?_, hnd⟩
  · intro idx before hmem
    exact hgood _ hmem
  · intro idx before hmem
    exact hgood _ hmem

/-- C17 at the 3 by 3 memory `demoMem`. -/
theorem C17_transitions_once_from_right_state_witness :
    ∃ m2 log, runRulesLog 3 3 demoMem Buf.cells Buf.nextGen (neighborIdxs 3 3) =
        some (m2, log) ∧
      runRules 3 3 demoMem Buf.cells Buf.nextGen (neighborIdxs 3 3) =
        some (m2, Buf.cells, Buf.nextGen) ∧
      (∀ idx before, Event.birth idx before ∈ log →
        isAlive ((before.buf Buf.nextGen).getD idx.toNat 0) = false) ∧
      (∀ idx before, Event.death idx before ∈ log →
        isAlive ((before.buf Buf.nextGen).getD idx.toNat 0) = true) ∧
      (log.filterMap branchIdx).Nodup :=
  C17_transitions_once_from_right_state 3 3 demoMem Buf.cells Buf.nextGen (by decide)
    (by decide) (by decide) (by decide) (by decide)

/-! ## The decision of `runRulesForCell` -/

/-- The logged update loop on any array of `N` bytes with in-range indices:
it returns the array of `bump` and logs no branch entry. -/
theorem updLog_fold_any (c : Buf) (amt : Int) (N : Nat) (l : List Int) :
    ∀ (m : Mem) (g : List Nat) (log : List Event),
      g.length = N → (∀ x ∈ l, 0 ≤ x ∧ x < (N : Int)) →
      ∃ evs, l.foldlM (fun (s : Mem × List Event) (i : Int) =>
          if 0 ≤ i ∧ i < (s.1.buf c).length then
            some (s.1.setBuf c ((s.1.buf c).set i.toNat (tick amt ((s.1.buf c).getD i.toNat 0))),
              s.2 ++ [Event.tick s.1
                (s.1.setBuf c ((s.1.buf c).set i.toNat (tick amt ((s.1.buf c).getD i.toNat 0))))])
          else none) (m.setBuf c g, log) =
          some (m.setBuf c (bump amt g l), log ++ evs) ∧
        evs.filterMap branchKind = [] := by
  induction l with
  | nil =>
    intro m g log _ _
    exact ⟨[], by simp [bump_nil], rfl⟩
  | cons i l ih =>
    intro m g log hN hr
    have hi := hr i (List.mem_cons_self _ _)
    obtain ⟨evs, hrun, hbr⟩ := ih m (g.set i.toNat (tick amt (g.getD i.toNat 0)))
      (log ++ [Event.tick (m.setBuf c g)
        (m.setBuf c (g.set i.toNat (tick amt (g.getD i.toNat 0))))])
      (by rw [List.length_set]; exact hN) (fun x hx => hr x (List.mem_cons_of_mem _ hx))
    refine ⟨Event.tick (m.setBuf c g)
      (m.setBuf c (g.set i.toNat (tick amt (g.getD i.toNat 0)))) :: evs, ?_, ?_⟩
    · rw [List.foldlM_cons]
      simp only [buf_setBuf_same, hN, hi, and_self, if_true, Option.bind_eq_bind,
        Option.some_bind, setBuf_setBuf]
      rw [hrun, bump_cons]
      simp
    · rw [List.filterMap_cons]
      simpa [branchKind] using hbr

theorem updateNeighborCountLog_any (m : Mem) (c : Buf) (n : List (List Int)) (N k : Nat)
    (amt : Int) (log : List Event) (ht : TableOK n N) (hk : k < N)
    (hc : (m.buf c).length = N) :
    ∃ evs, updateNeighborCountLog m c n (k : Int) amt log =
        some (m.setBuf c (bump amt (m.buf c) (n.getD k [])), log ++ evs) ∧
      evs.filterMap branchKind = [] := by
  rw [updateNeighborCountLog_unfold m c n N k amt log ht hk]
  have h := updLog_fold_any c amt N (n.getD k []) m (m.buf c) log hc (ht.range k hk)
  rw [setBuf_buf] at h
  exact h

/-- One logged call of `runRulesForCell` on any two arrays of `N` bytes: it
returns the memory of the unlogged call, and the branch it logs is decided by
the byte `current[k]`: a birth when that byte is dead with count 3, a death
when it is alive with a count other than 2 and 3, nothing otherwise. -/
theorem runRulesForCellLog_decision (m : Mem) (cp np : Buf) (n : List (List Int)) (N k : Nat)
    (log : List Event) (ht : TableOK n N) (hcp : (m.buf cp).length = N)
    (hnp : (m.buf np).length = N) (hk : k < N) :
    ∃ evs, runRulesForCellLog m cp np n (k : Int) log =
        some (m.setBuf np (cellStep n (m.buf cp) (m.buf np) k), log ++ evs) ∧
      evs.filterMap branchKind =
        if isAlive ((m.buf cp).getD k 0) = false ∧ count ((m.buf cp).getD k 0) = 3 then
          [(true, (k : Int))]
        else if isAlive ((m.buf cp).getD k 0) = true ∧ count ((m.buf cp).getD k 0) ≠ 2 ∧
            count ((m.buf cp).getD k 0) ≠ 3 then [(false, (k : Int))]
        else [] := by
  rw [runRulesForCellLog_unfold m cp np n N k log hcp hnp hk]
  unfold cellStep
  simp only
  have hlen1 : ∀ v, ((m.setBuf np ((m.buf np).set k v)).buf np).length = N := by
    intro v; rw [buf_setBuf_same, List.length_set]; exact hnp
  generalize (m.buf cp).getD k 0 = b
  rcases nextAlive_cases b with ⟨ha, hc, _⟩ | ⟨ha, hc, _⟩ | ⟨ha, hc, _⟩ | ⟨ha, hc, _⟩
  · rw [if_pos (by simp [ha, hc]), if_pos (by simp [ha, hc]), if_pos ⟨ha, hc⟩]
    obtain ⟨evs, hrun, hbr⟩ := updateNeighborCountLog_any
      (m.setBuf np ((m.buf np).set k ((m.buf np).getD k 0 ||| (1 <<< 7)))) np n N k 1
      (log ++ [Event.birth (k : Int) m]) ht hk (hlen1 _)
    refine ⟨Event.birth (k : Int) m :: evs, ?_, ?_⟩
    · rw [hrun]; simp
    · rw [List.filterMap_cons]
      simp [branchKind, hbr]
  · rw [if_neg (by simp [ha]), if_pos (by simpa [ha] using hc), if_neg (by simp [ha]),
      if_pos (by simpa [ha] using hc), if_neg (by simp [ha]), if_neg (by
        intro h; rcases hc with h3 | h2
        · exact h.2.2 h3
        · exact h.2.1 h2)]
    exact ⟨[], by simp, by simp⟩
  · have hc2 : ¬ (count b = 3) ∧ ¬ (count b = 2) := by
      constructor <;> intro h <;> exact hc (by simp [h])
    rw [if_neg (by simp [ha]), if_neg (by simp [ha, hc2.1, hc2.2]), if_pos ha,
      if_neg (by simp [ha]), if_neg (by simp [ha, hc2.1, hc2.2]), if_pos ha,
      if_neg (by simp [ha]), if_pos ⟨ha, hc2.2, hc2.1⟩]
    obtain ⟨evs, hrun, hbr⟩ := updateNeighborCountLog_any
      (m.setBuf np ((m.buf np).set k ((m.buf np).getD k 0 &&& (0xFF ^^^ (1 <<< 7))))) np n N k
      (-1) (log ++ [Event.death (k : Int) m]) ht hk (hlen1 _)
    refine ⟨Event.death (k : Int) m :: evs, ?_, ?_⟩
    · rw [hrun]; simp
    · rw [List.filterMap_cons]
      simp [branchKind, hbr]
  · rw [if_neg (by simp [ha, hc]), if_neg (by simp [ha]), if_neg (by simp [ha]),
      if_neg (by simp [ha, hc]), if_neg (by simp [ha]), if_neg (by simp [ha]),
      if_neg (by simp [ha, hc]), if_neg (by simp [ha])]
    exact ⟨[], by simp, by simp⟩

/-- C19. The current generation is frozen during a step.  With two distinct
arrays of `W * H` bytes, `runRules` returns and leaves the array passed as
`cellsPtr` as it was; so does every call of `runRulesForCell`; what
`runRulesForCell` does to the next array for cell `idx` is the same for any
two memories with the same next array and the same byte `current[idx]`; and
the birth/death decision for `idx` is a function of `current[idx]` alone:
for any other memory with the same byte `current[idx]`, whatever its next
array and its other current cells, the logged call (which returns the memory
of `runRulesForCell`) records the same decision, namely a birth when
`current[idx]` is dead with count 3, a death when it is alive with a count
other than 2 and 3, and nothing otherwise. -/
theorem C19_current_generation_frozen (W H : Nat) (m : Mem) (cellsPtr nextGenPtr : Buf)
    (hdist : cellsPtr ≠ nextGenPtr)
    (hcur : (m.buf cellsPtr).length = W * H) (hnext : (m.buf nextGenPtr).length = W * H) :
    (∃ m2, runRules W H m cellsPtr nextGenPtr (neighborIdxs W H) =
        some (m2, cellsPtr, nextGenPtr) ∧ m2.buf cellsPtr = m.buf cellsPtr) ∧
    (∀ idx : Nat, idx < W * H →
      ∃ m3, runRulesForCell m cellsPtr nextGenPtr (neighborIdxs W H) (idx : Int) = some m3 ∧
        m3.buf cellsPtr = m.buf cellsPtr) ∧
    (∀ idx : Nat, idx < W * H → ∀ other : Mem,
      (other.buf cellsPtr).length = W * H → other.buf nextGenPtr = m.buf nextGenPtr →
      (other.buf cellsPtr).getD idx 0 = (m.buf cellsPtr).getD idx 0 →
      ∃ g, runRulesForCell m cellsPtr nextGenPtr (neighborIdxs W H) (idx : Int) =
          some (m.setBuf nextGenPtr g) ∧
        runRulesForCell other cellsPtr nextGenPtr (neighborIdxs W H) (idx : Int) =
          some (other.setBuf nextGenPtr g)) ∧
    (∀ idx : Nat, idx < W * H → ∀ other : Mem,
      (other.buf cellsPtr).length = W * H → (other.buf nextGenPtr).length = W * H →
      (other.buf cellsPtr).getD idx 0 = (m.buf cellsPtr).getD idx 0 →
      ∃ m3 log3 o3 olog3,
        runRulesForCellLog m cellsPtr nextGenPtr (neighborIdxs W H) (idx : Int) [] =
          some (m3, log3) ∧
        runRulesForCell m cellsPtr nextGenPtr (neighborIdxs W H) (idx : Int) = some m3 ∧
        runRulesForCellLog other cellsPtr nextGenPtr (neighborIdxs W H) (idx : Int) [] =
          some (o3, olog3) ∧
        runRulesForCell other cellsPtr nextGenPtr (neighborIdxs W H) (idx : Int) = some o3 ∧
        log3.filterMap branchKind = olog3.filterMap branchKind ∧
        log3.filterMap branchKind =
          if isAlive ((m.buf cellsPtr).getD idx 0) = false ∧
              count ((m.buf cellsPtr).getD idx 0) = 3 then [(true, (idx : Int))]
          else if isAlive ((m.buf cellsPtr).getD idx 0) = true ∧
              count ((m.buf cellsPtr).getD idx 0) ≠ 2 ∧
              count ((m.buf cellsPtr).getD idx 0) ≠ 3 then [(false, (idx : Int))]
          else []) := by
  have ht := tableOK_neighborIdxs W H
  refine ⟨⟨_, runRules_eq W H m cellsPtr nextGenPtr _ ht hdist hcur hnext,
    buf_setBuf_of_ne _ _ _ _ hdist⟩, ?_, ?_, ?_⟩
  · intro idx hidx
    exact ⟨_, runRulesForCell_eq m cellsPtr nextGenPtr _ (W * H) idx ht hcur hnext hidx,
      buf_setBuf_of_ne _ _ _ _ hdist⟩
  · intro idx hidx other hoc hon hbyte
    refine ⟨_, runRulesForCell_eq m cellsPtr nextGenPtr _ (W * H) idx ht hcur hnext hidx, ?_⟩
    rw [runRulesForCell_eq other cellsPtr nextGenPtr _ (W * H) idx ht hoc (hon ▸ hnext) hidx,
      hon, cellStep_congr_cur _ _ _ _ _ hbyte]
  · intro idx hidx other hoc hon hbyte
    obtain ⟨evs, hrun, hdec⟩ := runRulesForCellLog_decision m cellsPtr nextGenPtr
      (neighborIdxs W H) (W * H) idx [] ht hcur hnext hidx
    obtain ⟨oevs, horun, hodec⟩ := runRulesForCellLog_decision other cellsPtr nextGenPtr
      (neighborIdxs W H) (W * H) idx [] ht hoc hon hidx
    rw [List.nil_append] at hrun horun
    rw [hbyte] at hodec
    exact ⟨_, evs, _, oevs, hrun,
      runRulesForCell_eq m cellsPtr nextGenPtr _ (W * H) idx ht hcur hnext hidx, horun,
      runRulesForCell_eq other cellsPtr nextGenPtr _ (W * H) idx ht hoc hon hidx,
      hdec.trans hodec.symm, hdec⟩

/-- C19 at the 3 by 3 memory `demoMem`. -/
theorem C19_current_generation_frozen_witness :
    (∃ m2, runRules 3 3 demoMem Buf.cells Buf.nextGen (neighborIdxs 3 3) =
        some (m2, Buf.cells, Buf.nextGen) ∧ m2.buf Buf.cells = demoMem.buf Buf.cells) ∧
    (∀ idx : Nat, idx < 3 * 3 →
      ∃ m3, runRulesForCell demoMem Buf.cells Buf.nextGen (neighborIdxs 3 3) (idx : Int) =
          some m3 ∧ m3.buf Buf.cells = demoMem.buf Buf.cells) ∧
    (∀ idx : Nat, idx < 3 * 3 → ∀ other : Mem,
      (other.buf Buf.cells).length = 3 * 3 → other.buf Buf.nextGen = demoMem.buf Buf.nextGen →
      (other.buf Buf.cells).getD idx 0 = (demoMem.buf Buf.cells).getD idx 0 →
      ∃ g, runRulesForCell demoMem Buf.cells Buf.nextGen (neighborIdxs 3 3) (idx : Int) =
          some (demoMem.setBuf Buf.nextGen g) ∧
        runRulesForCell other Buf.cells Buf.nextGen (neighborIdxs 3 3) (idx : Int) =
          some (other.setBuf Buf.nextGen g)) ∧
    (∀ idx : Nat, idx < 3 * 3 → ∀ other : Mem,
      (other.buf Buf.cells).length = 3 * 3 → (other.buf Buf.nextGen).length = 3 * 3 →
      (other.buf Buf.cells).getD idx 0 = (demoMem.buf Buf.cells).getD idx 0 →
      ∃ m3 log3 o3 olog3,
        runRulesForCellLog demoMem Buf.cells Buf.nextGen (neighborIdxs 3 3) (idx : Int) [] =
          some (m3, log3) ∧
        runRulesForCell demoMem Buf.cells Buf.nextGen (neighborIdxs 3 3) (idx : Int) =
          some m3 ∧
        runRulesForCellLog other Buf.cells Buf.nextGen (neighborIdxs 3 3) (idx : Int) [] =
          some (o3, olog3) ∧
        runRulesForCell other Buf.cells Buf.nextGen (neighborIdxs 3 3) (idx : Int) = some o3 ∧
        log3.filterMap branchKind = olog3.filterMap branchKind ∧
        log3.filterMap branchKind =
          if isAlive ((demoMem.buf Buf.cells).getD idx 0) = false ∧
              count ((demoMem.buf Buf.cells).getD idx 0) = 3 then [(true, (idx : Int))]
          else if isAlive ((demoMem.buf Buf.cells).getD idx 0) = true ∧
              count ((demoMem.buf Buf.cells).getD idx 0) ≠ 2 ∧
              count ((demoMem.buf Buf.cells).getD idx 0) ≠ 3 then [(false, (idx : Int))]
          else []) :=
  C19_current_generation_frozen 3 3 demoMem Buf.cells Buf.nextGen (by decide) (by decide)
    (by decide)

end Golife
